import Mathlib

/-!
# QuantLib finite-difference pricers

A shallow embedding of the control-variate American pricer
(Sources/Pricers/bsmamericanoption.cpp), of the European finite-difference
pricer (Sources/Pricers/finitedifferenceeuropean.cpp), of the multivariate
accumulator (Sources/Math/multivariateaccumulator.cpp), of the drift of the
Black-Scholes process (ql/diffusionprocess.cpp), of the constructor of the
swaption volatility cube (ql/Volatilities/swaptionvolcube.cpp) and of the
collector of node data along market-model paths
(ql/marketmodels/lsdatacollector.cpp).

Conventions of the embedding:

* a C++ double is an element of an arbitrary linearly ordered field `α`
  (the theorems hold for every such field, the concrete runs use `ℚ`); the
  accumulator is written for any arithmetic and is also run in `Binary64`,
  the arithmetic of IEEE 754 doubles, where every operation rounds;
* an `Array` is a `List α`;
* a member function of a mutable object is a function from the object to a
  `Run`: the returned value or the raised error, the object after the call
  (also when the call raised), and the collaborator calls made, in order;
* code that is called but whose source is not at hand is either modelled from
  the specification (the doc comment says so) or taken as a parameter
  (`Hooks`, `Collaborators`).
-/

namespace QuantLib

/-- Error conditions raised by the finite-difference core. -/
inductive Error where
  | InvalidArgument
  | NumericalFailure
  deriving DecidableEq, Repr

/-- Option kind, the first constructor argument of every pricer. -/
inductive OptionType where
  | Call
  | Put
  | Straddle
  deriving DecidableEq, Repr

/-- Value of a C++ int after arithmetic that left the 32-bit range (two's complement wrap). -/
def wrapInt32 (z : Int) : Int := (z + 2 ^ 31) % 2 ^ 32 - 2 ^ 31

namespace FiniteDifferences

variable {α : Type} [LinearOrderedField α]

/-- Modelled from the spec: the TridiagonalOperator class is not among the sources.
Three sequences of N coefficients (sub-diagonal, diagonal, super-diagonal); row i of
the matrix is (belowDiagonal[i], diagonal[i], aboveDiagonal[i]), the first
sub-diagonal and the last super-diagonal coefficient have no neighbour to act on. -/
structure TridiagonalOperator (α : Type) where
  belowDiagonal : List α
  diagonal : List α
  aboveDiagonal : List α
  deriving DecidableEq, Repr

namespace TridiagonalOperator

/-- Dimension N of the operator. -/
def size (L : TridiagonalOperator α) : Nat := L.diagonal.length

/-- Modelled from the spec: the implicit identity operator (diagonal = 1, others = 0). -/
def identity (n : Nat) : TridiagonalOperator α :=
  ⟨List.replicate n 0, List.replicate n 1, List.replicate n 0⟩

/-- Modelled from the spec: scalar scaling, element-wise on the three diagonals. -/
def scale (c : α) (L : TridiagonalOperator α) : TridiagonalOperator α :=
  ⟨L.belowDiagonal.map (c * ·), L.diagonal.map (c * ·), L.aboveDiagonal.map (c * ·)⟩

/-- Modelled from the spec: addition of operators, element-wise on the three diagonals. -/
def add (L M : TridiagonalOperator α) : TridiagonalOperator α :=
  ⟨List.zipWith (· + ·) L.belowDiagonal M.belowDiagonal,
   List.zipWith (· + ·) L.diagonal M.diagonal,
   List.zipWith (· + ·) L.aboveDiagonal M.aboveDiagonal⟩

/-- Rows of the matrix-vector product; the argument prev is the entry of the vector left of
the current one (0 before the first), the entry right of the last one is 0. -/
def applyRows : List α → List α → List α → α → List α → List α
  | l :: ls, d :: ds, u :: us, prev, x :: xs =>
      (l * prev + d * x + u * xs.headD 0) :: applyRows ls ds us x xs
  | _, _, _, _, _ => []

/-- The three diagonals and the array all have the operator's dimension. -/
def conforms (L : TridiagonalOperator α) (x : List α) : Bool :=
  L.belowDiagonal.length == L.size && L.aboveDiagonal.length == L.size && x.length == L.size

/-- Modelled from the spec: apply(ValueArray) applies the linear transform; mismatched array
sizes are an InvalidArgument. -/
def applyTo (L : TridiagonalOperator α) (x : List α) : Except Error (List α) :=
  if L.conforms x then .ok (applyRows L.belowDiagonal L.diagonal L.aboveDiagonal 0 x)
  else .error .InvalidArgument

/-- Forward elimination of the direct tridiagonal solve. The arguments cPrev and dPrev are the
eliminated super-diagonal coefficient and right-hand side of the previous row (0 before the
first row). A zero pivot is a NumericalFailure. -/
def forwardElimination :
    List α → List α → List α → α → α → List α → Except Error (List (α × α))
  | l :: ls, d :: ds, u :: us, cPrev, dPrev, r :: rs =>
      let pivot := d - l * cPrev
      if pivot = 0 then .error .NumericalFailure
      else
        match forwardElimination ls ds us (u / pivot) ((r - l * dPrev) / pivot) rs with
        | .error e => .error e
        | .ok rest => .ok ((u / pivot, (r - l * dPrev) / pivot) :: rest)
  | _, _, _, _, _, _ => .ok []

/-- Back substitution of the direct tridiagonal solve, last row first. -/
def backSubstitution : List (α × α) → List α
  | [] => []
  | (c, d) :: rest => (d - c * (backSubstitution rest).headD 0) :: backSubstitution rest

/-- Modelled from the spec: solveFor(ValueArray) solves operator * x = rhs by forward
elimination and back substitution; a zero pivot fails with NumericalFailure, mismatched array
sizes with InvalidArgument. -/
def solveFor (L : TridiagonalOperator α) (rhs : List α) : Except Error (List α) :=
  if L.conforms rhs then
    match forwardElimination L.belowDiagonal L.diagonal L.aboveDiagonal 0 0 rhs with
    | .error e => .error e
    | .ok rows => .ok (backSubstitution rows)
  else .error .InvalidArgument

end TridiagonalOperator

/-- Type of the one-step evolution of a time-stepping scheme: the array, the time stepped
from and the time stepped to. -/
abbrev Evolver (α : Type) := List α → α → α → Except Error (List α)

namespace CrankNicolson

/-- Implicit/explicit weighting of the Crank-Nicolson scheme. -/
def theta : α := 1 / 2

/-- Explicit part of the scheme, I + (1 - theta) dt L. -/
def explicitPart (L : TridiagonalOperator α) (dt : α) : TridiagonalOperator α :=
  (TridiagonalOperator.identity L.size).add (L.scale ((1 - theta) * dt))

/-- Implicit part of the scheme, I - theta dt L. -/
def implicitPart (L : TridiagonalOperator α) (dt : α) : TridiagonalOperator α :=
  (TridiagonalOperator.identity L.size).add (L.scale (-(theta * dt)))

/-- Modelled from the spec: the CrankNicolson evolver is not among the sources. One
application rolls the array back from fromTime to toTime:
x_new = (I - theta dt L)^-1 (I + (1 - theta) dt L) x_old with theta = 1/2 and
dt = fromTime - toTime. -/
def step (L : TridiagonalOperator α) : Evolver α := fun a fromTime toTime =>
  match (explicitPart L (fromTime - toTime)).applyTo a with
  | .error e => .error e
  | .ok rhs => (implicitPart L (fromTime - toTime)).solveFor rhs

/-- Modelled from the spec: a sub-step whose width is not a finite number, as the double
quotient of a division by zero is (an infinity or a NaN). The sizes are checked as in every
sub-step, a mismatch being an InvalidArgument; no pivot of the solve is zero, because no
coefficient of I - theta dt L is a finite number; the entries of the resulting array are not
finite numbers either: the embedding has no value for them and leaves the array as it is. -/
def nonFiniteStep (L : TridiagonalOperator α) (a : List α) : Except Error (List α) :=
  if (explicitPart L 0).conforms a then .ok a else .error .InvalidArgument

end CrankNicolson

/-- Modelled from the spec: the early-exercise condition BSMAmericanCondition is not among the
sources. It is built from the array of intrinsic values (the payoff on the grid). -/
structure BSMAmericanCondition (α : Type) where
  initialPrices : List α
  deriving DecidableEq, Repr

/-- Modelled from the spec: for every index i, x[i] = max(x[i], intrinsic value at grid point
i). An entry of x without a recorded intrinsic value is kept. -/
def BSMAmericanCondition.applyEntries : List α → List α → List α
  | [], _ => []
  | x :: xs, [] => x :: xs
  | x :: xs, p :: ps => max x p :: BSMAmericanCondition.applyEntries xs ps

/-- Application of the early-exercise condition to an array (the time argument of the C++
signature is not used by this condition). -/
def BSMAmericanCondition.applyTo (c : BSMAmericanCondition α) (x : List α) : List α :=
  BSMAmericanCondition.applyEntries x c.initialPrices

/-- The optional step condition of a rollback: none, or the early-exercise one. -/
def applyCondition (condition : Option (BSMAmericanCondition α)) (x : List α) : List α :=
  match condition with
  | none => x
  | some c => c.applyTo x

/-- Modelled from the spec: FiniteDifferenceModel is not among the sources; it is built from
an operator through its evolver. -/
structure FiniteDifferenceModel (α : Type) where
  evolver : Evolver α

/-- The model FiniteDifferenceModel<CrankNicolson<TridiagonalOperator> > built from an
operator. -/
def crankNicolsonModel (L : TridiagonalOperator α) : FiniteDifferenceModel α :=
  ⟨CrankNicolson.step L⟩

/-- The sub-steps of a rollback: k steps of width dt downwards from time t, the step
condition applied after every sub-step. -/
def FiniteDifferenceModel.rollbackSteps (m : FiniteDifferenceModel α)
    (condition : Option (BSMAmericanCondition α)) (dt : α) : Nat → α → List α →
    Except Error (List α)
  | 0, _, a => .ok a
  | k + 1, t, a =>
      match m.evolver a t (t - dt) with
      | .error e => .error e
      | .ok a1 => FiniteDifferenceModel.rollbackSteps m condition dt k (t - dt)
          (applyCondition condition a1)

/-- Modelled from the spec: rollback(x, fromTime, toTime, nSteps, condition?). It fails with
InvalidArgument if nSteps < 0 or toTime > fromTime; nSteps = 0 or fromTime = toTime is a
no-op; otherwise the interval is split into nSteps equal sub-intervals which are stepped
through in decreasing time order, the condition being applied at fromTime and after every
sub-step. -/
def FiniteDifferenceModel.rollback (m : FiniteDifferenceModel α) (a : List α)
    (fromTime toTime : α) (nSteps : Int) (condition : Option (BSMAmericanCondition α)) :
    Except Error (List α) :=
  if nSteps < 0 ∨ fromTime < toTime then .error .InvalidArgument
  else if nSteps = 0 ∨ fromTime = toTime then .ok a
  else m.rollbackSteps condition ((fromTime - toTime) / (nSteps : α)) nSteps.toNat fromTime
    (applyCondition condition a)

/-- The arrays the step condition is applied to during the sub-steps of a rollback, in order
(the array after each sub-step). -/
def FiniteDifferenceModel.conditionInputsSteps (m : FiniteDifferenceModel α)
    (c : BSMAmericanCondition α) (dt : α) : Nat → α → List α → List (List α)
  | 0, _, _ => []
  | k + 1, t, a =>
      match m.evolver a t (t - dt) with
      | .error _ => []
      | .ok a1 => a1 :: FiniteDifferenceModel.conditionInputsSteps m c dt k (t - dt)
          (c.applyTo a1)

/-- The arrays the step condition c is applied to during rollback(a, fromTime, toTime, nSteps,
c), in order: the array handed in, then the array after each sub-step. -/
def FiniteDifferenceModel.conditionInputs (m : FiniteDifferenceModel α) (a : List α)
    (fromTime toTime : α) (nSteps : Int) (c : BSMAmericanCondition α) : List (List α) :=
  if nSteps < 0 ∨ fromTime < toTime then []
  else if nSteps = 0 ∨ fromTime = toTime then []
  else a :: m.conditionInputsSteps c ((fromTime - toTime) / (nSteps : α)) nSteps.toNat
    fromTime (c.applyTo a)

/-- The one-step evolution is order preserving for sub-steps of width dt: whenever it maps a
to a1 and b to b1 and a is pointwise below b, then a1 is pointwise below b1. -/
def FiniteDifferenceModel.OrderPreserving (m : FiniteDifferenceModel α) (dt : α) : Prop :=
  ∀ (t : α) (a b a1 b1 : List α), List.Forall₂ (· ≤ ·) a b →
    m.evolver a t (t - dt) = .ok a1 → m.evolver b t (t - dt) = .ok b1 →
    List.Forall₂ (· ≤ ·) a1 b1

/-- Modelled from the spec: valueAtCenter is not among the sources; the value at the centre
index of the array (0 for an empty array). -/
def valueAtCenter (a : List α) : α := a.getD (a.length / 2) 0

/-- Modelled from the spec: firstDerivativeAtCenter is not among the sources; the centred
first difference over the neighbouring grid coordinates. -/
def firstDerivativeAtCenter (a g : List α) : α :=
  (a.getD (a.length / 2 + 1) 0 - a.getD (a.length / 2 - 1) 0) /
    (g.getD (a.length / 2 + 1) 0 - g.getD (a.length / 2 - 1) 0)

/-- Modelled from the spec: secondDerivativeAtCenter is not among the sources; the centred
second difference, the difference of the two one-sided slopes at the centre over the half
width of the centred interval. -/
def secondDerivativeAtCenter (a g : List α) : α :=
  ((a.getD (a.length / 2 + 1) 0 - a.getD (a.length / 2) 0) /
      (g.getD (a.length / 2 + 1) 0 - g.getD (a.length / 2) 0) -
    (a.getD (a.length / 2) 0 - a.getD (a.length / 2 - 1) 0) /
      (g.getD (a.length / 2) 0 - g.getD (a.length / 2 - 1) 0)) /
    ((g.getD (a.length / 2 + 1) 0 - g.getD (a.length / 2 - 1) 0) / 2)

end FiniteDifferences

namespace Pricers

open FiniteDifferences

variable {α : Type} [LinearOrderedField α]

/-- Value and sensitivities of the closed-form European pricer BSMEuropeanOption. -/
structure Greeks (α : Type) where
  value : α
  delta : α
  gamma : α
  theta : α
  deriving DecidableEq, Repr

/-- Calls a pricer makes to its collaborators; a rollback is recorded with the model it is
called on, the array it is handed and its other arguments. -/
inductive Call (α : Type) where
  | setGridLimits
  | initializeGrid
  | initializeInitialCondition
  | initializeOperator
  | analyticEuro
  | rollback (model : FiniteDifferenceModel α) (a : List α) (fromTime toTime : α)
      (nSteps : Int) (condition : Option (BSMAmericanCondition α))

/-- Outcome of a member function: what it returned or raised, the object afterwards, and the
collaborator calls it made. When a rollback raises, the spec does not say what the array it
was mutating holds; the embedding leaves that array as it was before the call. -/
structure Run (σ ρ α : Type) where
  result : Except Error ρ
  object : σ
  calls : List (Call α)

/-- Members of BSMAmericanOption read or written by value(). -/
structure BSMAmericanOption (α : Type) where
  theType : OptionType
  theUnderlying : α
  theStrike : α
  theUnderlyingGrowthRate : α
  theRiskFreeRate : α
  theResidualTime : α
  theVolatility : α
  theTimeSteps : Int
  sMin : α
  sMax : α
  theGrid : List α
  thePrices : List α
  theOperator : TridiagonalOperator α
  theValue : α
  theDelta : α
  theGamma : α
  theTheta : α
  hasBeenCalculated : Bool

/-- Member functions of the base class and the closed-form pricer, whose sources are not
at hand. Each one reads the object and yields the new content of the members
it sets (setGridLimits: sMin and sMax, initializeGrid: theGrid, initializeInitialCondition:
thePrices, initializeOperator: theOperator), or raises. -/
structure BSMAmericanOption.Hooks (α : Type) where
  setGridLimits : BSMAmericanOption α → Except Error (α × α)
  initializeGrid : BSMAmericanOption α → α → α → Except Error (List α)
  initializeInitialCondition : BSMAmericanOption α → Except Error (List α)
  initializeOperator : BSMAmericanOption α → Except Error (TridiagonalOperator α)
  analyticEuro : OptionType → α → α → α → α → α → α → Except Error (Greeks α)

/-- The small time step used to evaluate theta, theResidualTime/(100*theTimeSteps); the
product is an int product. -/
def BSMAmericanOption.smallDt (s : BSMAmericanOption α) : α :=
  s.theResidualTime / ((wrapInt32 (100 * s.theTimeSteps) : Int) : α)

/-- Translation of BSMAmericanOption::value(). -/
def BSMAmericanOption.value (h : BSMAmericanOption.Hooks α) (s : BSMAmericanOption α) :
    Run (BSMAmericanOption α) α α :=
  if s.hasBeenCalculated then ⟨.ok s.theValue, s, []⟩
  else
    match h.setGridLimits s with
    | .error e => ⟨.error e, s, [.setGridLimits]⟩
    | .ok limits =>
    let s1 := { s with sMin := limits.1, sMax := limits.2 }
    match h.initializeGrid s1 s1.sMin s1.sMax with
    | .error e => ⟨.error e, s1, [.setGridLimits, .initializeGrid]⟩
    | .ok grid =>
    let s2 := { s1 with theGrid := grid }
    match h.initializeInitialCondition s2 with
    | .error e =>
        ⟨.error e, s2, [.setGridLimits, .initializeGrid, .initializeInitialCondition]⟩
    | .ok prices =>
    let s3 := { s2 with thePrices := prices }
    match h.initializeOperator s3 with
    | .error e =>
        ⟨.error e, s3, [.setGridLimits, .initializeGrid, .initializeInitialCondition,
          .initializeOperator]⟩
    | .ok op =>
    let s4 := { s3 with theOperator := op }
    let smallDt := s4.smallDt
    let model := crankNicolsonModel s4.theOperator
    match h.analyticEuro s4.theType s4.theUnderlying s4.theStrike s4.theUnderlyingGrowthRate
        s4.theRiskFreeRate s4.theResidualTime s4.theVolatility with
    | .error e =>
        ⟨.error e, s4, [.setGridLimits, .initializeGrid, .initializeInitialCondition,
          .initializeOperator, .analyticEuro]⟩
    | .ok analyticEuro =>
    let theEuroPrices := s4.thePrices
    let call1 := Call.rollback model theEuroPrices s4.theResidualTime 0 s4.theTimeSteps none
    match model.rollback theEuroPrices s4.theResidualTime 0 s4.theTimeSteps none with
    | .error e =>
        ⟨.error e, s4, [.setGridLimits, .initializeGrid, .initializeInitialCondition,
          .initializeOperator, .analyticEuro, call1]⟩
    | .ok theEuroPrices1 =>
    let numericEuroValue := valueAtCenter theEuroPrices1
    let numericEuroDelta := firstDerivativeAtCenter theEuroPrices1 s4.theGrid
    let numericEuroGamma := secondDerivativeAtCenter theEuroPrices1 s4.theGrid
    let call2 := Call.rollback model theEuroPrices1 0 (-smallDt) 1 none
    match model.rollback theEuroPrices1 0 (-smallDt) 1 none with
    | .error e =>
        ⟨.error e, s4, [.setGridLimits, .initializeGrid, .initializeInitialCondition,
          .initializeOperator, .analyticEuro, call1, call2]⟩
    | .ok theEuroPrices2 =>
    let numericEuroTheta := (numericEuroValue - valueAtCenter theEuroPrices2) / smallDt
    let americanCondition : BSMAmericanCondition α := ⟨s4.thePrices⟩
    let call3 := Call.rollback model s4.thePrices s4.theResidualTime 0 s4.theTimeSteps
      (some americanCondition)
    match model.rollback s4.thePrices s4.theResidualTime 0 s4.theTimeSteps
        (some americanCondition) with
    | .error e =>
        ⟨.error e, s4, [.setGridLimits, .initializeGrid, .initializeInitialCondition,
          .initializeOperator, .analyticEuro, call1, call2, call3]⟩
    | .ok thePrices1 =>
    let s5 := { s4 with thePrices := thePrices1 }
    let numericAmericanValue := valueAtCenter s5.thePrices
    let numericAmericanDelta := firstDerivativeAtCenter s5.thePrices s5.theGrid
    let numericAmericanGamma := secondDerivativeAtCenter s5.thePrices s5.theGrid
    let call4 := Call.rollback model s5.thePrices 0 (-smallDt) 1 (some americanCondition)
    match model.rollback s5.thePrices 0 (-smallDt) 1 (some americanCondition) with
    | .error e =>
        ⟨.error e, s5, [.setGridLimits, .initializeGrid, .initializeInitialCondition,
          .initializeOperator, .analyticEuro, call1, call2, call3, call4]⟩
    | .ok thePrices2 =>
    let s6 := { s5 with thePrices := thePrices2 }
    let numericAmericanTheta := (numericAmericanValue - valueAtCenter s6.thePrices) / smallDt
    let s7 := { s6 with
      theValue := numericAmericanValue - numericEuroValue + analyticEuro.value
      theDelta := numericAmericanDelta - numericEuroDelta + analyticEuro.delta
      theGamma := numericAmericanGamma - numericEuroGamma + analyticEuro.gamma
      theTheta := numericAmericanTheta - numericEuroTheta + analyticEuro.theta
      hasBeenCalculated := true }
    ⟨.ok s7.theValue, s7, [.setGridLimits, .initializeGrid, .initializeInitialCondition,
      .initializeOperator, .analyticEuro, call1, call2, call3, call4]⟩

/-- Members of FiniteDifferenceEuropean read or written by calculate(). -/
structure FiniteDifferenceEuropean (α : Type) where
  type_ : OptionType
  underlying_ : α
  strike_ : α
  dividendYield_ : α
  riskFreeRate_ : α
  residualTime_ : α
  volatility_ : α
  gridPoints_ : Nat
  timeSteps_ : Nat
  sMin_ : α
  sMax_ : α
  grid_ : List α
  initialPrices_ : List α
  finiteDifferenceOperator_ : TridiagonalOperator α
  euroPrices_ : List α
  value_ : α
  delta_ : α
  gamma_ : α
  theta_ : α
  hasBeenCalculated_ : Bool

/-- Member functions of the base class BSMNumericalOption, whose source is not at hand. Each
one reads the object and yields the new content of the members it sets
(setGridLimits: sMin_ and sMax_, initializeGrid: grid_, initializeInitialCondition:
initialPrices_, initializeOperator: finiteDifferenceOperator_), or raises. -/
structure FiniteDifferenceEuropean.Hooks (α : Type) where
  setGridLimits : FiniteDifferenceEuropean α → α → α → Except Error (α × α)
  initializeGrid : FiniteDifferenceEuropean α → Except Error (List α)
  initializeInitialCondition : FiniteDifferenceEuropean α → Except Error (List α)
  initializeOperator : FiniteDifferenceEuropean α → Except Error (TridiagonalOperator α)

/-- Translation of FiniteDifferenceEuropean::calculate(). For timeSteps_ = 0 the double
dt = residualTime_/timeSteps_ is the quotient of a division by zero, an infinity or a NaN,
for which both tests at the head of rollback (toTime > fromTime, fromTime == toTime) are
false: the rollback from 0.0 to -dt takes its one sub-step, of a width that is not finite.
The field elements written for dt and for theta_ in that case (the quotient by zero of a
field is 0) stand for doubles that are not numbers. -/
def FiniteDifferenceEuropean.calculate (h : FiniteDifferenceEuropean.Hooks α)
    (s : FiniteDifferenceEuropean α) : Run (FiniteDifferenceEuropean α) Unit α :=
  match h.setGridLimits s s.underlying_ s.residualTime_ with
  | .error e => ⟨.error e, s, [.setGridLimits]⟩
  | .ok limits =>
  let s1 := { s with sMin_ := limits.1, sMax_ := limits.2 }
  match h.initializeGrid s1 with
  | .error e => ⟨.error e, s1, [.setGridLimits, .initializeGrid]⟩
  | .ok grid =>
  let s2 := { s1 with grid_ := grid }
  match h.initializeInitialCondition s2 with
  | .error e => ⟨.error e, s2, [.setGridLimits, .initializeGrid, .initializeInitialCondition]⟩
  | .ok prices =>
  let s3 := { s2 with initialPrices_ := prices }
  match h.initializeOperator s3 with
  | .error e =>
      ⟨.error e, s3, [.setGridLimits, .initializeGrid, .initializeInitialCondition,
        .initializeOperator]⟩
  | .ok op =>
  let s4 := { s3 with finiteDifferenceOperator_ := op }
  let model := crankNicolsonModel s4.finiteDifferenceOperator_
  let s5 := { s4 with euroPrices_ := s4.initialPrices_ }
  let call1 := Call.rollback model s5.euroPrices_ s5.residualTime_ 0 (s5.timeSteps_ : Int) none
  match model.rollback s5.euroPrices_ s5.residualTime_ 0 (s5.timeSteps_ : Int) none with
  | .error e =>
      ⟨.error e, s5, [.setGridLimits, .initializeGrid, .initializeInitialCondition,
        .initializeOperator, call1]⟩
  | .ok euroPrices1 =>
  let s6 := { s5 with euroPrices_ := euroPrices1 }
  let s7 := { s6 with
    value_ := valueAtCenter s6.euroPrices_
    delta_ := firstDerivativeAtCenter s6.euroPrices_ s6.grid_
    gamma_ := secondDerivativeAtCenter s6.euroPrices_ s6.grid_ }
  let dt := s7.residualTime_ / (s7.timeSteps_ : α)
  let call2 := Call.rollback model s7.euroPrices_ 0 (-dt) 1 none
  let rolledBack :=
    if s7.timeSteps_ = 0 then
      CrankNicolson.nonFiniteStep s7.finiteDifferenceOperator_ s7.euroPrices_
    else model.rollback s7.euroPrices_ 0 (-dt) 1 none
  match rolledBack with
  | .error e =>
      ⟨.error e, s7, [.setGridLimits, .initializeGrid, .initializeInitialCondition,
        .initializeOperator, call1, call2]⟩
  | .ok euroPrices2 =>
  let s8 := { s7 with euroPrices_ := euroPrices2 }
  let valueMinus := valueAtCenter s8.euroPrices_
  let s9 := { s8 with theta_ := (s8.value_ - valueMinus) / dt, hasBeenCalculated_ := true }
  ⟨.ok (), s9, [.setGridLimits, .initializeGrid, .initializeInitialCondition,
    .initializeOperator, call1, call2]⟩

/-- Intermediate results of a first call of BSMAmericanOption::value() in which no stage
raises: what the initialisers and the closed-form pricer return, and the arrays the four
rollbacks produce. -/
structure BSMAmericanOption.Stages (α : Type) where
  limits : α × α
  grid : List α
  prices : List α
  op : TridiagonalOperator α
  analytic : Greeks α
  euro : List α
  euroMinus : List α
  american : List α
  americanMinus : List α

/-- The object once the four initialisers have run. -/
def BSMAmericanOption.initialized (s : BSMAmericanOption α) (st : BSMAmericanOption.Stages α) :
    BSMAmericanOption α :=
  { s with sMin := st.limits.1, sMax := st.limits.2, theGrid := st.grid,
           thePrices := st.prices, theOperator := st.op }

/-- A first call of value() on the object s (nothing calculated yet) in which every stage
succeeds, with the intermediate results st: each field is the equation of one stage, in the
order of the source. -/
structure BSMAmericanOption.FirstCall (h : BSMAmericanOption.Hooks α) (s : BSMAmericanOption α)
    (st : BSMAmericanOption.Stages α) : Prop where
  notCalculated : s.hasBeenCalculated = false
  limits : h.setGridLimits s = .ok st.limits
  grid : h.initializeGrid { s with sMin := st.limits.1, sMax := st.limits.2 }
    st.limits.1 st.limits.2 = .ok st.grid
  prices : h.initializeInitialCondition
    { s with sMin := st.limits.1, sMax := st.limits.2, theGrid := st.grid } = .ok st.prices
  op : h.initializeOperator
    { s with sMin := st.limits.1, sMax := st.limits.2, theGrid := st.grid,
             thePrices := st.prices } = .ok st.op
  analytic : h.analyticEuro s.theType s.theUnderlying s.theStrike s.theUnderlyingGrowthRate
    s.theRiskFreeRate s.theResidualTime s.theVolatility = .ok st.analytic
  euro : (crankNicolsonModel st.op).rollback st.prices s.theResidualTime 0 s.theTimeSteps none
    = .ok st.euro
  euroMinus : (crankNicolsonModel st.op).rollback st.euro 0 (-s.smallDt) 1 none
    = .ok st.euroMinus
  american : (crankNicolsonModel st.op).rollback st.prices s.theResidualTime 0 s.theTimeSteps
    (some ⟨st.prices⟩) = .ok st.american
  americanMinus : (crankNicolsonModel st.op).rollback st.american 0 (-s.smallDt) 1
    (some ⟨st.prices⟩) = .ok st.americanMinus

/-- The object a successful first call of value() leaves behind. -/
def BSMAmericanOption.priced (s : BSMAmericanOption α) (st : BSMAmericanOption.Stages α) :
    BSMAmericanOption α :=
  { s with
    sMin := st.limits.1, sMax := st.limits.2, theGrid := st.grid,
    thePrices := st.americanMinus, theOperator := st.op,
    theValue := valueAtCenter st.american - valueAtCenter st.euro + st.analytic.value,
    theDelta := firstDerivativeAtCenter st.american st.grid
      - firstDerivativeAtCenter st.euro st.grid + st.analytic.delta,
    theGamma := secondDerivativeAtCenter st.american st.grid
      - secondDerivativeAtCenter st.euro st.grid + st.analytic.gamma,
    theTheta := (valueAtCenter st.american - valueAtCenter st.americanMinus) / s.smallDt
      - (valueAtCenter st.euro - valueAtCenter st.euroMinus) / s.smallDt + st.analytic.theta,
    hasBeenCalculated := true }

/-- The collaborator calls of a successful first call of value(), in order. -/
def BSMAmericanOption.firstCallTrace (s : BSMAmericanOption α)
    (st : BSMAmericanOption.Stages α) : List (Call α) :=
  [.setGridLimits, .initializeGrid, .initializeInitialCondition, .initializeOperator,
   .analyticEuro,
   .rollback (crankNicolsonModel st.op) st.prices s.theResidualTime 0 s.theTimeSteps none,
   .rollback (crankNicolsonModel st.op) st.euro 0 (-s.smallDt) 1 none,
   .rollback (crankNicolsonModel st.op) st.prices s.theResidualTime 0 s.theTimeSteps
     (some ⟨st.prices⟩),
   .rollback (crankNicolsonModel st.op) st.american 0 (-s.smallDt) 1 (some ⟨st.prices⟩)]

/-! ## Concrete runs

A three-point grid around the spot, the payoff of the option kind on that grid, a given
operator, and fixed closed-form results; used to run the pricers on rational inputs. -/

/-- Payoff at maturity on a grid of prices. -/
def demoPayoff (type : OptionType) (strike : ℚ) (grid : List ℚ) : List ℚ :=
  match type with
  | .Call => grid.map fun x => max (x - strike) 0
  | .Put => grid.map fun x => max (strike - x) 0
  | .Straddle => grid.map fun x => max (x - strike) 0 + max (strike - x) 0

/-- Concrete collaborators of BSMAmericanOption: the grid is (spot/2, spot, 2 spot), the
initial condition is the payoff on the grid, the operator is the given one. -/
def demoHooks (L : TridiagonalOperator ℚ) : BSMAmericanOption.Hooks ℚ where
  setGridLimits := fun s => .ok (s.theUnderlying / 2, s.theUnderlying * 2)
  initializeGrid := fun s lo hi => .ok [lo, s.theUnderlying, hi]
  initializeInitialCondition := fun s => .ok (demoPayoff s.theType s.theStrike s.theGrid)
  initializeOperator := fun _ => .ok L
  analyticEuro := fun _ _ _ _ _ _ _ => .ok ⟨8, -2 / 5, 1 / 50, -4⟩

/-- A freshly constructed option: nothing calculated yet. -/
def demoOption (type : OptionType) (spot strike T : ℚ) (n : Int) : BSMAmericanOption ℚ where
  theType := type
  theUnderlying := spot
  theStrike := strike
  theUnderlyingGrowthRate := 0
  theRiskFreeRate := 1 / 20
  theResidualTime := T
  theVolatility := 1 / 5
  theTimeSteps := n
  sMin := 0
  sMax := 0
  theGrid := []
  thePrices := []
  theOperator := ⟨[], [], []⟩
  theValue := 0
  theDelta := 0
  theGamma := 0
  theTheta := 0
  hasBeenCalculated := false

/-- Diffusion operator with rows (2, -4, 2). -/
def diffusionOperator : TridiagonalOperator ℚ := ⟨[2, 2, 2], [-4, -4, -4], [2, 2, 2]⟩

/-- A put struck at the spot 100, one year, two time steps. -/
def putOption : BSMAmericanOption ℚ := demoOption .Put 100 100 1 2

/-- Stages of the first call of value() on putOption. -/
def putStages : BSMAmericanOption.Stages ℚ where
  limits := (50, 200)
  grid := [50, 100, 200]
  prices := [50, 0, 0]
  op := diffusionOperator
  analytic := ⟨8, -2 / 5, 1 / 50, -4⟩
  euro := [225 / 49, 200 / 49, 225 / 49]
  euroMinus := [4539775 / 999649, 4089800 / 999649, 4539775 / 999649]
  american := [50, 850 / 49, 775 / 98]
  americanMinus := [50, 17566650 / 999649, 1600174225 / 201929098]

/-- Operator with rows (1, -2, 1) in the interior and zero rows at the two boundaries, which
keeps the boundary values fixed. -/
def fixedBoundaryOperator : TridiagonalOperator ℚ := ⟨[0, 1, 0], [0, -2, 0], [0, 1, 0]⟩

/-- A call struck at the spot 100, one year, two time steps. -/
def callOption : BSMAmericanOption ℚ := demoOption .Call 100 100 1 2

/-- Stages of the first call of value() on callOption with fixedBoundaryOperator. -/
def callStages : BSMAmericanOption.Stages ℚ where
  limits := (50, 200)
  grid := [50, 100, 200]
  prices := [0, 0, 100]
  op := fixedBoundaryOperator
  analytic := ⟨8, -2 / 5, 1 / 50, -4⟩
  euro := [0, 400 / 9, 100]
  euroMinus := [0, 80500 / 1809, 100]
  american := [0, 400 / 9, 100]
  americanMinus := [0, 80500 / 1809, 100]

/-- Row of the Black-Scholes-Merton operator
L V = sigma^2 S^2 / 2 * V_SS + (r - q) S * V_S - r V at the price S of a grid of equally
spaced prices, h apart, with centred differences: the coefficients of the value at S - h,
at S and at S + h. -/
def bsmRow (sigma r q h S : ℚ) : ℚ × ℚ × ℚ :=
  (sigma ^ 2 * S ^ 2 / (2 * h ^ 2) - (r - q) * S / (2 * h),
   -(sigma ^ 2 * S ^ 2 / h ^ 2) - r,
   sigma ^ 2 * S ^ 2 / (2 * h ^ 2) + (r - q) * S / (2 * h))

/-- Rows of the operator from some grid point on: bsmRow at every point but the last, a zero
row at the last. -/
def bsmRows (sigma r q h : ℚ) : List ℚ → List (ℚ × ℚ × ℚ)
  | [] => []
  | [_] => [(0, 0, 0)]
  | S :: rest => bsmRow sigma r q h S :: bsmRows sigma r q h rest

/-- The Black-Scholes-Merton operator for volatility sigma, risk-free rate r and dividend yield
q on a grid of equally spaced prices: bsmRow at the interior points, zero rows at the two
ends (the values at the ends stay those of the payoff). -/
def bsmOperator (sigma r q : ℚ) (grid : List ℚ) : TridiagonalOperator ℚ :=
  let h := grid.getD 1 0 - grid.getD 0 0
  let rows :=
    match grid with
    | [] => []
    | _ :: rest => (0, 0, 0) :: bsmRows sigma r q h rest
  ⟨rows.map (·.1), rows.map (·.2.1), rows.map (·.2.2)⟩

/-- Collaborators of BSMAmericanOption that compute everything from the members of the
option: the grid limits are the spot times 1 - 4 sigma sqrt(T) and 1 + 4 sigma sqrt(T) (the
range scaled by volatility and time of spec 4.1 with k = 4, in price coordinates; Rat.sqrt is
exact when T is the square of a rational number), the grid is five equally spaced prices
between the limits, the initial condition is the payoff of the option on the grid, the
operator is the Black-Scholes-Merton operator of the option on the grid. The closed-form
pricer returns the given result. -/
def bsmHooks (analytic : Greeks ℚ) : BSMAmericanOption.Hooks ℚ where
  setGridLimits := fun s =>
    let width := 4 * s.theVolatility * Rat.sqrt s.theResidualTime
    .ok (s.theUnderlying * (1 - width), s.theUnderlying * (1 + width))
  initializeGrid := fun _ lo hi =>
    .ok [lo, lo + (hi - lo) / 4, lo + (hi - lo) / 2, lo + 3 * (hi - lo) / 4, hi]
  initializeInitialCondition := fun s => .ok (demoPayoff s.theType s.theStrike s.theGrid)
  initializeOperator := fun s =>
    .ok (bsmOperator s.theVolatility s.theRiskFreeRate s.theUnderlyingGrowthRate s.theGrid)
  analyticEuro := fun _ _ _ _ _ _ _ => .ok analytic

/-- A put struck at 80 on the spot 100, volatility 10%, risk-free rate 10%, no dividends, one
year, two time steps. -/
def coarsePutOption : BSMAmericanOption ℚ :=
  { demoOption .Put 100 80 1 2 with theRiskFreeRate := 1 / 10, theVolatility := 1 / 10 }

/-- The closed-form European result for coarsePutOption, rounded: value 0.0014, delta
-0.0005, gamma 0.00018, theta -0.0039. -/
def coarsePutAnalytic : Greeks ℚ :=
  ⟨14 / 10000, -5 / 10000, 18 / 100000, -39 / 10000⟩

/-- Stages of the first call of value() on coarsePutOption with bsmHooks. -/
def coarsePutStages (analytic : Greeks ℚ) : BSMAmericanOption.Stages ℚ where
  limits := (60, 140)
  grid := [60, 80, 100, 120, 140]
  prices := [20, 0, 0, 0, 0]
  op := ⟨[0, -3 / 25, -1 / 8, -3 / 25, 0], [0, -13 / 50, -7 / 20, -23 / 50, 0],
    [0, 7 / 25, 3 / 8, 12 / 25, 0]⟩
  analytic := analytic
  euro := [20, -5176488480000 / 2460123562687, 2055308112000 / 17220864938809,
    -82096704000 / 17220864938809, 0]
  euroMinus := [20, -2382982696072415816075040 / 1127639469528518468260403,
    950761300016372333352600 / 7893476286699629277822821,
    -38111171525015481097200 / 7893476286699629277822821, 0]
  american := [20, 0, 1016858592000 / 17220864938809, 0, 0]
  americanMinus := [20, 0, 465308565814643510232600 / 7893476286699629277822821, 0, 0]

/-- Concrete collaborators of FiniteDifferenceEuropean, as demoHooks. -/
def demoEuropeanHooks (L : TridiagonalOperator ℚ) : FiniteDifferenceEuropean.Hooks ℚ where
  setGridLimits := fun _ center _ => .ok (center / 2, center * 2)
  initializeGrid := fun s => .ok [s.sMin_, s.underlying_, s.sMax_]
  initializeInitialCondition := fun s => .ok (demoPayoff s.type_ s.strike_ s.grid_)
  initializeOperator := fun _ => .ok L

/-- A freshly constructed European put struck at the spot 100, one year, two time steps. -/
def europeanPut : FiniteDifferenceEuropean ℚ where
  type_ := .Put
  underlying_ := 100
  strike_ := 100
  dividendYield_ := 0
  riskFreeRate_ := 1 / 20
  residualTime_ := 1
  volatility_ := 1 / 5
  gridPoints_ := 3
  timeSteps_ := 2
  sMin_ := 0
  sMax_ := 0
  grid_ := []
  initialPrices_ := []
  finiteDifferenceOperator_ := ⟨[], [], []⟩
  euroPrices_ := [0, 0, 0]
  value_ := 0
  delta_ := 0
  gamma_ := 0
  theta_ := 0
  hasBeenCalculated_ := false

/-- The European put with strike 150 and no time steps: residualTime_/timeSteps_ is a
division by zero. -/
def europeanPutZeroSteps : FiniteDifferenceEuropean ℚ :=
  { europeanPut with strike_ := 150, timeSteps_ := 0 }

/-- The test at the head of rollback passes for the call: it is not the case that nSteps < 0
or toTime > fromTime (a call of a collaborator other than rollback passes). -/
def Call.passesRollbackCheck : Call α → Prop
  | .rollback _ _ fromTime toTime nSteps _ => ¬ (nSteps < 0 ∨ fromTime < toTime)
  | _ => True

/-- The call is one of the collaborator calls of value() on the object s: an initialiser, the
closed-form pricer, a rollback from theResidualTime to 0 in theTimeSteps steps, or a rollback
from 0 to -smallDt in 1 step. -/
def BSMAmericanOption.requests (s : BSMAmericanOption α) : Call α → Prop
  | .rollback _ _ fromTime toTime nSteps _ =>
      (fromTime = s.theResidualTime ∧ toTime = 0 ∧ nSteps = s.theTimeSteps) ∨
      (fromTime = 0 ∧ toTime = -s.smallDt ∧ nSteps = 1)
  | _ => True

/-- The call is one of the collaborator calls of calculate() on the object s: an initialiser,
a rollback from residualTime_ to 0 in timeSteps_ steps, or a rollback from 0 to
-residualTime_/timeSteps_ in 1 step. -/
def FiniteDifferenceEuropean.requests (s : FiniteDifferenceEuropean α) : Call α → Prop
  | .rollback _ _ fromTime toTime nSteps _ =>
      (fromTime = s.residualTime_ ∧ toTime = 0 ∧ nSteps = (s.timeSteps_ : Int)) ∨
      (fromTime = 0 ∧ toTime = -(s.residualTime_ / (s.timeSteps_ : α)) ∧ nSteps = 1)
  | _ => True

/-- An operator of dimension 0, which conforms to no array of the three-point grid. -/
def emptyOperator : TridiagonalOperator ℚ := ⟨[], [], []⟩

end Pricers

/-! ## The multivariate accumulator (Sources/Math/multivariateaccumulator.cpp) -/

namespace Math

variable {α : Type}

/-- Failed requirements of the accumulator, one constructor per message: "wrong size for input
array", "negative weight not allowed", "sampleWeight_=0, unsufficient" and "sample number <=1,
unsufficient". -/
inductive AccumulatorError where
  | wrongSize
  | negativeWeight
  | zeroWeight
  | tooFewSamples
  deriving DecidableEq, Repr

/-- Element-wise sum of two arrays (Array operator+=, for arrays of one size). -/
def arrayAdd [Add α] (a b : List α) : List α := List.zipWith (· + ·) a b

/-- Product of a scalar and an array. -/
def arrayScale [Mul α] (c : α) (a : List α) : List α := a.map (c * ·)

/-- Outer product of two arrays: entry (i, j) is v1[i] * v2[j]. -/
def outerProduct [Mul α] (v1 v2 : List α) : List (List α) :=
  v1.map fun a => v2.map fun b => a * b

/-- Element-wise sum of two matrices, row by row. -/
def matrixAdd [Add α] (a b : List (List α)) : List (List α) := List.zipWith arrayAdd a b

/-- Element-wise difference of two matrices, row by row. -/
def matrixSub [Sub α] (a b : List (List α)) : List (List α) :=
  List.zipWith (List.zipWith (· - ·)) a b

/-- Product of a scalar and a matrix. -/
def matrixScale [Mul α] (c : α) (a : List (List α)) : List (List α) := a.map (arrayScale c)

/-- Entry (j, k) of a matrix (0 outside the matrix). -/
def matrixEntry [Zero α] (a : List (List α)) (j k : Nat) : α := (a.getD j []).getD k 0

/-- Members of MultivariateAccumulator; sampleNumber_ is a double in the source. -/
structure MultivariateAccumulator (α : Type) where
  size_ : Nat
  sampleNumber_ : α
  sampleWeight_ : α
  sum_ : List α
  quadraticSum_ : List (List α)
  deriving DecidableEq, Repr

/-- Outcome of a member function of the accumulator: what it returned or the requirement that
failed, and the accumulator afterwards (also when the call raised). -/
structure Effect (σ ρ : Type) where
  result : Except AccumulatorError ρ
  object : σ

namespace MultivariateAccumulator

/-- Translation of MultivariateAccumulator::reset(). -/
def reset [Zero α] (s : MultivariateAccumulator α) : MultivariateAccumulator α :=
  { s with
    sampleNumber_ := 0
    sampleWeight_ := 0
    sum_ := List.replicate s.size_ 0
    quadraticSum_ := List.replicate s.size_ (List.replicate s.size_ 0) }

/-- Translation of the constructors MultivariateAccumulator() (size 0) and
MultivariateAccumulator(int size): the size is set, then reset() is called. -/
def create [Zero α] (size : Nat) : MultivariateAccumulator α :=
  reset ⟨size, 0, 0, [], []⟩

/-- Translation of MultivariateAccumulator::add(const Array&, double). The sums, the product
and the comparison are those of the arithmetic of α: exact in an ordered field, rounded in
Binary64. -/
def add [Zero α] [One α] [Add α] [Mul α] [LE α] [DecidableRel (α := α) (· ≤ ·)]
    (value : List α) (weight : α) (s : MultivariateAccumulator α) :
    Effect (MultivariateAccumulator α) Unit :=
  let sized : Except AccumulatorError (MultivariateAccumulator α) :=
    if s.size_ = 0 then .ok (reset { s with size_ := value.length })
    else if value.length = s.size_ then .ok s
    else .error .wrongSize
  match sized with
  | .error e => ⟨.error e, s⟩
  | .ok s1 =>
    if 0 ≤ weight then
      let weighedValue := arrayScale weight value
      ⟨.ok (), { s1 with
        sampleNumber_ := s1.sampleNumber_ + 1
        sampleWeight_ := s1.sampleWeight_ + weight
        sum_ := arrayAdd s1.sum_ weighedValue
        quadraticSum_ := matrixAdd s1.quadraticSum_ (outerProduct weighedValue value) }⟩
    else ⟨.error .negativeWeight, s1⟩

/-- Translation of MultivariateAccumulator::covariance(), in the arithmetic of α. -/
def covariance [Zero α] [One α] [Sub α] [Mul α] [Div α] [LT α]
    [DecidableRel (α := α) (· < ·)] (s : MultivariateAccumulator α) :
    Except AccumulatorError (List (List α)) :=
  if 0 < s.sampleWeight_ then
    if 1 < s.sampleNumber_ then
      let inv := 1 / s.sampleWeight_
      .ok (matrixScale ((s.sampleNumber_ / (s.sampleNumber_ - 1)) * inv)
        (matrixSub s.quadraticSum_ (matrixScale inv (outerProduct s.sum_ s.sum_))))
    else .error .tooFewSamples
  else .error .zeroWeight

/-- A sequence of add calls, one per (sample, weight) pair, in order; it stops at the first
call that raises. -/
def addEach [Zero α] [One α] [Add α] [Mul α] [LE α] [DecidableRel (α := α) (· ≤ ·)] :
    List (List α × α) → MultivariateAccumulator α →
    Except AccumulatorError (MultivariateAccumulator α)
  | [], s => .ok s
  | (value, weight) :: rest, s =>
      match (add value weight s).result with
      | .error e => .error e
      | .ok _ => addEach rest (add value weight s).object

end MultivariateAccumulator

/-- A finite IEEE 754 binary64 number (a C++ double), mantissa * 2^exponent with an odd
mantissa, or zero (mantissa 0, exponent 0). The range of the exponent is not modelled: no
overflow to an infinity, no gradual underflow, no NaN. -/
structure Binary64 where
  mantissa : Int
  exponent : Int
  deriving DecidableEq, Repr

namespace Binary64

/-- Number of binary digits of n, for fuel at least that number. -/
def bitLength : Nat → Nat → Nat
  | 0, _ => 0
  | fuel + 1, n => if n = 0 then 0 else bitLength fuel (n / 2) + 1

/-- Number of zero digits at the low end of n, for fuel at least that number. -/
def trailingZeros : Nat → Nat → Nat
  | 0, _ => 0
  | fuel + 1, n => if n = 0 ∨ n % 2 = 1 then 0 else trailingZeros fuel (n / 2) + 1

/-- The binary64 number nearest to m * 2^e, a tie going to the even 53-digit mantissa
(the rounding of every IEEE 754 operation in the default mode). -/
def round (m e : Int) : Binary64 :=
  let n := m.natAbs
  let excess := bitLength n n - 53
  let q := n / 2 ^ excess
  let rest := n % 2 ^ excess
  let half := 2 ^ excess / 2
  let r := if half < rest ∨ (0 < excess ∧ rest = half ∧ q % 2 = 1) then q + 1 else q
  let z := trailingZeros r r
  if r = 0 then ⟨0, 0⟩ else ⟨m.sign * ((r / 2 ^ z : Nat) : Int), e + excess + z⟩

/-- The double nearest to an integer. -/
def ofInt (n : Int) : Binary64 := round n 0

/-- Sum of two doubles: the exact sum, rounded. -/
def add (a b : Binary64) : Binary64 :=
  let e := min a.exponent b.exponent
  round (a.mantissa * 2 ^ (a.exponent - e).toNat + b.mantissa * 2 ^ (b.exponent - e).toNat) e

/-- Difference of two doubles: the exact difference, rounded. -/
def sub (a b : Binary64) : Binary64 :=
  let e := min a.exponent b.exponent
  round (a.mantissa * 2 ^ (a.exponent - e).toNat - b.mantissa * 2 ^ (b.exponent - e).toNat) e

/-- Product of two doubles: the exact product, rounded. -/
def mul (a b : Binary64) : Binary64 :=
  round (a.mantissa * b.mantissa) (a.exponent + b.exponent)

/-- Quotient of two doubles: the exact quotient, rounded. The quotient is cut after more than
55 binary digits and a last digit records whether anything was cut off, which rounds as the
exact quotient does. A quotient by zero is not a finite number; it is written 0 here and
is not used (covariance divides by sampleWeight_ > 0 and by sampleNumber_ - 1 > 0). -/
def div (a b : Binary64) : Binary64 :=
  let n := a.mantissa.natAbs
  let d := b.mantissa.natAbs
  let k := bitLength d d + 55
  let q := n * 2 ^ k / d
  let sticky := if n * 2 ^ k % d = 0 then 0 else 1
  if d = 0 then ⟨0, 0⟩
  else round (a.mantissa.sign * b.mantissa.sign * ((2 * q + sticky : Nat) : Int))
    (a.exponent - b.exponent - k - 1)

/-- Order of two doubles: a < b. -/
def lt (a b : Binary64) : Prop :=
  a.mantissa * 2 ^ (a.exponent - min a.exponent b.exponent).toNat
    < b.mantissa * 2 ^ (b.exponent - min a.exponent b.exponent).toNat

/-- Order of two doubles: a <= b. -/
def le (a b : Binary64) : Prop :=
  a.mantissa * 2 ^ (a.exponent - min a.exponent b.exponent).toNat
    ≤ b.mantissa * 2 ^ (b.exponent - min a.exponent b.exponent).toNat

instance : Zero Binary64 := ⟨⟨0, 0⟩⟩

instance : One Binary64 := ⟨⟨1, 0⟩⟩

instance : Add Binary64 := ⟨add⟩

instance : Sub Binary64 := ⟨sub⟩

instance : Mul Binary64 := ⟨mul⟩

instance : Div Binary64 := ⟨div⟩

instance : LT Binary64 := ⟨lt⟩

instance : LE Binary64 := ⟨le⟩

instance : DecidableRel (α := Binary64) (· < ·) := fun a b =>
  inferInstanceAs (Decidable (a.mantissa * 2 ^ (a.exponent - min a.exponent b.exponent).toNat
    < b.mantissa * 2 ^ (b.exponent - min a.exponent b.exponent).toNat))

instance : DecidableRel (α := Binary64) (· ≤ ·) := fun a b =>
  inferInstanceAs (Decidable (a.mantissa * 2 ^ (a.exponent - min a.exponent b.exponent).toNat
    ≤ b.mantissa * 2 ^ (b.exponent - min a.exponent b.exponent).toNat))

/-- The rational number that a double is. -/
def toRat (a : Binary64) : ℚ := (a.mantissa : ℚ) * (2 : ℚ) ^ a.exponent

end Binary64

/-- Sizes of the sums of an accumulator agree with its size. -/
def MultivariateAccumulator.WellSized (s : MultivariateAccumulator α) : Prop :=
  s.sum_.length = s.size_ ∧ s.quadraticSum_.length = s.size_ ∧
    ∀ row ∈ s.quadraticSum_, row.length = s.size_

/-- The data of the statistics test. -/
def testData : List ℚ := [3, 4, 5, 2, 3, 4, 5, 6, 4, 7]

/-- The samples of the statistics test: every datum repeated in each of the 5 components, with
unit weight. -/
def testSamples : List (List ℚ × ℚ) := testData.map fun x => (List.replicate 5 x, 1)

/-- The double that a decimal literal n / 10^digits of the source is: the quotient of the
two integers, both doubles, rounded. -/
def Binary64.ofDecimal (n : Int) (digits : Nat) : Binary64 :=
  Binary64.ofInt n / Binary64.ofInt (10 ^ digits)

/-- The samples of the statistics test as doubles. -/
def binary64TestSamples : List (List Binary64 × Binary64) :=
  ([3, 4, 5, 2, 3, 4, 5, 6, 4, 7] : List Int).map fun x =>
    (List.replicate 5 (Binary64.ofInt x), 1)

/-- Three samples of one component with a large mean, 1e8, 1e8 + 1 and 1e8 + 2, with unit
weights. -/
def largeMeanSamples : List (List ℚ × ℚ) :=
  [([100000000], 1), ([100000001], 1), ([100000002], 1)]

/-- The samples largeMeanSamples as doubles. -/
def binary64LargeMeanSamples : List (List Binary64 × Binary64) :=
  [([Binary64.ofInt 100000000], 1), ([Binary64.ofInt 100000001], 1),
   ([Binary64.ofInt 100000002], 1)]

/-- The sample (3, 7) with weight 0.1 and the sample (0, 0) with weight 1, as doubles. -/
def binary64WeightedSamples : List (List Binary64 × Binary64) :=
  [([Binary64.ofInt 3, Binary64.ofInt 7], Binary64.ofDecimal 1 1), ([0, 0], 1)]

/-- The samples (0.1, 0.7), (0.3, 0.2) and (1.1, 2.3) with unit weights, as doubles. -/
def binary64UnitSamples : List (List Binary64 × Binary64) :=
  [([Binary64.ofDecimal 1 1, Binary64.ofDecimal 7 1], 1),
   ([Binary64.ofDecimal 3 1, Binary64.ofDecimal 2 1], 1),
   ([Binary64.ofDecimal 11 1, Binary64.ofDecimal 23 1], 1)]

end Math

/-! ## The Black-Scholes process (ql/diffusionprocess.cpp) and the swaption volatility cube
(ql/Volatilities/swaptionvolcube.cpp) -/

section Processes

variable {α : Type} [LinearOrderedField α]

/-- Members of BlackScholesProcess read by drift(): the three term structures, through the one
function of each that drift() calls (forward(t1, t2) of the risk-free and of the dividend
curve, localVol(t, underlyingLevel, extrapolate) of the local volatility surface). -/
structure BlackScholesProcess (α : Type) where
  riskFreeForward : α → α → α
  dividendForward : α → α → α
  localVol : α → α → Bool → α

/-- Translation of BlackScholesProcess::drift(Time t, double x). -/
def BlackScholesProcess.drift (p : BlackScholesProcess α) (t x : α) : α :=
  let sigma := p.localVol t x true
  let t1 := t + 1 / 10000
  p.riskFreeForward t t1 - p.dividendForward t t1 - 1 / 2 * sigma * sigma

/-- A process with flat curves, both at the rate 1/20, and flat local volatility 1/5. -/
def flatProcess : BlackScholesProcess ℚ where
  riskFreeForward := fun _ _ => 1 / 20
  dividendForward := fun _ _ => 1 / 20
  localVol := fun _ _ _ => 1 / 5

namespace SwaptionVolatilityCube

/-- Arguments of registerWith in the constructor of the cube: the ATM volatility structure,
the swap index pointer (none for a null pointer), or a volatility spread quote. -/
inductive Registration where
  | atmVol (handle : Nat)
  | swapIndexBase (pointer : Option Nat)
  | volSpread (handle : Nat)
  deriving DecidableEq, Repr

/-- Requirements of the constructor, in the order of the source; indexOutOfRange stands for
the access to element 0 of an empty tenor vector, which the source does not guard. -/
inductive ConstructionError where
  | indexOutOfRange
  | firstOptionTimeNegative
  | nonIncreasingOptionTimes
  | firstSwapLengthNegative
  | nonIncreasingSwapLength
  | tooFewStrikes
  | nonIncreasingStrikeSpreads
  | emptyVolSpreads
  | strikeColumnMismatch
  | rowMismatch
  deriving DecidableEq, Repr

/-- Date arithmetic of the base classes, whose source is not at hand: the time from the
reference date to the option date of an option tenor, and the length in years of a swap tenor
counted from the option date of the first option tenor. Tenors are numbered. -/
structure DateRules (α : Type) where
  optionTime : Nat → α
  swapLength : Nat → Nat → α

/-- Members the constructor computes, and its registerWith calls in order (also when it
raises). -/
structure Construction (α : Type) where
  result : Except ConstructionError (List α × List α)
  registrations : List Registration

/-- Translation of SwaptionVolatilityCube::registerWithVolatilitySpread(). -/
def registerWithVolatilitySpread (nStrikes nOptionTenors nSwapTenors : Nat)
    (volSpreads : List (List Nat)) : List Registration :=
  (List.range nStrikes).flatMap fun i =>
    (List.range nOptionTenors).flatMap fun j =>
      (List.range nSwapTenors).map fun k =>
        .volSpread ((volSpreads.getD (j * nSwapTenors + k) []).getD i 0)

/-- Lines 62 to 117 of the constructor: optionTimes_ and swapLengths_ are computed and the
requirements on them, on the strike spreads and on the shape of the volatility spreads are
checked, in the order of the source. -/
def checkedMembers (rules : DateRules α) (optionTenors swapTenors : List Nat)
    (strikeSpreads : List α) (volSpreads : List (List Nat)) :
    Except ConstructionError (List α × List α) :=
  match optionTenors with
  | [] => .error .indexOutOfRange
  | firstOption :: _ =>
  let optionTimes := optionTenors.map rules.optionTime
  if ¬ 0 < rules.optionTime firstOption then .error .firstOptionTimeNegative
  else if ¬ optionTimes.Chain' (· < ·) then .error .nonIncreasingOptionTimes
  else
  match swapTenors with
  | [] => .error .indexOutOfRange
  | firstSwap :: _ =>
  let swapLengths := swapTenors.map (rules.swapLength firstOption)
  if ¬ 0 < rules.swapLength firstOption firstSwap then .error .firstSwapLengthNegative
  else if ¬ swapLengths.Chain' (· < ·) then .error .nonIncreasingSwapLength
  else if ¬ 1 < strikeSpreads.length then .error .tooFewStrikes
  else if ¬ strikeSpreads.Chain' (· < ·) then .error .nonIncreasingStrikeSpreads
  else if volSpreads = [] then .error .emptyVolSpreads
  else if ¬ ∀ row ∈ volSpreads, strikeSpreads.length = row.length then
    .error .strikeColumnMismatch
  else if ¬ optionTenors.length * swapTenors.length = volSpreads.length then
    .error .rowMismatch
  else .ok (optionTimes, swapLengths)

/-- Translation of the constructor SwaptionVolatilityCube::SwaptionVolatilityCube: the
registrations of lines 53 to 59, the requirements of lines 62 to 117, and the registrations
of registerWithVolatilitySpread() once these are met; the result holds optionTimes_ and
swapLengths_. Handles and quotes are numbered, swapIndexBase is none for a null pointer. -/
def construct (rules : DateRules α) (atmVol : Nat) (optionTenors swapTenors : List Nat)
    (strikeSpreads : List α) (volSpreads : List (List Nat)) (swapIndexBase : Option Nat)
    (_vegaWeightedSmileFit : Bool) : Construction α :=
  let registered1 := [Registration.atmVol atmVol]
  let registered2 :=
    if swapIndexBase.isNone then registered1 ++ [Registration.swapIndexBase swapIndexBase]
    else registered1
  match checkedMembers rules optionTenors swapTenors strikeSpreads volSpreads with
  | .error e => ⟨.error e, registered2⟩
  | .ok members =>
    ⟨.ok members,
      registered2 ++ registerWithVolatilitySpread strikeSpreads.length optionTenors.length
        swapTenors.length volSpreads⟩

/-- Date rules for a concrete run: an option tenor of n lies n years ahead, a swap tenor of n
is n years long. -/
def yearRules : DateRules ℚ := ⟨fun n => n, fun _ n => n⟩

end SwaptionVolatilityCube

end Processes

/-! ## Collecting node data along market-model paths (ql/marketmodels/lsdatacollector.cpp) -/

namespace MarketModels

variable {α : Type} [LinearOrderedField α]

/-- Why collectNodeData does not return a table. -/
inductive CollectError where
  -- QL_REQUIRE(product.numberOfProducts() == 1, "a single product is required")
  | notSingleProduct
  -- some path used up the passes allowed to its do-while loop before the product was done
  | unfinishedPath
  deriving DecidableEq, Repr

/-- MarketModelMultiProduct::CashFlow: index of the payment time, and amount. -/
structure CashFlow (α : Type) where
  timeIndex : Nat
  amount : α
  deriving DecidableEq, Repr

/-- NodeData (ql/methods/montecarlo/nodedata.hpp), with the five members that collectNodeData
writes. -/
structure NodeData (α : Type) where
  exerciseValue : α
  cumulatedCashFlows : α
  values : List α
  controlValue : α
  isValid : Bool
  deriving DecidableEq, Repr

/-- What the collaborators of collectNodeData (evolver, product, rebate, control, data
provider, discounters, curve state), none of which is in the sources at hand, answer. The
answers along a path are indexed by the path and by the pass of the do-while loop, that is
by the number of advanceStep() calls made before the pass. -/
structure Collaborators (α : Type) where
  -- Answer of product.numberOfProducts().
  numberOfProducts : Nat
  -- Flags isInSubset(evolutionTimes, product.evolution().evolutionTimes()).
  isProductTime : List Bool
  -- Flags isInSubset(evolutionTimes, rebate.evolution().evolutionTimes()); as long as
  -- evolutionTimes.
  isRebateTime : List Bool
  -- Answer of rebate.isExerciseTime().
  rebateIsExerciseTime : List Bool
  -- Answer of evolver.currentStep() at the start of a pass.
  currentStep : Nat → Nat → Nat
  -- Answer of rebate.value(currentState).
  rebateValue : Nat → Nat → CashFlow α
  -- Answer of control.value(currentState).
  controlValue : Nat → Nat → CashFlow α
  -- What dataProvider.values(currentState, data.values) makes of data.values.
  basisValues : Nat → Nat → List α → List α
  -- Answer of product.nextTimeStep: whether the product is done, and the
  -- numberCashFlowsThisStep[0] cash flows it generated.
  nextTimeStep : Nat → Nat → Bool × List (CashFlow α)
  -- Answer of rebateDiscounters[timeIndex].numeraireBonds(currentState, numeraire).
  rebateBonds : Nat → Nat → Nat → α
  -- Answer of controlDiscounters[timeIndex].numeraireBonds(currentState, numeraire).
  controlBonds : Nat → Nat → Nat → α
  -- Answer of productDiscounters[timeIndex].numeraireBonds(currentState, numeraire).
  productBonds : Nat → Nat → Nat → α
  -- Answer of currentState.discountRatio(numeraire, nextNumeraire).
  discountRatio : Nat → Nat → α

/-- Write through a reference to the element at an index of a vector; a vector without that
index is left alone. -/
def modifyAt {β : Type} (f : β → β) : Nat → List β → List β
  | _, [] => []
  | 0, x :: xs => f x :: xs
  | n + 1, x :: xs => x :: modifyAt f n xs

/-- The loop over the evolution times (lines 111-117) from index i on: the flags
isExerciseTime[i..] and the final count of exercises, for the flags isRebateTime[i..], the
vector v = rebate.isExerciseTime() and the count of exercises so far. An index past the end
of v reads as false. -/
def exerciseTimes : List Bool → List Bool → Nat → List Bool × Nat
  | [], _, exercises => ([], exercises)
  | r :: rest, v, exercises =>
    if r then
      (v.getD exercises false :: (exerciseTimes rest v (exercises + 1)).1,
        (exerciseTimes rest v (exercises + 1)).2)
    else (false :: (exerciseTimes rest v exercises).1, (exerciseTimes rest v exercises).2)

/-- The vector isExerciseTime after the loop of lines 111-117. -/
def isExerciseTime (c : Collaborators α) : List Bool :=
  (exerciseTimes c.isRebateTime c.rebateIsExerciseTime 0).1

/-- The count exercises after the loop of lines 111-117. -/
def exercises (c : Collaborators α) : Nat :=
  (exerciseTimes c.isRebateTime c.rebateIsExerciseTime 0).2

/-- The variables of one path: the number of advanceStep() calls so far, nextExercise,
principalInNumerairePortfolio, and the entries collectedData[.][i] of the path. -/
structure PathState (α : Type) where
  advances : Nat
  nextExercise : Nat
  principalInNumerairePortfolio : α
  column : List (NodeData α)
  deriving DecidableEq, Repr

/-- One pass of the do-while loop of path i (lines 136-196): the value of done after the
pass, and the variables after it. A flag read past the end of its vector is false. -/
def pass (c : Collaborators α) (i : Nat) (st : PathState α) : Bool × PathState α :=
  let m := st.advances
  let currentStep := c.currentStep i m
  let principal := st.principalInNumerairePortfolio
  let exerciseNow := (isExerciseTime c).getD currentStep false
  let column1 :=
    if exerciseNow then
      modifyAt (fun data =>
        { data with
          exerciseValue := (c.rebateValue i m).amount
            * c.rebateBonds i m (c.rebateValue i m).timeIndex / principal
          values := c.basisValues i m data.values
          controlValue := (c.controlValue i m).amount
            * c.controlBonds i m (c.controlValue i m).timeIndex / principal
          cumulatedCashFlows := 0
          isValid := true }) (st.nextExercise + 1) st.column
    else st.column
  let nextExercise := if exerciseNow then st.nextExercise + 1 else st.nextExercise
  let productNow := c.isProductTime.getD currentStep false
  let done := if productNow then (c.nextTimeStep i m).1 else false
  let column2 :=
    if productNow then
      modifyAt (fun data =>
        { data with
          cumulatedCashFlows := (c.nextTimeStep i m).2.foldl
            (fun sum cf => sum + cf.amount * c.productBonds i m cf.timeIndex / principal)
            data.cumulatedCashFlows }) nextExercise column1
    else column1
  let principal1 := if done then principal else principal * c.discountRatio i m
  (done, ⟨m + 1, nextExercise, principal1, column2⟩)

/-- The do-while loop of path i, allowed a number of passes: the variables when the product
is done, or nothing when the passes are used up. -/
def passes (c : Collaborators α) (i : Nat) : Nat → PathState α → Option (PathState α)
  | 0, _ => none
  | fuel + 1, st =>
    if (pass c i st).1 then some (pass c i st).2 else passes c i fuel (pass c i st).2

/-- The loop of lines 199-205 from index j on, with count = exercises - j indices left. -/
def fillNulls : Nat → Nat → List (NodeData α) → List (NodeData α)
  | 0, _, column => column
  | count + 1, j, column =>
    fillNulls count (j + 1) (modifyAt (fun data =>
      { data with exerciseValue := 0, controlValue := 0, cumulatedCashFlows := 0,
                  isValid := false }) (j + 1) column)

/-- The variables of path i when its do-while loop starts (lines 125-134). The entries
collectedData[0..exercises][i] are those that collectedData had before the call where it
had them, and the entry fresh that resize() adds elsewhere. -/
def startOfPath (c : Collaborators α) (fresh : NodeData α)
    (collectedData : List (List (NodeData α))) (i : Nat) : PathState α :=
  let resized := (List.range (exercises c + 1)).map fun k =>
    (collectedData.getD k []).getD i fresh
  ⟨0, 0, 1, modifyAt (fun data => { data with cumulatedCashFlows := 0 }) 0 resized⟩

/-- Body of the loop over the paths (lines 124-206) for path i: the entries
collectedData[0..exercises][i] after it. -/
def collectPath (c : Collaborators α) (fresh : NodeData α) (fuel : Nat)
    (collectedData : List (List (NodeData α))) (i : Nat) : Option (List (NodeData α)) :=
  match passes c i fuel (startOfPath c fresh collectedData i) with
  | none => none
  | some st => some (fillNulls (exercises c - st.nextExercise) st.nextExercise st.column)

/-- Embedding of collectNodeData: the table collectedData after the call, indexed by the
exercise (0..exercises) and then by the path. The do-while loop of each path is allowed
fuel passes. -/
def collectNodeData (c : Collaborators α) (fresh : NodeData α) (fuel numberOfPaths : Nat)
    (collectedData : List (List (NodeData α))) :
    Except CollectError (List (List (NodeData α))) :=
  if c.numberOfProducts = 1 then
    let columns := (List.range numberOfPaths).map (collectPath c fresh fuel collectedData)
    if columns.all Option.isSome then
      .ok ((List.range (exercises c + 1)).map fun k =>
        columns.map fun column => (column.getD []).getD k fresh)
    else .error .unfinishedPath
  else .error .notSingleProduct

/-- Entry collectedData[k][i] of a table, fresh where the table has none. -/
def entry (fresh : NodeData α) (table : List (List (NodeData α))) (k i : Nat) : NodeData α :=
  (table.getD k []).getD i fresh

/-- Whether path i is done after the pass that follows m calls of advanceStep(). -/
def doneAfter (c : Collaborators α) (i m : Nat) : Bool :=
  c.isProductTime.getD (c.currentStep i m) false && (c.nextTimeStep i m).1

/-- Invariant of the do-while loop of a path whose evolver counts its steps: the path has all
its entries, nextExercise is the number of exercise times among the steps taken, and the
entries 1..nextExercise are valid. -/
def PathState.Collected (c : Collaborators α) (fresh : NodeData α) (st : PathState α) : Prop :=
  st.column.length = exercises c + 1 ∧
  st.nextExercise = ((isExerciseTime c).take st.advances).count true ∧
  ∀ k, 1 ≤ k → k ≤ st.nextExercise → (st.column.getD k fresh).isValid = true

/-- Concrete collaborators: three evolution times, all of them product times, the first and
the last of them rebate and exercise times; an evolver that counts its steps; a product that
pays 1 at each step and is done at the second step on path 0 and at the third on the other
paths; unit bonds and discount ratios. -/
def demoCollaborators : Collaborators ℚ where
  numberOfProducts := 1
  isProductTime := [true, true, true]
  isRebateTime := [true, false, true]
  rebateIsExerciseTime := [true, true]
  currentStep := fun _ m => m
  rebateValue := fun _ m => ⟨m, 5⟩
  controlValue := fun _ m => ⟨m, 7⟩
  basisValues := fun i m _ => [(i : ℚ), (m : ℚ)]
  nextTimeStep := fun i m => (decide (m = 2 ∨ (i = 0 ∧ m = 1)), [⟨m, 1⟩])
  rebateBonds := fun _ _ _ => 1
  controlBonds := fun _ _ _ => 1
  productBonds := fun _ _ _ => 1
  discountRatio := fun _ _ => 1

/-- The pass after which the product of the concrete collaborators is first done on path i. -/
def demoFinish : Nat → Nat := fun i => if i = 0 then 1 else 2

/-- Entries that collectedData holds before the concrete call. -/
def staleData : NodeData ℚ := ⟨9, 9, [9], 9, true⟩

end MarketModels

namespace Pricers

open FiniteDifferences

variable {α : Type} [LinearOrderedField α]

/-! ## The first call of value() -/

/-- A first call in which every stage succeeds returns the control-variate combination, leaves
the priced object and makes the nine collaborator calls of the trace. -/
theorem BSMAmericanOption.value_of_firstCall {h : BSMAmericanOption.Hooks α}
    {s : BSMAmericanOption α} {st : BSMAmericanOption.Stages α}
    (hc : BSMAmericanOption.FirstCall h s st) :
    BSMAmericanOption.value h s =
      ⟨.ok (valueAtCenter st.american - valueAtCenter st.euro + st.analytic.value),
       s.priced st, s.firstCallTrace st⟩ := by
  obtain ⟨h0, h1, h2, h3, h4, h5, h6, h7, h8, h9⟩ := hc
  simp only [BSMAmericanOption.smallDt] at h7 h9
  rw [BSMAmericanOption.value, if_neg (by simp [h0])]
  simp only [h1, h2, h3, h4, h5, h6, h7, h8, h9, BSMAmericanOption.smallDt]
  rfl

/-- The first call of value() on putOption runs through the stages putStages. -/
theorem putOption_firstCall :
    BSMAmericanOption.FirstCall (demoHooks diffusionOperator) putOption putStages := by
  constructor <;>
  norm_num [demoHooks, putOption, putStages, demoOption, demoPayoff, diffusionOperator,
    BSMAmericanOption.smallDt, wrapInt32,
    FiniteDifferenceModel.rollback, FiniteDifferenceModel.rollbackSteps, crankNicolsonModel,
    CrankNicolson.step, CrankNicolson.explicitPart, CrankNicolson.implicitPart,
    CrankNicolson.theta, TridiagonalOperator.applyTo, TridiagonalOperator.solveFor,
    TridiagonalOperator.conforms, TridiagonalOperator.size, TridiagonalOperator.identity,
    TridiagonalOperator.add, TridiagonalOperator.scale, TridiagonalOperator.applyRows,
    TridiagonalOperator.forwardElimination, TridiagonalOperator.backSubstitution,
    applyCondition, BSMAmericanCondition.applyTo, BSMAmericanCondition.applyEntries]

/-- C1: on its first call (nothing calculated yet, no stage raising) value() returns exactly
numericAmericanValue - numericEuroValue + analyticEuroValue, the two numeric values being the
centre values of the American and the European array after the rollback from T to 0, and the
analytic one the value of the closed-form pricer. -/
theorem BSMAmericanOption.value_returns_control_variate (h : BSMAmericanOption.Hooks α)
    (s : BSMAmericanOption α) (st : BSMAmericanOption.Stages α)
    (hc : BSMAmericanOption.FirstCall h s st) :
    (BSMAmericanOption.value h s).result =
      .ok (valueAtCenter st.american - valueAtCenter st.euro + st.analytic.value) := by
  rw [BSMAmericanOption.value_of_firstCall hc]

/-- Witness of C1: the put on the three-point grid returns 850/49 - 200/49 + 8. -/
theorem BSMAmericanOption.value_returns_control_variate_witness :
    BSMAmericanOption.FirstCall (demoHooks diffusionOperator) putOption putStages ∧
    (BSMAmericanOption.value (demoHooks diffusionOperator) putOption).result =
      .ok (850 / 49 - 200 / 49 + 8) := by
  refine ⟨putOption_firstCall, ?_⟩
  have key := BSMAmericanOption.value_returns_control_variate _ _ _ putOption_firstCall
  rw [key]
  norm_num [putStages, valueAtCenter]

/-- C2: a first call stores, for each of delta, gamma and theta, the numeric American Greek
minus the numeric European Greek plus the analytic European Greek; the numeric delta and
gamma are the first and second derivative at the grid centre of the respective array after
the rollback from T to 0. -/
theorem BSMAmericanOption.value_stores_greeks (h : BSMAmericanOption.Hooks α)
    (s : BSMAmericanOption α) (st : BSMAmericanOption.Stages α)
    (hc : BSMAmericanOption.FirstCall h s st) :
    (BSMAmericanOption.value h s).object.theDelta =
      firstDerivativeAtCenter st.american st.grid
        - firstDerivativeAtCenter st.euro st.grid + st.analytic.delta ∧
    (BSMAmericanOption.value h s).object.theGamma =
      secondDerivativeAtCenter st.american st.grid
        - secondDerivativeAtCenter st.euro st.grid + st.analytic.gamma ∧
    (BSMAmericanOption.value h s).object.theTheta =
      (valueAtCenter st.american - valueAtCenter st.americanMinus) / s.smallDt
        - (valueAtCenter st.euro - valueAtCenter st.euroMinus) / s.smallDt
        + st.analytic.theta ∧
    (BSMAmericanOption.value h s).object.theGrid = st.grid := by
  rw [BSMAmericanOption.value_of_firstCall hc]
  exact ⟨rfl, rfl, rfl, rfl⟩

/-- Witness of C2: the Greeks stored for the put on the three-point grid. -/
theorem BSMAmericanOption.value_stores_greeks_witness :
    BSMAmericanOption.FirstCall (demoHooks diffusionOperator) putOption putStages ∧
    (BSMAmericanOption.value (demoHooks diffusionOperator) putOption).object.theDelta
      = -667 / 980 ∧
    (BSMAmericanOption.value (demoHooks diffusionOperator) putOption).object.theGamma
      = 267 / 9800 ∧
    (BSMAmericanOption.value (demoHooks diffusionOperator) putOption).object.theTheta
      = -2053852 / 43463 := by
  refine ⟨putOption_firstCall, ?_⟩
  obtain ⟨hd, hg, ht, -⟩ :=
    BSMAmericanOption.value_stores_greeks _ _ _ putOption_firstCall
  rw [hd, hg, ht]
  norm_num [putStages, putOption, demoOption, valueAtCenter, firstDerivativeAtCenter,
    secondDerivativeAtCenter, BSMAmericanOption.smallDt, wrapInt32]

/-- A first call that returns a value went through all nine stages without an error. -/
theorem BSMAmericanOption.firstCall_of_ok {h : BSMAmericanOption.Hooks α}
    {s : BSMAmericanOption α} {v : α} (hcalc : s.hasBeenCalculated = false)
    (hv : (BSMAmericanOption.value h s).result = .ok v) :
    ∃ st, BSMAmericanOption.FirstCall h s st := by
  rw [BSMAmericanOption.value, if_neg (by simp [hcalc])] at hv
  rcases h1 : h.setGridLimits s with e | limits
  · simp only [h1] at hv; exact absurd hv (by simp)
  simp only [h1] at hv
  rcases h2 : h.initializeGrid { s with sMin := limits.1, sMax := limits.2 } limits.1 limits.2
    with e | grid
  · simp only [h2] at hv; exact absurd hv (by simp)
  simp only [h2] at hv
  rcases h3 : h.initializeInitialCondition
    { s with sMin := limits.1, sMax := limits.2, theGrid := grid } with e | prices
  · simp only [h3] at hv; exact absurd hv (by simp)
  simp only [h3] at hv
  rcases h4 : h.initializeOperator
    { s with sMin := limits.1, sMax := limits.2, theGrid := grid, thePrices := prices }
    with e | op
  · simp only [h4] at hv; exact absurd hv (by simp)
  simp only [h4] at hv
  rcases h5 : h.analyticEuro s.theType s.theUnderlying s.theStrike s.theUnderlyingGrowthRate
    s.theRiskFreeRate s.theResidualTime s.theVolatility with e | analytic
  · simp only [h5] at hv; exact absurd hv (by simp)
  simp only [h5] at hv
  rcases h6 : (crankNicolsonModel op).rollback prices s.theResidualTime 0 s.theTimeSteps none
    with e | euro
  · simp only [h6] at hv; exact absurd hv (by simp)
  simp only [h6] at hv
  rcases h7 : (crankNicolsonModel op).rollback euro 0
    (-(s.theResidualTime / ((wrapInt32 (100 * s.theTimeSteps) : Int) : α))) 1 none
    with e | euroMinus
  · simp only [BSMAmericanOption.smallDt, h7] at hv; exact absurd hv (by simp)
  simp only [BSMAmericanOption.smallDt, h7] at hv
  rcases h8 : (crankNicolsonModel op).rollback prices s.theResidualTime 0 s.theTimeSteps
    (some ⟨prices⟩) with e | american
  · simp only [h8] at hv; exact absurd hv (by simp)
  simp only [h8] at hv
  rcases h9 : (crankNicolsonModel op).rollback american 0
    (-(s.theResidualTime / ((wrapInt32 (100 * s.theTimeSteps) : Int) : α))) 1 (some ⟨prices⟩)
    with e | americanMinus
  · simp only [h9] at hv; exact absurd hv (by simp)
  exact ⟨⟨limits, grid, prices, op, analytic, euro, euroMinus, american, americanMinus⟩,
    ⟨hcalc, h1, h2, h3, h4, h5, h6, h7, h8, h9⟩⟩

/-- An int product inside the 32-bit range is not changed by the wrap. -/
theorem wrapInt32_of_inRange {z : Int} (hlo : -(2 ^ 31) ≤ z) (hhi : z < 2 ^ 31) :
    wrapInt32 z = z := by
  unfold wrapInt32
  rw [Int.emod_eq_of_lt (by omega) (by omega)]
  omega

/-- C5: in a first call the European and the American rollback are requested from the same
model, built from the operator the initialiser has set, over the same interval (from
theResidualTime to 0) with the same step count theTimeSteps and from the same array; both
extra theta steps go from 0 to -smallDt in 1 step; the European requests carry no step
condition, the American ones the early-exercise condition. These are the only rollbacks. -/
theorem BSMAmericanOption.value_rollbacks_differ_only_in_condition
    (h : BSMAmericanOption.Hooks α) (s : BSMAmericanOption α)
    (st : BSMAmericanOption.Stages α) (hc : BSMAmericanOption.FirstCall h s st) :
    (BSMAmericanOption.value h s).object.theOperator = st.op ∧
    (BSMAmericanOption.value h s).calls =
      [.setGridLimits, .initializeGrid, .initializeInitialCondition, .initializeOperator,
       .analyticEuro,
       .rollback (crankNicolsonModel st.op) st.prices s.theResidualTime 0 s.theTimeSteps none,
       .rollback (crankNicolsonModel st.op) st.euro 0 (-s.smallDt) 1 none,
       .rollback (crankNicolsonModel st.op) st.prices s.theResidualTime 0 s.theTimeSteps
         (some ⟨st.prices⟩),
       .rollback (crankNicolsonModel st.op) st.american 0 (-s.smallDt) 1
         (some ⟨st.prices⟩)] := by
  rw [BSMAmericanOption.value_of_firstCall hc]
  exact ⟨rfl, rfl⟩

/-- Witness of C5: the four rollbacks requested for the put on the three-point grid. -/
theorem BSMAmericanOption.value_rollbacks_differ_only_in_condition_witness :
    BSMAmericanOption.FirstCall (demoHooks diffusionOperator) putOption putStages ∧
    (BSMAmericanOption.value (demoHooks diffusionOperator) putOption).calls =
      [.setGridLimits, .initializeGrid, .initializeInitialCondition, .initializeOperator,
       .analyticEuro,
       .rollback (crankNicolsonModel diffusionOperator) [50, 0, 0] 1 0 2 none,
       .rollback (crankNicolsonModel diffusionOperator) [225 / 49, 200 / 49, 225 / 49]
         0 (-(1 / 200)) 1 none,
       .rollback (crankNicolsonModel diffusionOperator) [50, 0, 0] 1 0 2 (some ⟨[50, 0, 0]⟩),
       .rollback (crankNicolsonModel diffusionOperator) [50, 850 / 49, 775 / 98]
         0 (-(1 / 200)) 1 (some ⟨[50, 0, 0]⟩)] := by
  refine ⟨putOption_firstCall, ?_⟩
  rw [(BSMAmericanOption.value_rollbacks_differ_only_in_condition _ _ _
    putOption_firstCall).2]
  norm_num [putStages, putOption, demoOption, BSMAmericanOption.smallDt, wrapInt32]

/-- C6: in a first call, for the European and for the American array alike, theta is
(V0 - V1)/smallDt with V0 the centre value after the rollback to time 0 and V1 the centre
value after the one extra single-step rollback from 0 to -smallDt (requested right after, on
the same array); the two estimates enter theTheta; and smallDt is
theResidualTime/(100*theTimeSteps) as long as the int product 100*theTimeSteps does not
overflow. -/
theorem BSMAmericanOption.value_theta_by_small_step (h : BSMAmericanOption.Hooks α)
    (s : BSMAmericanOption α) (st : BSMAmericanOption.Stages α)
    (hc : BSMAmericanOption.FirstCall h s st)
    (hlo : -(2 ^ 31) ≤ 100 * s.theTimeSteps) (hhi : 100 * s.theTimeSteps < 2 ^ 31) :
    s.smallDt = s.theResidualTime / (100 * (s.theTimeSteps : α)) ∧
    (crankNicolsonModel st.op).rollback st.euro 0 (-s.smallDt) 1 none = .ok st.euroMinus ∧
    (crankNicolsonModel st.op).rollback st.american 0 (-s.smallDt) 1 (some ⟨st.prices⟩)
      = .ok st.americanMinus ∧
    (BSMAmericanOption.value h s).calls.get? 6 =
      some (.rollback (crankNicolsonModel st.op) st.euro 0 (-s.smallDt) 1 none) ∧
    (BSMAmericanOption.value h s).calls.get? 8 =
      some (.rollback (crankNicolsonModel st.op) st.american 0 (-s.smallDt) 1
        (some ⟨st.prices⟩)) ∧
    (BSMAmericanOption.value h s).object.theTheta =
      (valueAtCenter st.american - valueAtCenter st.americanMinus) / s.smallDt
        - (valueAtCenter st.euro - valueAtCenter st.euroMinus) / s.smallDt
        + st.analytic.theta := by
  refine ⟨?_, hc.euroMinus, hc.americanMinus, ?_⟩
  · simp only [BSMAmericanOption.smallDt, wrapInt32_of_inRange hlo hhi]
    push_cast
    rfl
  · rw [BSMAmericanOption.value_of_firstCall hc]
    exact ⟨rfl, rfl, rfl⟩

/-- Witness of C6: for the put on the three-point grid smallDt is 1/200 and the stored theta
combines the two backward differences over that step. -/
theorem BSMAmericanOption.value_theta_by_small_step_witness :
    BSMAmericanOption.FirstCall (demoHooks diffusionOperator) putOption putStages ∧
    putOption.smallDt = 1 / 200 ∧
    (BSMAmericanOption.value (demoHooks diffusionOperator) putOption).object.theTheta =
      (850 / 49 - 17566650 / 999649) / (1 / 200)
        - (200 / 49 - 4089800 / 999649) / (1 / 200) + -4 := by
  obtain ⟨hdt, -, -, -, -, ht⟩ :=
    BSMAmericanOption.value_theta_by_small_step _ _ _ putOption_firstCall
      (by norm_num [putOption, demoOption]) (by norm_num [putOption, demoOption])
  refine ⟨putOption_firstCall, ?_, ?_⟩
  · rw [hdt]
    norm_num [putOption, demoOption]
  · rw [ht, hdt]
    norm_num [putStages, putOption, demoOption, valueAtCenter]

/-- C7: once value() has completed (hasBeenCalculated is true) a call returns the stored
theValue, makes no collaborator call (no grid initialisation, no rollback) and leaves every
member as it is; and whenever a call returns some value, the next call on the object it left
returns the same value, again without any collaborator call or change. -/
theorem BSMAmericanOption.value_memoized (h : BSMAmericanOption.Hooks α)
    (s : BSMAmericanOption α) :
    (s.hasBeenCalculated = true →
      (BSMAmericanOption.value h s).result = .ok s.theValue ∧
      (BSMAmericanOption.value h s).object = s ∧
      (BSMAmericanOption.value h s).calls = []) ∧
    (∀ v, (BSMAmericanOption.value h s).result = .ok v →
      (BSMAmericanOption.value h s).object.hasBeenCalculated = true ∧
      (BSMAmericanOption.value h (BSMAmericanOption.value h s).object).result = .ok v ∧
      (BSMAmericanOption.value h (BSMAmericanOption.value h s).object).object
        = (BSMAmericanOption.value h s).object ∧
      (BSMAmericanOption.value h (BSMAmericanOption.value h s).object).calls = []) := by
  have done : ∀ t : BSMAmericanOption α, t.hasBeenCalculated = true →
      BSMAmericanOption.value h t = ⟨.ok t.theValue, t, []⟩ := by
    intro t ht
    rw [BSMAmericanOption.value, if_pos ht]
  refine ⟨fun hs => by rw [done s hs]; exact ⟨rfl, rfl, rfl⟩, fun v hv => ?_⟩
  cases hcalc : s.hasBeenCalculated with
  | true =>
    rw [done s hcalc] at hv ⊢
    simp only [Except.ok.injEq] at hv
    rw [done s hcalc]
    exact ⟨hcalc, by rw [hv], rfl, rfl⟩
  | false =>
    obtain ⟨st, hc⟩ := BSMAmericanOption.firstCall_of_ok hcalc hv
    rw [BSMAmericanOption.value_of_firstCall hc] at hv ⊢
    simp only [Except.ok.injEq] at hv
    have hp : (s.priced st).hasBeenCalculated = true := rfl
    rw [done _ hp]
    exact ⟨rfl, by rw [← hv]; rfl, rfl, rfl⟩

/-- C9: in a first call the American rollback is requested on the initial condition (the
array the initialiser returned) and the early-exercise condition holds that same array,
whatever the two European rollbacks, requested before, have produced from their copy. -/
theorem BSMAmericanOption.value_american_starts_from_initial_condition
    (h : BSMAmericanOption.Hooks α) (s : BSMAmericanOption α)
    (st : BSMAmericanOption.Stages α) (hc : BSMAmericanOption.FirstCall h s st) :
    h.initializeInitialCondition
      { s with sMin := st.limits.1, sMax := st.limits.2, theGrid := st.grid } = .ok st.prices ∧
    (BSMAmericanOption.value h s).calls.get? 5 =
      some (.rollback (crankNicolsonModel st.op) st.prices s.theResidualTime 0 s.theTimeSteps
        none) ∧
    (BSMAmericanOption.value h s).calls.get? 6 =
      some (.rollback (crankNicolsonModel st.op) st.euro 0 (-s.smallDt) 1 none) ∧
    (BSMAmericanOption.value h s).calls.get? 7 =
      some (.rollback (crankNicolsonModel st.op) st.prices s.theResidualTime 0 s.theTimeSteps
        (some ⟨st.prices⟩)) := by
  refine ⟨hc.prices, ?_⟩
  rw [BSMAmericanOption.value_of_firstCall hc]
  exact ⟨rfl, rfl, rfl⟩

/-- Witness of C9: for the put on the three-point grid the European rollback turns its copy
into (225/49, 200/49, 225/49), and the American rollback is still requested on the payoff
(50, 0, 0), with the condition holding (50, 0, 0). -/
theorem BSMAmericanOption.value_american_starts_from_initial_condition_witness :
    BSMAmericanOption.FirstCall (demoHooks diffusionOperator) putOption putStages ∧
    putStages.euro = [225 / 49, 200 / 49, 225 / 49] ∧
    (BSMAmericanOption.value (demoHooks diffusionOperator) putOption).calls.get? 7 =
      some (.rollback (crankNicolsonModel diffusionOperator) [50, 0, 0] 1 0 2
        (some ⟨[50, 0, 0]⟩)) := by
  refine ⟨putOption_firstCall, rfl, ?_⟩
  rw [(BSMAmericanOption.value_american_starts_from_initial_condition _ _ _
    putOption_firstCall).2.2.2]
  rfl

end Pricers

namespace FiniteDifferences

variable {α : Type} [LinearOrderedField α]

/-! ## The early-exercise condition -/

/-- The early-exercise condition keeps the length of the array. -/
theorem BSMAmericanCondition.length_applyEntries (x ps : List α) :
    (BSMAmericanCondition.applyEntries x ps).length = x.length := by
  induction x generalizing ps with
  | nil => rfl
  | cons a xs ih =>
    cases ps with
    | nil => rfl
    | cons p ps => simp [BSMAmericanCondition.applyEntries, ih]

/-- The early-exercise condition never lowers an entry. -/
theorem BSMAmericanCondition.le_applyEntries (x ps : List α) :
    List.Forall₂ (· ≤ ·) x (BSMAmericanCondition.applyEntries x ps) := by
  induction x generalizing ps with
  | nil => exact List.Forall₂.nil
  | cons a xs ih =>
    cases ps with
    | nil => exact List.forall₂_same.2 fun _ _ => le_refl _
    | cons p ps => exact List.Forall₂.cons (le_max_left a p) (ih ps)

/-- Entry i of the array after the early-exercise condition. -/
theorem BSMAmericanCondition.get?_applyEntries (x ps : List α) (i : Nat) (v : α)
    (hv : x.get? i = some v) :
    ∃ w, (BSMAmericanCondition.applyEntries x ps).get? i = some w ∧ v ≤ w ∧
      ∀ p, ps.get? i = some p → w = max v p ∧ p ≤ w := by
  induction x generalizing ps i with
  | nil => simp at hv
  | cons a xs ih =>
    cases ps with
    | nil => exact ⟨v, hv, le_refl _, fun p hp => by simp at hp⟩
    | cons q ps =>
      cases i with
      | zero =>
        simp only [List.get?_cons_zero, Option.some.injEq] at hv
        subst hv
        refine ⟨max a q, rfl, le_max_left _ _, fun p hp => ?_⟩
        simp only [List.get?_cons_zero, Option.some.injEq] at hp
        subst hp
        exact ⟨rfl, le_max_right _ _⟩
      | succ i => exact ih ps i hv

/-- C10: the early-exercise condition sets x[i] = max(x[i], intrinsic value at grid point i)
for every index i: the array keeps its length, no entry is lower after the application than
before, and every entry is at least the intrinsic value at its grid point. -/
theorem BSMAmericanCondition.applyTo_raises_to_intrinsic (c : BSMAmericanCondition α)
    (x : List α) :
    (c.applyTo x).length = x.length ∧
    ∀ (i : Nat) (v : α), x.get? i = some v →
      ∃ w, (c.applyTo x).get? i = some w ∧ v ≤ w ∧
        ∀ p, c.initialPrices.get? i = some p → w = max v p ∧ p ≤ w :=
  ⟨BSMAmericanCondition.length_applyEntries x c.initialPrices,
   fun i v hv => BSMAmericanCondition.get?_applyEntries x c.initialPrices i v hv⟩

/-- Concrete application of C10: on (40, 3, -1) with intrinsic values (50, 0, 0) the condition
yields (50, 3, 0). -/
theorem BSMAmericanCondition.applyTo_raises_to_intrinsic_witness :
    (⟨[50, 0, 0]⟩ : BSMAmericanCondition ℚ).applyTo [40, 3, -1] = [50, 3, 0] ∧
    ((⟨[50, 0, 0]⟩ : BSMAmericanCondition ℚ).applyTo [40, 3, -1]).length = 3 := by
  refine ⟨?_, (BSMAmericanCondition.applyTo_raises_to_intrinsic ⟨[50, 0, 0]⟩ [40, 3, -1]).1⟩
  norm_num [BSMAmericanCondition.applyTo, BSMAmericanCondition.applyEntries]

/-! ## Rollbacks with and without the step condition -/

/-- Sub-steps during which the condition changes nothing are the sub-steps without it. -/
theorem FiniteDifferenceModel.rollbackSteps_of_idle (m : FiniteDifferenceModel α)
    (c : BSMAmericanCondition α) (dt : α) (k : Nat) (t : α) (a : List α)
    (hidle : ∀ x ∈ m.conditionInputsSteps c dt k t a, c.applyTo x = x) :
    m.rollbackSteps (some c) dt k t a = m.rollbackSteps none dt k t a := by
  induction k generalizing t a with
  | zero => rfl
  | succ k ih =>
    simp only [FiniteDifferenceModel.rollbackSteps, FiniteDifferenceModel.conditionInputsSteps]
      at hidle ⊢
    cases hstep : m.evolver a t (t - dt) with
    | error e => rfl
    | ok a1 =>
      simp only [hstep, List.mem_cons, forall_eq_or_imp] at hidle
      simp only [applyCondition, hidle.1]
      apply ih
      have h2 := hidle.2
      rw [hidle.1] at h2
      exact h2

/-- A rollback during which the condition changes nothing is the rollback without it. -/
theorem FiniteDifferenceModel.rollback_of_idle (m : FiniteDifferenceModel α)
    (c : BSMAmericanCondition α) (a : List α) (fromTime toTime : α) (nSteps : Int)
    (hidle : ∀ x ∈ m.conditionInputs a fromTime toTime nSteps c, c.applyTo x = x) :
    m.rollback a fromTime toTime nSteps (some c) = m.rollback a fromTime toTime nSteps none := by
  unfold FiniteDifferenceModel.rollback
  unfold FiniteDifferenceModel.conditionInputs at hidle
  split
  · rfl
  · rename_i h1
    split
    · rfl
    · rename_i h2
      rw [if_neg h1, if_neg h2] at hidle
      simp only [List.mem_cons, forall_eq_or_imp] at hidle
      simp only [applyCondition, hidle.1]
      apply FiniteDifferenceModel.rollbackSteps_of_idle
      have h3 := hidle.2
      rw [hidle.1] at h3
      exact h3

/-- Pointwise ordered arrays have ordered entries at every index. -/
theorem getD_le_getD_of_forall₂ {a b : List α} (hab : List.Forall₂ (· ≤ ·) a b) (i : Nat) :
    a.getD i 0 ≤ b.getD i 0 := by
  induction hab generalizing i with
  | nil => simp
  | cons hxy _ ih =>
    cases i with
    | zero => simpa using hxy
    | succ i => simpa using ih i

/-- The centre value is monotone in the array. -/
theorem valueAtCenter_le_of_forall₂ {a b : List α} (hab : List.Forall₂ (· ≤ ·) a b) :
    valueAtCenter a ≤ valueAtCenter b := by
  unfold valueAtCenter
  rw [← hab.length_eq]
  exact getD_le_getD_of_forall₂ hab _

/-- Pointwise order of arrays is transitive. -/
theorem forall₂_le_trans {a b c : List α} (hab : List.Forall₂ (· ≤ ·) a b)
    (hbc : List.Forall₂ (· ≤ ·) b c) : List.Forall₂ (· ≤ ·) a c := by
  induction hab generalizing c with
  | nil => cases hbc; exact List.Forall₂.nil
  | cons hxy _ ih =>
    cases hbc with
    | cons hyz hrest => exact List.Forall₂.cons (le_trans hxy hyz) (ih hrest)

/-- With an order-preserving evolver, sub-steps with the early-exercise condition stay
pointwise above sub-steps without it. -/
theorem FiniteDifferenceModel.rollbackSteps_le_of_orderPreserving (m : FiniteDifferenceModel α)
    (c : BSMAmericanCondition α) (dt : α) (hm : m.OrderPreserving dt) (k : Nat) (t : α)
    (a b ra rb : List α) (hab : List.Forall₂ (· ≤ ·) a b)
    (ha : m.rollbackSteps none dt k t a = .ok ra)
    (hb : m.rollbackSteps (some c) dt k t b = .ok rb) :
    List.Forall₂ (· ≤ ·) ra rb := by
  induction k generalizing t a b with
  | zero =>
    simp only [FiniteDifferenceModel.rollbackSteps, Except.ok.injEq] at ha hb
    rw [← ha, ← hb]
    exact hab
  | succ k ih =>
    simp only [FiniteDifferenceModel.rollbackSteps] at ha hb
    cases hsa : m.evolver a t (t - dt) with
    | error e => rw [hsa] at ha; exact absurd ha (by simp)
    | ok a1 =>
      cases hsb : m.evolver b t (t - dt) with
      | error e => rw [hsb] at hb; exact absurd hb (by simp)
      | ok b1 =>
        rw [hsa] at ha
        rw [hsb] at hb
        exact ih (t - dt) a1 (applyCondition (some c) b1)
          (forall₂_le_trans (hm t a b a1 b1 hab hsa hsb)
            (BSMAmericanCondition.le_applyEntries b1 c.initialPrices)) ha hb

/-- With an order-preserving evolver, the rollback with the early-exercise condition ends
pointwise above the rollback without it. -/
theorem FiniteDifferenceModel.rollback_le_of_orderPreserving (m : FiniteDifferenceModel α)
    (c : BSMAmericanCondition α) (a : List α) (fromTime toTime : α) (nSteps : Int)
    (hm : m.OrderPreserving ((fromTime - toTime) / (nSteps : α))) (ra rb : List α)
    (ha : m.rollback a fromTime toTime nSteps none = .ok ra)
    (hb : m.rollback a fromTime toTime nSteps (some c) = .ok rb) :
    List.Forall₂ (· ≤ ·) ra rb := by
  unfold FiniteDifferenceModel.rollback at ha hb
  split at ha
  · exact absurd ha (by simp)
  · rename_i h1
    rw [if_neg h1] at hb
    split at ha
    · rename_i h2
      rw [if_pos h2] at hb
      simp only [Except.ok.injEq] at ha hb
      rw [← ha, ← hb]
      exact List.forall₂_same.2 fun _ _ => le_refl _
    · rename_i h2
      rw [if_neg h2] at hb
      exact FiniteDifferenceModel.rollbackSteps_le_of_orderPreserving m c _ hm _ _ _ _ ra rb
        (BSMAmericanCondition.le_applyEntries a c.initialPrices) ha hb

end FiniteDifferences

namespace Pricers

open FiniteDifferences

variable {α : Type} [LinearOrderedField α]

/-! ## Control variate, early-exercise premium and frame of a first call -/

/-- The first call of value() on callOption runs through the stages callStages. -/
theorem callOption_firstCall :
    BSMAmericanOption.FirstCall (demoHooks fixedBoundaryOperator) callOption callStages := by
  constructor <;>
  norm_num [demoHooks, callOption, callStages, demoOption, demoPayoff, fixedBoundaryOperator,
    BSMAmericanOption.smallDt, wrapInt32,
    FiniteDifferenceModel.rollback, FiniteDifferenceModel.rollbackSteps, crankNicolsonModel,
    CrankNicolson.step, CrankNicolson.explicitPart, CrankNicolson.implicitPart,
    CrankNicolson.theta, TridiagonalOperator.applyTo, TridiagonalOperator.solveFor,
    TridiagonalOperator.conforms, TridiagonalOperator.size, TridiagonalOperator.identity,
    TridiagonalOperator.add, TridiagonalOperator.scale, TridiagonalOperator.applyRows,
    TridiagonalOperator.forwardElimination, TridiagonalOperator.backSubstitution,
    applyCondition, BSMAmericanCondition.applyTo, BSMAmericanCondition.applyEntries]

set_option maxHeartbeats 8000000 in
/-- The first call of value() on coarsePutOption with bsmHooks runs through the stages
coarsePutStages, whatever the closed-form pricer returns. -/
theorem coarsePutOption_firstCall (analytic : Greeks ℚ) :
    BSMAmericanOption.FirstCall (bsmHooks analytic) coarsePutOption
      (coarsePutStages analytic) := by
  have hsqrt : Rat.sqrt 1 = 1 := by
    have h := Rat.sqrt_eq 1
    rwa [mul_one, abs_one] at h
  constructor <;>
  norm_num [bsmHooks, bsmOperator, bsmRows, bsmRow, coarsePutOption, coarsePutStages,
    demoOption, demoPayoff, hsqrt, BSMAmericanOption.smallDt, wrapInt32,
    FiniteDifferenceModel.rollback, FiniteDifferenceModel.rollbackSteps, crankNicolsonModel,
    CrankNicolson.step, CrankNicolson.explicitPart, CrankNicolson.implicitPart,
    CrankNicolson.theta, TridiagonalOperator.applyTo, TridiagonalOperator.solveFor,
    TridiagonalOperator.conforms, TridiagonalOperator.size, TridiagonalOperator.identity,
    TridiagonalOperator.add, TridiagonalOperator.scale, TridiagonalOperator.applyRows,
    TridiagonalOperator.forwardElimination, TridiagonalOperator.backSubstitution,
    applyCondition, BSMAmericanCondition.applyTo, BSMAmericanCondition.applyEntries]

/-- C3: if in a first call the early-exercise condition leaves the array unchanged at every
application during the two American rollbacks, then the American rollbacks produce the arrays
of the European rollbacks, value() returns exactly the analytic European value, and theDelta,
theGamma and theTheta are the analytic European delta, gamma and theta. -/
theorem BSMAmericanOption.value_is_analytic_when_condition_idle
    (h : BSMAmericanOption.Hooks α) (s : BSMAmericanOption α)
    (st : BSMAmericanOption.Stages α) (hc : BSMAmericanOption.FirstCall h s st)
    (hidle : ∀ x ∈
      (crankNicolsonModel st.op).conditionInputs st.prices s.theResidualTime 0 s.theTimeSteps
          ⟨st.prices⟩ ++
        (crankNicolsonModel st.op).conditionInputs st.american 0 (-s.smallDt) 1 ⟨st.prices⟩,
      (⟨st.prices⟩ : BSMAmericanCondition α).applyTo x = x) :
    st.american = st.euro ∧ st.americanMinus = st.euroMinus ∧
    (BSMAmericanOption.value h s).result = .ok st.analytic.value ∧
    (BSMAmericanOption.value h s).object.theDelta = st.analytic.delta ∧
    (BSMAmericanOption.value h s).object.theGamma = st.analytic.gamma ∧
    (BSMAmericanOption.value h s).object.theTheta = st.analytic.theta := by
  have h1 : st.american = st.euro := by
    have e := FiniteDifferenceModel.rollback_of_idle (crankNicolsonModel st.op) ⟨st.prices⟩
      st.prices s.theResidualTime 0 s.theTimeSteps
      (fun x hx => hidle x (List.mem_append_left _ hx))
    rw [hc.american, hc.euro] at e
    exact Except.ok.inj e
  have h2 : st.americanMinus = st.euroMinus := by
    have e := FiniteDifferenceModel.rollback_of_idle (crankNicolsonModel st.op) ⟨st.prices⟩
      st.american 0 (-s.smallDt) 1 (fun x hx => hidle x (List.mem_append_right _ hx))
    rw [hc.americanMinus, h1, hc.euroMinus] at e
    exact Except.ok.inj e
  rw [BSMAmericanOption.value_of_firstCall hc]
  simp only [BSMAmericanOption.priced, h1, h2, sub_self, zero_add, and_self]

/-- Witness of C3: for the call on the grid with fixed boundary values the condition never
binds, and value() returns the analytic value 8. -/
theorem BSMAmericanOption.value_is_analytic_when_condition_idle_witness :
    BSMAmericanOption.FirstCall (demoHooks fixedBoundaryOperator) callOption callStages ∧
    callStages.american = [0, 400 / 9, 100] ∧ callStages.euro = [0, 400 / 9, 100] ∧
    (BSMAmericanOption.value (demoHooks fixedBoundaryOperator) callOption).result = .ok 8 := by
  refine ⟨callOption_firstCall, rfl, rfl, ?_⟩
  have key := BSMAmericanOption.value_is_analytic_when_condition_idle _ _ _
    callOption_firstCall (by
      norm_num [callOption, callStages, demoOption, fixedBoundaryOperator,
        BSMAmericanOption.smallDt, wrapInt32,
        FiniteDifferenceModel.conditionInputs, FiniteDifferenceModel.conditionInputsSteps,
        crankNicolsonModel,
        CrankNicolson.step, CrankNicolson.explicitPart, CrankNicolson.implicitPart,
        CrankNicolson.theta, TridiagonalOperator.applyTo, TridiagonalOperator.solveFor,
        TridiagonalOperator.conforms, TridiagonalOperator.size, TridiagonalOperator.identity,
        TridiagonalOperator.add, TridiagonalOperator.scale, TridiagonalOperator.applyRows,
        TridiagonalOperator.forwardElimination, TridiagonalOperator.backSubstitution,
        BSMAmericanCondition.applyTo, BSMAmericanCondition.applyEntries])
  rw [key.2.2.1]
  rfl

/-- The Crank-Nicolson step of diffusionOperator over a sub-step of width 1/2 accepts arrays of
three entries and applies the matrix with rows (1, 4, 1)/14, (4, 2, 4)/14, (1, 4, 1)/14. -/
theorem diffusionOperator_step {a a1 : List ℚ} {t t1 : ℚ} (hdt : t - t1 = 1 / 2)
    (ha : CrankNicolson.step diffusionOperator a t t1 = .ok a1) :
    ∃ x0 x1 x2, a = [x0, x1, x2] ∧
      a1 = [(x0 + 4 * x1 + x2) / 14, (4 * x0 + 2 * x1 + 4 * x2) / 14,
        (x0 + 4 * x1 + x2) / 14] := by
  simp only [CrankNicolson.step, hdt] at ha
  rcases a with _ | ⟨x0, _ | ⟨x1, _ | ⟨x2, _ | ⟨x3, xs⟩⟩⟩⟩
  case cons.cons.cons.nil =>
    refine ⟨x0, x1, x2, rfl, ?_⟩
    norm_num [diffusionOperator, CrankNicolson.explicitPart,
      CrankNicolson.implicitPart, CrankNicolson.theta, TridiagonalOperator.applyTo,
      TridiagonalOperator.solveFor, TridiagonalOperator.conforms, TridiagonalOperator.size,
      TridiagonalOperator.identity, TridiagonalOperator.add, TridiagonalOperator.scale,
      TridiagonalOperator.applyRows, TridiagonalOperator.forwardElimination,
      TridiagonalOperator.backSubstitution] at ha
    rw [← ha]
    congr 1
    · ring
    congr 1
    · ring
    congr 1
    ring
  all_goals
    exfalso
    simp [diffusionOperator, CrankNicolson.explicitPart,
      CrankNicolson.implicitPart, TridiagonalOperator.applyTo, TridiagonalOperator.conforms,
      TridiagonalOperator.size, TridiagonalOperator.identity, TridiagonalOperator.add,
      TridiagonalOperator.scale] at ha

/-- The Crank-Nicolson step of diffusionOperator is order preserving over the sub-steps of the
rollback of putOption (width 1/2): the matrix it applies has no negative entry. -/
theorem diffusionOperator_orderPreserving :
    (crankNicolsonModel diffusionOperator).OrderPreserving
      ((putOption.theResidualTime - 0) / (putOption.theTimeSteps : ℚ)) := by
  intro t a b a1 b1 hab ha hb
  have hdt : t - (t - (putOption.theResidualTime - 0) / (putOption.theTimeSteps : ℚ))
      = 1 / 2 := by
    norm_num [putOption, demoOption]
  obtain ⟨x0, x1, x2, rfl, rfl⟩ := diffusionOperator_step hdt ha
  obtain ⟨y0, y1, y2, rfl, rfl⟩ := diffusionOperator_step hdt hb
  simp only [List.forall₂_cons, List.forall₂_nil_left_iff, and_true] at hab ⊢
  obtain ⟨h0, h1, h2⟩ := hab
  refine ⟨?_, ?_, ?_⟩ <;> linarith

/-- C4, as amended: if the one-step evolution of the model is order preserving over the
sub-steps of the rollback from T to 0, then in a first call the numerical American centre
value is at least the numerical European centre value, and the value returned by value() is
at least the analytic European value. -/
theorem BSMAmericanOption.value_premium_nonneg_of_orderPreserving
    (h : BSMAmericanOption.Hooks α) (s : BSMAmericanOption α)
    (st : BSMAmericanOption.Stages α) (hc : BSMAmericanOption.FirstCall h s st)
    (hm : (crankNicolsonModel st.op).OrderPreserving
      ((s.theResidualTime - 0) / (s.theTimeSteps : α))) :
    valueAtCenter st.euro ≤ valueAtCenter st.american ∧
    ∃ v, (BSMAmericanOption.value h s).result = .ok v ∧ st.analytic.value ≤ v := by
  have hle : valueAtCenter st.euro ≤ valueAtCenter st.american :=
    valueAtCenter_le_of_forall₂
      (FiniteDifferenceModel.rollback_le_of_orderPreserving _ ⟨st.prices⟩ st.prices
        s.theResidualTime 0 s.theTimeSteps hm st.euro st.american hc.euro hc.american)
  refine ⟨hle, _, by rw [BSMAmericanOption.value_of_firstCall hc], ?_⟩
  linarith

/-- Witness of C4 as amended: the put on the three-point grid with sub-steps of width 1/2. -/
theorem BSMAmericanOption.value_premium_nonneg_of_orderPreserving_witness :
    BSMAmericanOption.FirstCall (demoHooks diffusionOperator) putOption putStages ∧
    valueAtCenter putStages.euro ≤ valueAtCenter putStages.american ∧
    ∃ v, (BSMAmericanOption.value (demoHooks diffusionOperator) putOption).result = .ok v ∧
      putStages.analytic.value ≤ v :=
  ⟨putOption_firstCall,
   BSMAmericanOption.value_premium_nonneg_of_orderPreserving _ _ _ putOption_firstCall
     diffusionOperator_orderPreserving⟩

/-- Counterexample to C4: the put struck at 80 on the spot 100 (volatility 10%, risk-free
rate 10%, no dividends, one year), priced with two time steps on the grid
(60, 80, 100, 120, 140) of five equally spaced prices between 100 (1 - 4 sigma sqrt(T)) and
100 (1 + 4 sigma sqrt(T)), with the payoff and the Black-Scholes-Merton operator of the
option on that grid. The numerical American centre value (about 0.0590) is below the
numerical European centre value (about 0.1193), and value() returns about -0.0589, less than
the analytic European value 0.0014. -/
theorem BSMAmericanOption.value_premium_negative_on_coarse_steps :
    BSMAmericanOption.FirstCall (bsmHooks coarsePutAnalytic) coarsePutOption
      (coarsePutStages coarsePutAnalytic) ∧
    valueAtCenter (coarsePutStages coarsePutAnalytic).american
      = 1016858592000 / 17220864938809 ∧
    valueAtCenter (coarsePutStages coarsePutAnalytic).euro
      = 2055308112000 / 17220864938809 ∧
    valueAtCenter (coarsePutStages coarsePutAnalytic).american
      < valueAtCenter (coarsePutStages coarsePutAnalytic).euro ∧
    (BSMAmericanOption.value (bsmHooks coarsePutAnalytic) coarsePutOption).result
      = .ok (1016858592000 / 17220864938809 - 2055308112000 / 17220864938809
        + 14 / 10000) ∧
    (1016858592000 / 17220864938809 - 2055308112000 / 17220864938809 + 14 / 10000 : ℚ)
      < (coarsePutStages coarsePutAnalytic).analytic.value := by
  refine ⟨coarsePutOption_firstCall coarsePutAnalytic, ?_, ?_, ?_, ?_, ?_⟩
  · norm_num [coarsePutStages, valueAtCenter]
  · norm_num [coarsePutStages, valueAtCenter]
  · norm_num [coarsePutStages, valueAtCenter]
  · rw [BSMAmericanOption.value_of_firstCall (coarsePutOption_firstCall coarsePutAnalytic)]
    norm_num [coarsePutStages, coarsePutAnalytic, valueAtCenter]
  · norm_num [coarsePutStages, coarsePutAnalytic]

/-- Whatever the later stages of calculate() do, initialPrices_ holds what the initialiser
returned: the rollbacks work on euroPrices_. -/
theorem FiniteDifferenceEuropean.calculate_keeps_initialPrices
    (h : FiniteDifferenceEuropean.Hooks α) (s : FiniteDifferenceEuropean α)
    (limits : α × α) (grid prices : List α)
    (h1 : h.setGridLimits s s.underlying_ s.residualTime_ = .ok limits)
    (h2 : h.initializeGrid { s with sMin_ := limits.1, sMax_ := limits.2 } = .ok grid)
    (h3 : h.initializeInitialCondition
      { s with sMin_ := limits.1, sMax_ := limits.2, grid_ := grid } = .ok prices) :
    (FiniteDifferenceEuropean.calculate h s).object.initialPrices_ = prices := by
  unfold FiniteDifferenceEuropean.calculate
  simp only [h1, h2, h3]
  split
  · rfl
  · split
    · rfl
    · split <;> rfl

/-- C8, as amended: FiniteDifferenceEuropean::calculate leaves initialPrices_ equal to the
initial condition (its rollbacks mutate the copy euroPrices_); in BSMAmericanOption::value
only the European rollbacks work on a copy, the American rollbacks mutate thePrices itself,
which after a first call holds the American array after the extra theta step. -/
theorem pricing_frame_of_initial_condition
    (h : BSMAmericanOption.Hooks α) (s : BSMAmericanOption α)
    (st : BSMAmericanOption.Stages α) (hc : BSMAmericanOption.FirstCall h s st)
    (hE : FiniteDifferenceEuropean.Hooks α) (sE : FiniteDifferenceEuropean α)
    (limits : α × α) (grid prices : List α)
    (h1 : hE.setGridLimits sE sE.underlying_ sE.residualTime_ = .ok limits)
    (h2 : hE.initializeGrid { sE with sMin_ := limits.1, sMax_ := limits.2 } = .ok grid)
    (h3 : hE.initializeInitialCondition
      { sE with sMin_ := limits.1, sMax_ := limits.2, grid_ := grid } = .ok prices) :
    (FiniteDifferenceEuropean.calculate hE sE).object.initialPrices_ = prices ∧
    (BSMAmericanOption.value h s).object.thePrices = st.americanMinus := by
  refine ⟨FiniteDifferenceEuropean.calculate_keeps_initialPrices hE sE limits grid prices
    h1 h2 h3, ?_⟩
  rw [BSMAmericanOption.value_of_firstCall hc]
  rfl

/-- Witness of C8 as amended: the European put keeps the payoff (50, 0, 0) in initialPrices_
while euroPrices_ is rolled back; the American put ends with the rolled-back array in
thePrices. -/
theorem pricing_frame_of_initial_condition_witness :
    BSMAmericanOption.FirstCall (demoHooks diffusionOperator) putOption putStages ∧
    (FiniteDifferenceEuropean.calculate (demoEuropeanHooks diffusionOperator)
      europeanPut).object.initialPrices_ = [50, 0, 0] ∧
    (BSMAmericanOption.value (demoHooks diffusionOperator) putOption).object.thePrices
      = [50, 17566650 / 999649, 1600174225 / 201929098] := by
  have key := pricing_frame_of_initial_condition _ _ _ putOption_firstCall
    (demoEuropeanHooks diffusionOperator) europeanPut (50, 200) [50, 100, 200] [50, 0, 0]
    (by norm_num [demoEuropeanHooks, europeanPut])
    (by norm_num [demoEuropeanHooks, europeanPut])
    (by norm_num [demoEuropeanHooks, europeanPut, demoPayoff])
  exact ⟨putOption_firstCall, key.1, key.2⟩

/-- Counterexample to C8: after the first call of value() on the put on the three-point grid,
thePrices, the array that held the initial condition (50, 0, 0), holds
(50, 17566650/999649, 1600174225/201929098). -/
theorem BSMAmericanOption.value_overwrites_thePrices :
    BSMAmericanOption.FirstCall (demoHooks diffusionOperator) putOption putStages ∧
    putStages.prices = [50, 0, 0] ∧
    (BSMAmericanOption.value (demoHooks diffusionOperator) putOption).object.thePrices
      = [50, 17566650 / 999649, 1600174225 / 201929098] ∧
    (BSMAmericanOption.value (demoHooks diffusionOperator) putOption).object.thePrices
      ≠ putStages.prices := by
  have hval : (BSMAmericanOption.value (demoHooks diffusionOperator) putOption).object.thePrices
      = [50, 17566650 / 999649, 1600174225 / 201929098] := by
    rw [BSMAmericanOption.value_of_firstCall putOption_firstCall]
    rfl
  refine ⟨putOption_firstCall, rfl, hval, ?_⟩
  rw [hval]
  norm_num [putStages]

/-- Concrete run of C7: the second call of value() on the put returns the value of the first
call, 1042/49, and makes no collaborator call. -/
theorem BSMAmericanOption.value_memoized_witness :
    (BSMAmericanOption.value (demoHooks diffusionOperator) putOption).result
      = .ok (1042 / 49) ∧
    (BSMAmericanOption.value (demoHooks diffusionOperator)
      (BSMAmericanOption.value (demoHooks diffusionOperator) putOption).object).result
      = .ok (1042 / 49) ∧
    (BSMAmericanOption.value (demoHooks diffusionOperator)
      (BSMAmericanOption.value (demoHooks diffusionOperator) putOption).object).calls = [] := by
  have hv : (BSMAmericanOption.value (demoHooks diffusionOperator) putOption).result
      = .ok (1042 / 49) := by
    rw [BSMAmericanOption.value_of_firstCall putOption_firstCall]
    norm_num [putStages, valueAtCenter]
  obtain ⟨-, h2, -, h4⟩ :=
    (BSMAmericanOption.value_memoized (demoHooks diffusionOperator) putOption).2 _ hv
  exact ⟨hv, h2, h4⟩

end Pricers

namespace Math

variable {α : Type} [LinearOrderedField α]

/-! ## MultivariateAccumulator -/

/-- The three ways add can go: wrong size (accumulator untouched), negative weight (raised
after the size has been adopted), or accepted. -/
theorem MultivariateAccumulator.add_cases (value : List α) (weight : α)
    (s : MultivariateAccumulator α) :
    (s.size_ ≠ 0 ∧ value.length ≠ s.size_ ∧
      MultivariateAccumulator.add value weight s = ⟨.error .wrongSize, s⟩) ∨
    (¬ (s.size_ ≠ 0 ∧ value.length ≠ s.size_) ∧ weight < 0 ∧
      MultivariateAccumulator.add value weight s = ⟨.error .negativeWeight,
        if s.size_ = 0 then MultivariateAccumulator.reset { s with size_ := value.length }
        else s⟩) ∨
    (¬ (s.size_ ≠ 0 ∧ value.length ≠ s.size_) ∧ 0 ≤ weight ∧
      MultivariateAccumulator.add value weight s = ⟨.ok (),
        { (if s.size_ = 0 then MultivariateAccumulator.reset { s with size_ := value.length }
            else s) with
          sampleNumber_ := (if s.size_ = 0 then 0 else s.sampleNumber_) + 1
          sampleWeight_ := (if s.size_ = 0 then 0 else s.sampleWeight_) + weight
          sum_ := arrayAdd
            (if s.size_ = 0 then List.replicate value.length 0 else s.sum_)
            (arrayScale weight value)
          quadraticSum_ := matrixAdd
            (if s.size_ = 0 then List.replicate value.length (List.replicate value.length 0)
              else s.quadraticSum_)
            (outerProduct (arrayScale weight value) value) }⟩) := by
  by_cases h0 : s.size_ = 0
  · by_cases hw : 0 ≤ weight
    · right; right
      refine ⟨by simp [h0], hw, ?_⟩
      simp [MultivariateAccumulator.add, h0, hw, MultivariateAccumulator.reset]
    · right; left
      refine ⟨by simp [h0], lt_of_not_le hw, ?_⟩
      simp [MultivariateAccumulator.add, h0, hw]
  · by_cases hl : value.length = s.size_
    · by_cases hw : 0 ≤ weight
      · right; right
        refine ⟨by simp [hl], hw, ?_⟩
        simp [MultivariateAccumulator.add, h0, hl, hw]
      · right; left
        refine ⟨by simp [hl], lt_of_not_le hw, ?_⟩
        simp [MultivariateAccumulator.add, h0, hl, hw]
    · left
      refine ⟨h0, hl, ?_⟩
      simp [MultivariateAccumulator.add, h0, hl]

/-- C14: add rejects a sample exactly when its weight is negative or its size differs from an
already fixed non-zero size; a sample of weight zero that passes the size check is accepted
and counts as one sample. -/
theorem MultivariateAccumulator.add_rejects_iff (value : List α) (weight : α)
    (s : MultivariateAccumulator α) :
    ((∃ e, (MultivariateAccumulator.add value weight s).result = .error e) ↔
      (weight < 0 ∨ (s.size_ ≠ 0 ∧ value.length ≠ s.size_))) ∧
    (weight = 0 → ¬ (s.size_ ≠ 0 ∧ value.length ≠ s.size_) →
      (MultivariateAccumulator.add value weight s).result = .ok () ∧
      (MultivariateAccumulator.add value weight s).object.sampleNumber_ =
        (if s.size_ = 0 then 0 else s.sampleNumber_) + 1) := by
  rcases MultivariateAccumulator.add_cases value weight s with
    ⟨h0, hl, h⟩ | ⟨hs, hw, h⟩ | ⟨hs, hw, h⟩
  · refine ⟨⟨fun _ => Or.inr ⟨h0, hl⟩, fun _ => ⟨_, by rw [h]⟩⟩, fun _ hs => ?_⟩
    exact absurd ⟨h0, hl⟩ hs
  · refine ⟨⟨fun _ => Or.inl hw, fun _ => ⟨_, by rw [h]⟩⟩, fun hz _ => ?_⟩
    rw [hz] at hw
    exact absurd hw (lt_irrefl _)
  · refine ⟨⟨fun ⟨e, he⟩ => ?_, fun hor => ?_⟩, fun _ _ => ?_⟩
    · rw [h] at he
      exact absurd he (by simp)
    · rcases hor with hneg | hsz
      · exact absurd hw (not_le_of_lt hneg)
      · exact absurd hsz hs
    · rw [h]
      exact ⟨rfl, rfl⟩

/-- Concrete run of C14: on an accumulator of size 2 a sample of weight 0 is accepted and
counted, a sample of weight -1 and a sample of size 3 are rejected. -/
theorem MultivariateAccumulator.add_rejects_iff_witness :
    (MultivariateAccumulator.add [1, 2] 0 (MultivariateAccumulator.create 2 :
      MultivariateAccumulator ℚ)).result = .ok () ∧
    (MultivariateAccumulator.add [1, 2] 0 (MultivariateAccumulator.create 2 :
      MultivariateAccumulator ℚ)).object.sampleNumber_ = 1 ∧
    (∃ e, (MultivariateAccumulator.add [1, 2] (-1) (MultivariateAccumulator.create 2 :
      MultivariateAccumulator ℚ)).result = .error e) ∧
    (∃ e, (MultivariateAccumulator.add [1, 2, 3] 1 (MultivariateAccumulator.create 2 :
      MultivariateAccumulator ℚ)).result = .error e) := by
  have h0 := (MultivariateAccumulator.add_rejects_iff ([1, 2] : List ℚ) 0
    (MultivariateAccumulator.create 2)).2 rfl
    (by simp [MultivariateAccumulator.create, MultivariateAccumulator.reset])
  have h1 := (MultivariateAccumulator.add_rejects_iff ([1, 2] : List ℚ) (-1)
    (MultivariateAccumulator.create 2)).1.2 (Or.inl (by norm_num))
  have h2 := (MultivariateAccumulator.add_rejects_iff ([1, 2, 3] : List ℚ) 1
    (MultivariateAccumulator.create 2)).1.2
    (Or.inr (by simp [MultivariateAccumulator.create, MultivariateAccumulator.reset]))
  refine ⟨h0.1, ?_, h1, h2⟩
  rw [h0.2]
  simp [MultivariateAccumulator.create, MultivariateAccumulator.reset]

/-- Entry of a scaled array. -/
theorem getD_arrayScale (c : α) (a : List α) (j : Nat) :
    (arrayScale c a).getD j 0 = c * a.getD j 0 := by
  induction a generalizing j with
  | nil => simp [arrayScale]
  | cons x xs ih =>
    cases j with
    | zero => simp [arrayScale]
    | succ j => simpa [arrayScale] using ih j

/-- Entry of the sum of two arrays of one size. -/
theorem getD_arrayAdd (a b : List α) (hl : a.length = b.length) (j : Nat) :
    (arrayAdd a b).getD j 0 = a.getD j 0 + b.getD j 0 := by
  induction a generalizing b j with
  | nil =>
    cases b with
    | nil => simp [arrayAdd]
    | cons y ys => simp at hl
  | cons x xs ih =>
    cases b with
    | nil => simp at hl
    | cons y ys =>
      cases j with
      | zero => simp [arrayAdd]
      | succ j =>
        have := ih ys (by simpa using hl) j
        simpa [arrayAdd] using this

/-- Entry of an outer product. -/
theorem matrixEntry_outerProduct (u v : List α) (j k : Nat) :
    matrixEntry (outerProduct u v) j k = u.getD j 0 * v.getD k 0 := by
  induction u generalizing j with
  | nil => simp [matrixEntry, outerProduct]
  | cons x xs ih =>
    cases j with
    | zero =>
      have := getD_arrayScale x v k
      simpa [matrixEntry, outerProduct, arrayScale] using this
    | succ j => simpa [matrixEntry, outerProduct] using ih j

/-- Entry of the sum of two matrices of one shape. -/
theorem matrixEntry_matrixAdd (a b : List (List α)) (hl : a.length = b.length)
    (hrow : ∀ j, (a.getD j []).length = (b.getD j []).length) (j k : Nat) :
    matrixEntry (matrixAdd a b) j k = matrixEntry a j k + matrixEntry b j k := by
  induction a generalizing b j with
  | nil =>
    cases b with
    | nil => simp [matrixEntry, matrixAdd]
    | cons y ys => simp at hl
  | cons x xs ih =>
    cases b with
    | nil => simp at hl
    | cons y ys =>
      cases j with
      | zero =>
        have h0 := hrow 0
        simp only [List.getD_cons_zero] at h0
        have := getD_arrayAdd x y h0 k
        simpa [matrixEntry, matrixAdd] using this
      | succ j =>
        have := ih ys (by simpa using hl) (fun i => by simpa using hrow (i + 1)) j
        simpa [matrixEntry, matrixAdd] using this

/-- Length of row j of a matrix with m rows of length n. -/
theorem length_getD_of_rows {β : Type} (a : List (List β)) (m n : Nat) (hl : a.length = m)
    (hrow : ∀ row ∈ a, row.length = n) (j : Nat) :
    (a.getD j []).length = if j < m then n else 0 := by
  by_cases hj : j < m
  · rw [if_pos hj, List.getD_eq_getElem a [] (by omega)]
    exact hrow _ (List.getElem_mem _)
  · rw [if_neg hj, List.getD_eq_default a [] (by omega)]
    rfl

/-- A reset accumulator is well sized. -/
theorem MultivariateAccumulator.wellSized_reset (s : MultivariateAccumulator α) :
    (MultivariateAccumulator.reset s).WellSized := by
  refine ⟨by simp [MultivariateAccumulator.reset], by simp [MultivariateAccumulator.reset],
    fun row hrow => ?_⟩
  simp only [MultivariateAccumulator.reset] at hrow
  rw [List.eq_of_mem_replicate hrow]
  simp [MultivariateAccumulator.reset]

/-- Entries of the sums of a reset accumulator are zero. -/
theorem MultivariateAccumulator.entries_reset (s : MultivariateAccumulator α) (j k : Nat) :
    (MultivariateAccumulator.reset s).sum_.getD j 0 = 0 ∧
    matrixEntry (MultivariateAccumulator.reset s).quadraticSum_ j k = 0 := by
  constructor
  · simp only [MultivariateAccumulator.reset, List.getD_eq_getElem?_getD,
      List.getElem?_replicate]
    split_ifs <;> simp
  · simp only [MultivariateAccumulator.reset, matrixEntry, List.getD_eq_getElem?_getD,
      List.getElem?_replicate]
    split_ifs <;> simp [List.getElem?_replicate]
    split_ifs <;> simp

/-- What an accepted add does to a well-sized accumulator whose counters are zero while its
size is not fixed. -/
theorem MultivariateAccumulator.add_accumulates (value : List α) (weight : α)
    (s : MultivariateAccumulator α) (hs : s.WellSized)
    (hz : s.size_ = 0 → s.sampleNumber_ = 0 ∧ s.sampleWeight_ = 0)
    (hok : (MultivariateAccumulator.add value weight s).result = .ok ()) :
    (MultivariateAccumulator.add value weight s).object.size_ = value.length ∧
    (MultivariateAccumulator.add value weight s).object.WellSized ∧
    0 ≤ weight ∧
    (MultivariateAccumulator.add value weight s).object.sampleNumber_
      = s.sampleNumber_ + 1 ∧
    (MultivariateAccumulator.add value weight s).object.sampleWeight_
      = s.sampleWeight_ + weight ∧
    (∀ j, (MultivariateAccumulator.add value weight s).object.sum_.getD j 0
      = s.sum_.getD j 0 + weight * value.getD j 0) ∧
    (∀ j k, matrixEntry (MultivariateAccumulator.add value weight s).object.quadraticSum_ j k
      = matrixEntry s.quadraticSum_ j k + weight * value.getD j 0 * value.getD k 0) := by
  obtain ⟨hsum, hq, hrows⟩ := hs
  rcases MultivariateAccumulator.add_cases value weight s with
    ⟨_, _, h⟩ | ⟨_, _, h⟩ | ⟨hsz, hw, h⟩
  · rw [h] at hok; exact absurd hok (by simp)
  · rw [h] at hok; exact absurd hok (by simp)
  rw [h]
  by_cases h0 : s.size_ = 0
  · obtain ⟨hn, hwt⟩ := hz h0
    have hsum0 : s.sum_ = [] := List.length_eq_zero.1 (by rw [hsum, h0])
    have hq0 : s.quadraticSum_ = [] := List.length_eq_zero.1 (by rw [hq, h0])
    have hres := MultivariateAccumulator.entries_reset
      ({ s with size_ := value.length } : MultivariateAccumulator α)
    simp only [MultivariateAccumulator.reset] at hres
    simp only [h0, if_true, MultivariateAccumulator.reset]
    refine ⟨trivial, ⟨?_, ?_, ?_⟩, hw, by rw [hn], by rw [hwt], fun j => ?_, fun j k => ?_⟩
    · simp [arrayAdd, arrayScale]
    · simp [matrixAdd, outerProduct, arrayScale]
    · intro row hrow
      simp only [matrixAdd, outerProduct, arrayScale, List.zipWith_map_right,
        List.mem_iff_getElem] at hrow
      obtain ⟨i, hi, rfl⟩ := hrow
      simp [arrayAdd]
    · rw [getD_arrayAdd _ _ (by simp [arrayScale]), getD_arrayScale, (hres j 0).1, hsum0]
      simp
    · rw [matrixEntry_matrixAdd _ _ (by simp [outerProduct, arrayScale]) (fun i => ?_),
        matrixEntry_outerProduct, getD_arrayScale, (hres j k).2, hq0]
      · simp [matrixEntry]
      · rw [length_getD_of_rows _ value.length value.length (by simp)
            (fun row hrow => by rw [List.eq_of_mem_replicate hrow]; simp),
          length_getD_of_rows _ value.length value.length (by simp [outerProduct, arrayScale])
            (fun row hrow => by
              simp only [outerProduct, List.mem_map] at hrow
              obtain ⟨a, -, rfl⟩ := hrow
              simp)]
  · have hl : value.length = s.size_ := by
      by_contra hne
      exact hsz ⟨h0, hne⟩
    simp only [h0, if_false]
    refine ⟨hl.symm, ⟨?_, ?_, ?_⟩, hw, trivial, trivial, fun j => ?_, fun j k => ?_⟩
    · simp [arrayAdd, arrayScale, hsum, hl]
    · simp [matrixAdd, outerProduct, arrayScale, hq, hl]
    · intro row hrow
      simp only [matrixAdd, List.mem_iff_getElem, List.getElem_zipWith] at hrow
      obtain ⟨i, hi, rfl⟩ := hrow
      simp only [List.length_zipWith] at hi
      have h1 := hrows _ (List.getElem_mem (Nat.lt_of_lt_of_le hi (Nat.min_le_left _ _)))
      simp [arrayAdd, outerProduct, h1, hl]
    · rw [getD_arrayAdd _ _ (by simp [arrayScale, hsum, hl]), getD_arrayScale]
    · rw [matrixEntry_matrixAdd _ _ (by simp [outerProduct, arrayScale, hq, hl]) (fun i => ?_),
        matrixEntry_outerProduct, getD_arrayScale]
      rw [length_getD_of_rows _ s.size_ s.size_ hq hrows,
        length_getD_of_rows _ s.size_ value.length
          (by simp [outerProduct, arrayScale, hl])
          (fun row hrow => by
            simp only [outerProduct, List.mem_map] at hrow
            obtain ⟨a, -, rfl⟩ := hrow
            simp), hl]

/-- A sequence of accepted add calls with non-empty samples adds, to every counter and every
entry of the sums, the contribution of each sample. -/
theorem MultivariateAccumulator.addEach_accumulates (samples : List (List α × α))
    (s0 s : MultivariateAccumulator α) (hs : s0.WellSized)
    (hz : s0.size_ = 0 → s0.sampleNumber_ = 0 ∧ s0.sampleWeight_ = 0)
    (hne : ∀ p ∈ samples, p.1 ≠ [])
    (hadd : MultivariateAccumulator.addEach samples s0 = .ok s) :
    s.WellSized ∧
    s.sampleNumber_ = s0.sampleNumber_ + (samples.length : α) ∧
    s.sampleWeight_ = s0.sampleWeight_ + (samples.map fun p => p.2).sum ∧
    (∀ p ∈ samples, 0 ≤ p.2) ∧
    (∀ j, s.sum_.getD j 0
      = s0.sum_.getD j 0 + (samples.map fun p => p.2 * p.1.getD j 0).sum) ∧
    (∀ j k, matrixEntry s.quadraticSum_ j k
      = matrixEntry s0.quadraticSum_ j k
        + (samples.map fun p => p.2 * p.1.getD j 0 * p.1.getD k 0).sum) := by
  induction samples generalizing s0 with
  | nil =>
    simp only [MultivariateAccumulator.addEach, Except.ok.injEq] at hadd
    subst hadd
    simp [hs]
  | cons p rest ih =>
    obtain ⟨value, weight⟩ := p
    simp only [MultivariateAccumulator.addEach] at hadd
    cases hres : (MultivariateAccumulator.add value weight s0).result with
    | error e => rw [hres] at hadd; exact absurd hadd (by simp)
    | ok u =>
      rw [hres] at hadd
      simp only at hadd
      obtain ⟨hsize, hws, hw, hn, hwt, hsum, hq⟩ :=
        MultivariateAccumulator.add_accumulates value weight s0 hs hz hres
      have hvne : value ≠ [] := hne (value, weight) (List.mem_cons_self _ _)
      have hsz : (MultivariateAccumulator.add value weight s0).object.size_ ≠ 0 := by
        rw [hsize]
        exact fun h => hvne (List.length_eq_zero.1 h)
      obtain ⟨h1, h2, h3, h4, h5, h6⟩ := ih _ hws (fun h => absurd h hsz)
        (fun q hq => hne q (List.mem_cons_of_mem _ hq)) hadd
      refine ⟨h1, ?_, ?_, ?_, fun j => ?_, fun j k => ?_⟩
      · rw [h2, hn]; simp only [List.length_cons]; push_cast; ring
      · rw [h3, hwt]; simp only [List.map_cons, List.sum_cons]; ring
      · intro q hq
        rcases List.mem_cons.1 hq with rfl | hq
        · exact hw
        · exact h4 q hq
      · rw [h5 j, hsum j]; simp only [List.map_cons, List.sum_cons]; ring
      · rw [h6 j k, hq j k]; simp only [List.map_cons, List.sum_cons]; ring

/-- C17, as amended: after construction or reset followed by any sequence of successful add
calls with non-empty samples x_1..x_n and weights w_1..w_n, the accumulator holds
sampleNumber_ = n, sampleWeight_ = sum of w_i (hence non-negative), sum_ = sum of w_i x_i and
quadraticSum_ = sum of w_i x_i x_i^T, entry by entry. -/
theorem MultivariateAccumulator.accumulation_invariant (samples : List (List α × α))
    (s0 s : MultivariateAccumulator α) (hne : ∀ p ∈ samples, p.1 ≠ [])
    (hadd : MultivariateAccumulator.addEach samples (MultivariateAccumulator.reset s0)
      = .ok s) :
    s.sampleNumber_ = (samples.length : α) ∧
    s.sampleWeight_ = (samples.map fun p => p.2).sum ∧
    0 ≤ s.sampleWeight_ ∧
    (∀ j, s.sum_.getD j 0 = (samples.map fun p => p.2 * p.1.getD j 0).sum) ∧
    (∀ j k, matrixEntry s.quadraticSum_ j k
      = (samples.map fun p => p.2 * p.1.getD j 0 * p.1.getD k 0).sum) := by
  obtain ⟨-, h2, h3, h4, h5, h6⟩ := MultivariateAccumulator.addEach_accumulates samples _ s
    (MultivariateAccumulator.wellSized_reset s0) (fun _ => ⟨rfl, rfl⟩) hne hadd
  have hn0 : (MultivariateAccumulator.reset s0).sampleNumber_ = 0 := rfl
  have hw0 : (MultivariateAccumulator.reset s0).sampleWeight_ = 0 := rfl
  rw [hn0, zero_add] at h2
  rw [hw0, zero_add] at h3
  refine ⟨h2, h3, ?_, fun j => ?_, fun j k => ?_⟩
  · rw [h3]
    apply List.sum_nonneg
    intro w hw
    obtain ⟨p, hp, rfl⟩ := List.mem_map.1 hw
    exact h4 p hp
  · rw [h5 j, (MultivariateAccumulator.entries_reset s0 j 0).1, zero_add]
  · rw [h6 j k, (MultivariateAccumulator.entries_reset s0 j k).2, zero_add]

/-- The accumulator after the samples of the statistics test. -/
theorem testSamples_accumulated :
    MultivariateAccumulator.addEach testSamples (MultivariateAccumulator.create 0) =
      .ok ⟨5, 10, 10, [43, 43, 43, 43, 43], List.replicate 5 [205, 205, 205, 205, 205]⟩ := by
  norm_num [testSamples, testData, MultivariateAccumulator.addEach,
    MultivariateAccumulator.add, MultivariateAccumulator.reset,
    MultivariateAccumulator.create, arrayAdd, arrayScale, matrixAdd, outerProduct,
    List.replicate]

/-- Witness of C17 as amended: for the test data (10 samples, unit weights) the sample count
is 10 and the weight sum is 10. -/
theorem MultivariateAccumulator.accumulation_invariant_witness :
    ∃ s : MultivariateAccumulator ℚ,
      MultivariateAccumulator.addEach testSamples (MultivariateAccumulator.create 0) = .ok s ∧
      s.sampleNumber_ = 10 ∧ s.sampleWeight_ = 10 := by
  refine ⟨_, testSamples_accumulated, ?_⟩
  obtain ⟨h1, h2, -⟩ := MultivariateAccumulator.accumulation_invariant testSamples
    ⟨0, 0, 0, [], []⟩ _ (by simp [testSamples, testData, List.replicate])
    testSamples_accumulated
  refine ⟨?_, ?_⟩
  · rw [h1]; norm_num [testSamples, testData]
  · rw [h2]; norm_num [testSamples, testData]

/-- Counterexample to C17: two empty samples of weight 1 are both accepted by a fresh
accumulator of size 0, which then holds sampleNumber_ = 1 and sampleWeight_ = 1, not 2: every
add with size_ == 0 calls reset() first. -/
theorem MultivariateAccumulator.empty_samples_not_counted :
    MultivariateAccumulator.addEach [(([] : List ℚ), (1 : ℚ)), ([], 1)]
        (MultivariateAccumulator.create 0) = .ok ⟨0, 1, 1, [], []⟩ ∧
    (⟨0, 1, 1, [], []⟩ : MultivariateAccumulator ℚ).sampleNumber_ ≠
      (([(([] : List ℚ), (1 : ℚ)), ([], 1)] : List (List ℚ × ℚ)).length : ℚ) := by
  constructor
  · norm_num [MultivariateAccumulator.addEach, MultivariateAccumulator.add,
      MultivariateAccumulator.reset, MultivariateAccumulator.create, arrayAdd, arrayScale,
      matrixAdd, outerProduct]
  · norm_num

/-- Entry of a scaled matrix. -/
theorem matrixEntry_matrixScale (c : α) (a : List (List α)) (j k : Nat) :
    matrixEntry (matrixScale c a) j k = c * matrixEntry a j k := by
  induction a generalizing j with
  | nil => simp [matrixEntry, matrixScale]
  | cons x xs ih =>
    cases j with
    | zero =>
      have := getD_arrayScale c x k
      simpa [matrixEntry, matrixScale] using this
    | succ j => simpa [matrixEntry, matrixScale] using ih j

/-- Entry of the difference of two arrays of one size. -/
theorem getD_zipWith_sub (a b : List α) (hl : a.length = b.length) (j : Nat) :
    (List.zipWith (· - ·) a b).getD j 0 = a.getD j 0 - b.getD j 0 := by
  induction a generalizing b j with
  | nil =>
    cases b with
    | nil => simp
    | cons y ys => simp at hl
  | cons x xs ih =>
    cases b with
    | nil => simp at hl
    | cons y ys =>
      cases j with
      | zero => simp
      | succ j =>
        have := ih ys (by simpa using hl) j
        simpa using this

/-- Entry of the difference of two matrices of one shape. -/
theorem matrixEntry_matrixSub (a b : List (List α)) (hl : a.length = b.length)
    (hrow : ∀ j, (a.getD j []).length = (b.getD j []).length) (j k : Nat) :
    matrixEntry (matrixSub a b) j k = matrixEntry a j k - matrixEntry b j k := by
  induction a generalizing b j with
  | nil =>
    cases b with
    | nil => simp [matrixEntry, matrixSub]
    | cons y ys => simp at hl
  | cons x xs ih =>
    cases b with
    | nil => simp at hl
    | cons y ys =>
      cases j with
      | zero =>
        have h0 := hrow 0
        simp only [List.getD_cons_zero] at h0
        have := getD_zipWith_sub x y h0 k
        simpa [matrixEntry, matrixSub] using this
      | succ j =>
        have := ih ys (by simpa using hl) (fun i => by simpa using hrow (i + 1)) j
        simpa [matrixEntry, matrixSub] using this

/-- Sum of products of deviations from two constants. -/
theorem sum_deviation_products {β : Type} (xs : List β) (f g : β → α) (a b : α) :
    (xs.map fun x => (f x - a) * (g x - b)).sum =
      (xs.map fun x => f x * g x).sum - b * (xs.map f).sum - a * (xs.map g).sum
        + (xs.length : α) * a * b := by
  induction xs with
  | nil => simp
  | cons x xs ih =>
    simp only [List.map_cons, List.sum_cons, List.length_cons, ih]
    push_cast
    ring

/-- C16, as amended: in exact arithmetic (α an ordered field), for n >= 2 samples of one
dimension d > 0 added with unit weights, covariance() returns a matrix whose entry (j, k) is
the unbiased sample covariance
sum_i (x_i[j] - m[j]) (x_i[k] - m[k]) / (n - 1), m being the sample mean; for j = k this is
the unbiased sample variance of component j. -/
theorem MultivariateAccumulator.covariance_is_unbiased_sample_covariance
    (xs : List (List α)) (d : Nat) (s0 s : MultivariateAccumulator α) (hd0 : 0 < d)
    (hd : ∀ x ∈ xs, x.length = d) (hn : 2 ≤ xs.length)
    (hadd : MultivariateAccumulator.addEach (xs.map fun x => (x, (1 : α)))
      (MultivariateAccumulator.reset s0) = .ok s) :
    ∃ M, s.covariance = .ok M ∧ ∀ j k,
      matrixEntry M j k =
        (xs.map fun x =>
          (x.getD j 0 - (xs.map fun y => y.getD j 0).sum / (xs.length : α)) *
          (x.getD k 0 - (xs.map fun y => y.getD k 0).sum / (xs.length : α))).sum
          / ((xs.length : α) - 1) := by
  have hne : ∀ p ∈ xs.map fun x => (x, (1 : α)), p.1 ≠ [] := by
    intro p hp
    obtain ⟨x, hx, rfl⟩ := List.mem_map.1 hp
    intro h
    have := hd x hx
    simp only at h
    rw [h] at this
    simp at this
    omega
  obtain ⟨hws, hnum, hwt, -, hsum, hq⟩ :=
    MultivariateAccumulator.addEach_accumulates _ _ s
      (MultivariateAccumulator.wellSized_reset s0) (fun _ => ⟨rfl, rfl⟩) hne hadd
  have hn0 : (MultivariateAccumulator.reset s0).sampleNumber_ = 0 := rfl
  have hw0 : (MultivariateAccumulator.reset s0).sampleWeight_ = 0 := rfl
  have hlen : (2 : α) ≤ (xs.length : α) := by exact_mod_cast hn
  rw [hn0, zero_add, List.length_map] at hnum
  rw [hw0, zero_add] at hwt
  have hwt2 : s.sampleWeight_ = (xs.length : α) := by
    rw [hwt]
    simp [List.map_map, Function.comp_def]
  have hS : ∀ i, s.sum_.getD i 0 = (xs.map fun y => y.getD i 0).sum := by
    intro i
    rw [hsum i, (MultivariateAccumulator.entries_reset s0 i 0).1, zero_add]
    simp [List.map_map, Function.comp_def]
  have hQ : ∀ j k, matrixEntry s.quadraticSum_ j k
      = (xs.map fun y => y.getD j 0 * y.getD k 0).sum := by
    intro j k
    rw [hq j k, (MultivariateAccumulator.entries_reset s0 j k).2, zero_add]
    simp [List.map_map, Function.comp_def]
  obtain ⟨hsl, hql, hrows⟩ := hws
  refine ⟨_, by
    unfold MultivariateAccumulator.covariance
    rw [if_pos (by rw [hwt2]; linarith), if_pos (by rw [hnum]; linarith)], fun j k => ?_⟩
  rw [matrixEntry_matrixScale, matrixEntry_matrixSub _ _
    (by simp [matrixScale, outerProduct, hsl, hql]) (fun i => ?_), matrixEntry_matrixScale,
    matrixEntry_outerProduct, hS j, hS k, hQ, hnum, hwt2, sum_deviation_products]
  · have h1 : (xs.length : α) ≠ 0 := by linarith
    have h2 : (xs.length : α) - 1 ≠ 0 := by linarith
    field_simp
    ring
  · rw [length_getD_of_rows _ s.size_ s.size_ hql hrows,
      length_getD_of_rows _ s.size_ s.size_ (by simp [matrixScale, outerProduct, hsl])
        (fun row hrow => by
          simp only [matrixScale, outerProduct, List.map_map, List.mem_map,
            Function.comp_def] at hrow
          obtain ⟨a, -, rfl⟩ := hrow
          simp [arrayScale, hsl])]

/-- Witness of C16 as amended: in exact arithmetic, for the test data 3, 4, 5, 2, 3, 4, 5, 6,
4, 7 repeated in each of 5 components, every entry of the covariance matrix is 67/30. -/
theorem MultivariateAccumulator.covariance_is_unbiased_sample_covariance_witness :
    ∃ s : MultivariateAccumulator ℚ,
      MultivariateAccumulator.addEach testSamples (MultivariateAccumulator.create 0) = .ok s ∧
      s.covariance = .ok (List.replicate 5 (List.replicate 5 (67 / 30))) ∧
      ∃ M, s.covariance = .ok M ∧ matrixEntry M 1 3 = 67 / 30 := by
  refine ⟨_, testSamples_accumulated, ?_, ?_⟩
  · norm_num [MultivariateAccumulator.covariance, matrixScale, matrixSub, outerProduct,
      arrayScale, List.replicate]
  · obtain ⟨M, hM, hentry⟩ :=
      MultivariateAccumulator.covariance_is_unbiased_sample_covariance
        (testData.map fun x => List.replicate 5 x) 5 ⟨0, 0, 0, [], []⟩ _ (by norm_num)
        (by simp [testData]) (by simp [testData])
        (by
          have := testSamples_accumulated
          simpa [testSamples, List.map_map, Function.comp_def] using this)
    refine ⟨M, hM, ?_⟩
    rw [hentry 1 3]
    norm_num [testData, List.replicate]

/-- Adding an array to the zero array of its size gives the array. -/
theorem arrayAdd_zeros (a : List α) : arrayAdd (List.replicate a.length 0) a = a := by
  induction a with
  | nil => rfl
  | cons x xs ih =>
    simp only [arrayAdd] at ih
    simp [arrayAdd, List.replicate_succ, ih]

/-- Adding a matrix to the zero matrix of its shape gives the matrix. -/
theorem matrixAdd_zeros (a : List (List α)) (m : Nat) (hrow : ∀ row ∈ a, row.length = m) :
    matrixAdd (List.replicate a.length (List.replicate m 0)) a = a := by
  induction a with
  | nil => rfl
  | cons x xs ih =>
    have hx : x.length = m := hrow x (List.mem_cons_self _ _)
    have ih2 := ih fun row h => hrow row (List.mem_cons_of_mem _ h)
    simp only [matrixAdd] at ih2
    have h0 := arrayAdd_zeros x
    rw [hx] at h0
    simp [matrixAdd, List.replicate_succ, ih2, h0]

/-- C15, as amended: an accumulator of size 0 adopts the size of the sample it is given,
resetting the sums to that dimension, and accumulates the sample if its weight is not
negative; if the adopted size is not zero, then from then on (for every accumulator of that
size) add keeps the size, rejects every sample of a different size with the "wrong size for
input array" error and accepts every sample of the same size whose weight is not negative. -/
theorem MultivariateAccumulator.add_adopts_size (value : List α) (weight : α)
    (s : MultivariateAccumulator α) (hs : s.size_ = 0) (hv : value ≠ []) :
    (MultivariateAccumulator.add value weight s).object.size_ = value.length ∧
    (0 ≤ weight →
      MultivariateAccumulator.add value weight s =
        ⟨.ok (), ⟨value.length, 1, weight, arrayScale weight value,
          outerProduct (arrayScale weight value) value⟩⟩) ∧
    ∀ (t : MultivariateAccumulator α), t.size_ = value.length → ∀ (v : List α) (w : α),
      (MultivariateAccumulator.add v w t).object.size_ = value.length ∧
      (v.length ≠ value.length →
        MultivariateAccumulator.add v w t = ⟨.error .wrongSize, t⟩) ∧
      (v.length = value.length → 0 ≤ w →
        (MultivariateAccumulator.add v w t).result = .ok ()) := by
  have hlen : value.length ≠ 0 := fun h => hv (List.length_eq_zero.1 h)
  refine ⟨?_, fun hw => ?_, fun t ht v w => ?_⟩
  · rcases MultivariateAccumulator.add_cases value weight s with
      ⟨h0, -, -⟩ | ⟨-, -, h⟩ | ⟨-, -, h⟩
    · exact absurd hs h0
    · rw [h, if_pos hs]; rfl
    · rw [h, if_pos hs]; rfl
  · rcases MultivariateAccumulator.add_cases value weight s with
      ⟨h0, -, -⟩ | ⟨-, hneg, -⟩ | ⟨-, -, h⟩
    · exact absurd hs h0
    · exact absurd hw (not_le_of_lt hneg)
    · rw [h]
      simp only [hs, if_true, MultivariateAccumulator.reset, zero_add]
      have h1 := arrayAdd_zeros (arrayScale weight value)
      have h2 := matrixAdd_zeros (outerProduct (arrayScale weight value) value) value.length
        (fun row hrow => by
          simp only [outerProduct, List.mem_map] at hrow
          obtain ⟨a, -, rfl⟩ := hrow
          simp)
      simp only [arrayScale, List.length_map, outerProduct] at h1 h2
      simp only [arrayScale, outerProduct, h1, h2]
  · have ht0 : t.size_ ≠ 0 := by rw [ht]; exact hlen
    rcases MultivariateAccumulator.add_cases v w t with
      ⟨-, hl, h⟩ | ⟨hsz, hneg, h⟩ | ⟨hsz, hw, h⟩
    · rw [h]
      exact ⟨ht, fun _ => rfl, fun hl2 _ => absurd (hl2.trans ht.symm) hl⟩
    · have hl : v.length = t.size_ := by
        by_contra hne
        exact hsz ⟨ht0, hne⟩
      rw [h, if_neg ht0]
      exact ⟨ht, fun hne => absurd (hl.trans ht) hne, fun _ hw => absurd hw (not_le_of_lt hneg)⟩
    · have hl : v.length = t.size_ := by
        by_contra hne
        exact hsz ⟨ht0, hne⟩
      rw [h, if_neg ht0]
      exact ⟨ht, fun hne => absurd (hl.trans ht) hne, fun _ _ => rfl⟩

/-- Witness of C15 as amended: a fresh accumulator adopts size 2 from the sample (1, 2), then
rejects a sample of size 3 and accepts another sample of size 2. -/
theorem MultivariateAccumulator.add_adopts_size_witness :
    MultivariateAccumulator.add [1, 2] 1 (MultivariateAccumulator.create 0 :
        MultivariateAccumulator ℚ) =
      ⟨.ok (), ⟨2, 1, 1, [1, 2], [[1, 2], [2, 4]]⟩⟩ ∧
    MultivariateAccumulator.add [1, 2, 3] 1 (⟨2, 1, 1, [1, 2], [[1, 2], [2, 4]]⟩ :
        MultivariateAccumulator ℚ) =
      ⟨.error .wrongSize, ⟨2, 1, 1, [1, 2], [[1, 2], [2, 4]]⟩⟩ ∧
    (MultivariateAccumulator.add [3, 4] 1 (⟨2, 1, 1, [1, 2], [[1, 2], [2, 4]]⟩ :
        MultivariateAccumulator ℚ)).result = .ok () := by
  obtain ⟨-, h1, h2⟩ := MultivariateAccumulator.add_adopts_size ([1, 2] : List ℚ) 1
    (MultivariateAccumulator.create 0) rfl (by simp)
  have h3 := h1 (by norm_num)
  norm_num [arrayScale, outerProduct] at h3
  refine ⟨h3, ?_, ?_⟩
  · exact (h2 ⟨2, 1, 1, [1, 2], [[1, 2], [2, 4]]⟩ rfl [1, 2, 3] 1).2.1 (by simp)
  · exact (h2 ⟨2, 1, 1, [1, 2], [[1, 2], [2, 4]]⟩ rfl [3, 4] 1).2.2 rfl (by norm_num)

/-- Counterexample to C15: a fresh accumulator given an empty sample keeps size 0 and then
accepts a sample of size 3 (forgetting the first sample); given the sample (1, 2) with weight
-1 it adopts size 2 but raises without accumulating; and once the size is 2, the sample (3, 4)
of that size with weight -1 is rejected. -/
theorem MultivariateAccumulator.add_after_adoption_not_by_size_alone :
    MultivariateAccumulator.add [] 1 (MultivariateAccumulator.create 0 :
        MultivariateAccumulator ℚ) = ⟨.ok (), ⟨0, 1, 1, [], []⟩⟩ ∧
    MultivariateAccumulator.add [1, 2, 3] 1 (⟨0, 1, 1, [], []⟩ : MultivariateAccumulator ℚ) =
      ⟨.ok (), ⟨3, 1, 1, [1, 2, 3], [[1, 2, 3], [2, 4, 6], [3, 6, 9]]⟩⟩ ∧
    MultivariateAccumulator.add [1, 2] (-1) (MultivariateAccumulator.create 0 :
        MultivariateAccumulator ℚ) =
      ⟨.error .negativeWeight, ⟨2, 0, 0, [0, 0], [[0, 0], [0, 0]]⟩⟩ ∧
    MultivariateAccumulator.add [3, 4] (-1) (⟨2, 1, 1, [1, 2], [[1, 2], [2, 4]]⟩ :
        MultivariateAccumulator ℚ) =
      ⟨.error .negativeWeight, ⟨2, 1, 1, [1, 2], [[1, 2], [2, 4]]⟩⟩ := by
  refine ⟨?_, ?_, ?_, ?_⟩ <;>
  norm_num [MultivariateAccumulator.add, MultivariateAccumulator.reset,
    MultivariateAccumulator.create, arrayAdd, arrayScale, matrixAdd, outerProduct,
    List.replicate]

end Math

namespace FiniteDifferences

variable {α : Type} [LinearOrderedField α]

/-- C11: applying the early-exercise condition twice in immediate succession yields the same
array as applying it once. -/
theorem BSMAmericanCondition.applyTo_idempotent (c : BSMAmericanCondition α) (x : List α) :
    c.applyTo (c.applyTo x) = c.applyTo x := by
  unfold BSMAmericanCondition.applyTo
  generalize c.initialPrices = ps
  induction x generalizing ps with
  | nil => rfl
  | cons a xs ih =>
    cases ps with
    | nil => rfl
    | cons p ps =>
      simp only [BSMAmericanCondition.applyEntries, ih ps, max_eq_left (le_max_right a p)]

/-- Concrete application of C11: on (40, 3, -1) with intrinsic values (50, 0, 0) the first
application yields (50, 3, 0) and the second changes nothing. -/
theorem BSMAmericanCondition.applyTo_idempotent_witness :
    (⟨[50, 0, 0]⟩ : BSMAmericanCondition ℚ).applyTo [40, 3, -1] = [50, 3, 0] ∧
    (⟨[50, 0, 0]⟩ : BSMAmericanCondition ℚ).applyTo
      ((⟨[50, 0, 0]⟩ : BSMAmericanCondition ℚ).applyTo [40, 3, -1]) = [50, 3, 0] := by
  have h1 : (⟨[50, 0, 0]⟩ : BSMAmericanCondition ℚ).applyTo [40, 3, -1] = [50, 3, 0] := by
    norm_num [BSMAmericanCondition.applyTo, BSMAmericanCondition.applyEntries]
  refine ⟨h1, ?_⟩
  rw [BSMAmericanCondition.applyTo_idempotent, h1]

/-! ## Success of a Crank-Nicolson step does not depend on the values of the array -/

/-- What the size check of an operator against an array says. -/
theorem TridiagonalOperator.conforms_iff {β : Type} (L : TridiagonalOperator β) (x : List β) :
    L.conforms x = true ↔
      L.belowDiagonal.length = L.size ∧ L.aboveDiagonal.length = L.size ∧
        x.length = L.size := by
  simp [TridiagonalOperator.conforms, and_assoc]

/-- The product of an operator of dimension n and an array of size n has size n. -/
theorem TridiagonalOperator.length_applyRows (l d u : List α) (prev : α) (x : List α) (n : Nat)
    (hl : l.length = n) (hd : d.length = n) (hu : u.length = n) (hx : x.length = n) :
    (TridiagonalOperator.applyRows l d u prev x).length = n := by
  induction n generalizing l d u prev x with
  | zero =>
    rw [List.length_eq_zero.1 hl]
    rfl
  | succ n ih =>
    obtain ⟨l0, ls, rfl⟩ := List.exists_cons_of_length_eq_add_one hl
    obtain ⟨d0, ds, rfl⟩ := List.exists_cons_of_length_eq_add_one hd
    obtain ⟨u0, us, rfl⟩ := List.exists_cons_of_length_eq_add_one hu
    obtain ⟨x0, xs, rfl⟩ := List.exists_cons_of_length_eq_add_one hx
    simp only [TridiagonalOperator.applyRows, List.length_cons, add_left_inj]
    exact ih ls ds us x0 xs (by simpa using hl) (by simpa using hd) (by simpa using hu)
      (by simpa using hx)

/-- Forward elimination of n rows that succeeds yields n eliminated rows, and succeeds for
every other right-hand side of size n: the pivots do not depend on the right-hand side. -/
theorem TridiagonalOperator.forwardElimination_ok (l d u : List α) (cPrev dPrev : α)
    (rs : List α) (rows : List (α × α)) (n : Nat)
    (hl : l.length = n) (hd : d.length = n) (hu : u.length = n) (hr : rs.length = n)
    (hok : TridiagonalOperator.forwardElimination l d u cPrev dPrev rs = .ok rows) :
    rows.length = n ∧
    ∀ (dPrev2 : α) (rs2 : List α), rs2.length = n →
      ∃ rows2, TridiagonalOperator.forwardElimination l d u cPrev dPrev2 rs2 = .ok rows2 := by
  induction n generalizing l d u cPrev dPrev rs rows with
  | zero =>
    rw [List.length_eq_zero.1 hl] at hok ⊢
    simp only [TridiagonalOperator.forwardElimination, Except.ok.injEq] at hok
    subst hok
    exact ⟨rfl, fun _ _ _ => ⟨[], rfl⟩⟩
  | succ n ih =>
    obtain ⟨l0, ls, rfl⟩ := List.exists_cons_of_length_eq_add_one hl
    obtain ⟨d0, ds, rfl⟩ := List.exists_cons_of_length_eq_add_one hd
    obtain ⟨u0, us, rfl⟩ := List.exists_cons_of_length_eq_add_one hu
    obtain ⟨r0, rt, rfl⟩ := List.exists_cons_of_length_eq_add_one hr
    simp only [TridiagonalOperator.forwardElimination] at hok
    split at hok
    · exact absurd hok (by simp)
    · rename_i hpivot
      cases hrest : TridiagonalOperator.forwardElimination ls ds us (u0 / (d0 - l0 * cPrev))
          ((r0 - l0 * dPrev) / (d0 - l0 * cPrev)) rt with
      | error e => rw [hrest] at hok; exact absurd hok (by simp)
      | ok rest =>
        rw [hrest] at hok
        simp only [Except.ok.injEq] at hok
        subst hok
        obtain ⟨hlen, hother⟩ := ih ls ds us _ _ rt rest (by simpa using hl)
          (by simpa using hd) (by simpa using hu) (by simpa using hr) hrest
        refine ⟨by simp [hlen], fun dPrev2 rs2 hr2 => ?_⟩
        obtain ⟨q0, qt, rfl⟩ := List.exists_cons_of_length_eq_add_one hr2
        obtain ⟨rows2, h2⟩ := hother ((q0 - l0 * dPrev2) / (d0 - l0 * cPrev)) qt
          (by simpa using hr2)
        refine ⟨(u0 / (d0 - l0 * cPrev), (q0 - l0 * dPrev2) / (d0 - l0 * cPrev)) :: rows2, ?_⟩
        simp only [TridiagonalOperator.forwardElimination, if_neg hpivot, h2]

/-- Back substitution yields one entry per eliminated row. -/
theorem TridiagonalOperator.length_backSubstitution (rows : List (α × α)) :
    (TridiagonalOperator.backSubstitution rows).length = rows.length := by
  induction rows with
  | nil => rfl
  | cons r rest ih =>
    obtain ⟨c, d⟩ := r
    simp [TridiagonalOperator.backSubstitution, ih]

/-- A product that succeeds has the size of the array, and the product with every other array
of that size succeeds. -/
theorem TridiagonalOperator.applyTo_ok (L : TridiagonalOperator α) (a r : List α)
    (hok : L.applyTo a = .ok r) :
    a.length = L.size ∧ r.length = L.size ∧
    ∀ b : List α, b.length = a.length →
      ∃ r2, L.applyTo b = .ok r2 ∧ r2.length = L.size := by
  unfold TridiagonalOperator.applyTo at hok
  split at hok
  · rename_i hc
    obtain ⟨h1, h2, h3⟩ := (TridiagonalOperator.conforms_iff L a).1 hc
    simp only [Except.ok.injEq] at hok
    subst hok
    refine ⟨h3, TridiagonalOperator.length_applyRows _ _ _ _ _ _ h1 rfl h2 h3, fun b hb => ?_⟩
    have hcb : L.conforms b = true :=
      (TridiagonalOperator.conforms_iff L b).2 ⟨h1, h2, hb.trans h3⟩
    refine ⟨_, by rw [TridiagonalOperator.applyTo, if_pos hcb], ?_⟩
    exact TridiagonalOperator.length_applyRows _ _ _ _ _ _ h1 rfl h2 (hb.trans h3)
  · exact absurd hok (by simp)

/-- A solve that succeeds yields an array of the size of the right-hand side, and the solve for
every other right-hand side of that size succeeds. -/
theorem TridiagonalOperator.solveFor_ok (L : TridiagonalOperator α) (rhs r : List α)
    (hok : L.solveFor rhs = .ok r) :
    rhs.length = L.size ∧ r.length = L.size ∧
    ∀ b : List α, b.length = rhs.length → ∃ r2, L.solveFor b = .ok r2 := by
  unfold TridiagonalOperator.solveFor at hok
  split at hok
  · rename_i hc
    obtain ⟨h1, h2, h3⟩ := (TridiagonalOperator.conforms_iff L rhs).1 hc
    cases hfe : TridiagonalOperator.forwardElimination L.belowDiagonal L.diagonal
        L.aboveDiagonal 0 0 rhs with
    | error e => rw [hfe] at hok; exact absurd hok (by simp)
    | ok rows =>
      rw [hfe] at hok
      simp only [Except.ok.injEq] at hok
      subst hok
      obtain ⟨hlen, hother⟩ := TridiagonalOperator.forwardElimination_ok _ _ _ _ _ _ _ L.size
        h1 rfl h2 h3 hfe
      refine ⟨h3, by rw [TridiagonalOperator.length_backSubstitution, hlen], fun b hb => ?_⟩
      have hcb : L.conforms b = true :=
        (TridiagonalOperator.conforms_iff L b).2 ⟨h1, h2, hb.trans h3⟩
      obtain ⟨rows2, h2⟩ := hother 0 b (hb.trans h3)
      exact ⟨_, by rw [TridiagonalOperator.solveFor, if_pos hcb, h2]⟩
  · exact absurd hok (by simp)

/-- A Crank-Nicolson step that succeeds keeps the size of the array, and the step of the same
width succeeds on every other array of that size. -/
theorem CrankNicolson.step_ok (L : TridiagonalOperator α) (a r : List α) (t t1 : α)
    (hok : CrankNicolson.step L a t t1 = .ok r) :
    r.length = a.length ∧
    ∀ (b : List α) (t2 t3 : α), b.length = a.length → t2 - t3 = t - t1 →
      ∃ r2, CrankNicolson.step L b t2 t3 = .ok r2 := by
  unfold CrankNicolson.step at hok
  cases hap : (CrankNicolson.explicitPart L (t - t1)).applyTo a with
  | error e => rw [hap] at hok; exact absurd hok (by simp)
  | ok rhs =>
    rw [hap] at hok
    simp only at hok
    obtain ⟨ha, hrhs, hother⟩ := TridiagonalOperator.applyTo_ok _ a rhs hap
    obtain ⟨hrhs2, hr, hother2⟩ := TridiagonalOperator.solveFor_ok _ rhs r hok
    have hsize : (CrankNicolson.implicitPart L (t - t1)).size
        = (CrankNicolson.explicitPart L (t - t1)).size := by
      simp [CrankNicolson.implicitPart, CrankNicolson.explicitPart, TridiagonalOperator.size,
        TridiagonalOperator.add, TridiagonalOperator.scale, TridiagonalOperator.identity]
    refine ⟨by rw [hr, hsize, ha], fun b t2 t3 hb ht => ?_⟩
    obtain ⟨rhs2, hap2, hlen2⟩ := hother b hb
    obtain ⟨r2, hs2⟩ := hother2 rhs2 (by rw [hlen2, hrhs])
    refine ⟨r2, ?_⟩
    unfold CrankNicolson.step
    rw [ht, hap2]
    exact hs2

/-- The array a rollback of at least one sub-step without condition ends with is the result
of a step of the sub-step width. -/
theorem FiniteDifferenceModel.rollbackSteps_last (m : FiniteDifferenceModel α) (dt : α)
    (k : Nat) (t : α) (a r : List α)
    (hok : m.rollbackSteps none dt (k + 1) t a = .ok r) :
    ∃ (b : List α) (t1 : α), m.evolver b t1 (t1 - dt) = .ok r := by
  induction k generalizing t a with
  | zero =>
    simp only [FiniteDifferenceModel.rollbackSteps] at hok
    cases hstep : m.evolver a t (t - dt) with
    | error e => rw [hstep] at hok; exact absurd hok (by simp)
    | ok a1 =>
      rw [hstep] at hok
      simp only [applyCondition, Except.ok.injEq] at hok
      subst hok
      exact ⟨a, t, hstep⟩
  | succ k ih =>
    rw [FiniteDifferenceModel.rollbackSteps] at hok
    cases hstep : m.evolver a t (t - dt) with
    | error e => rw [hstep] at hok; exact absurd hok (by simp)
    | ok a1 =>
      rw [hstep] at hok
      exact ih (t - dt) _ hok

/-- After a Crank-Nicolson rollback from T to 0 in n steps that succeeds, the rollback of the
result from 0 to -T/n in one step succeeds as well: it is a no-op, or one more step of the
same width on an array of the same size. -/
theorem crankNicolson_extra_step_ok (L : TridiagonalOperator α) (a r : List α) (T : α)
    (n : Nat) (hok : (crankNicolsonModel L).rollback a T 0 (n : Int) none = .ok r) :
    ∃ r2, (crankNicolsonModel L).rollback r 0 (-(T / (n : α))) 1 none = .ok r2 := by
  unfold FiniteDifferenceModel.rollback at hok ⊢
  split at hok
  · exact absurd hok (by simp)
  rename_i hpre
  have hT : 0 ≤ T := by
    by_contra hlt
    exact hpre (Or.inr (lt_of_not_le hlt))
  have hn : (0 : α) ≤ (n : α) := Nat.cast_nonneg n
  have hdt : 0 ≤ T / (n : α) := div_nonneg hT hn
  rw [if_neg (by
    rintro (h | h)
    · exact absurd h (by norm_num)
    · linarith)]
  split at hok
  · rename_i hnoop
    have hzero : T / (n : α) = 0 := by
      rcases hnoop with h | h
      · have : n = 0 := by exact_mod_cast h
        subst this
        simp
      · rw [h]; simp
    exact ⟨r, by rw [if_pos (Or.inr (by rw [hzero]; simp))]⟩
  rename_i hsteps
  have hn0 : n ≠ 0 := fun h => hsteps (Or.inl (by exact_mod_cast h))
  obtain ⟨k, rfl⟩ := Nat.exists_eq_succ_of_ne_zero hn0
  have hT0 : T ≠ 0 := fun h => hsteps (Or.inr h)
  have hpos : T / ((k + 1 : Nat) : α) ≠ 0 :=
    div_ne_zero hT0 (by exact_mod_cast hn0)
  rw [if_neg (by
    rintro (h | h)
    · exact absurd h (by norm_num)
    · exact hpos (by linarith))]
  simp only [Int.toNat_ofNat, Int.cast_natCast, applyCondition] at hok
  obtain ⟨b, t1, hlast⟩ := FiniteDifferenceModel.rollbackSteps_last _ _ k T a r hok
  obtain ⟨hlen, hother⟩ := CrankNicolson.step_ok L b r t1 _ hlast
  obtain ⟨r2, hr2⟩ := hother r 0 (0 - (0 - -(T / ((k + 1 : Nat) : α))) / ((1 : Int) : α))
    hlen (by simp)
  refine ⟨r2, ?_⟩
  have h1 : (1 : Int).toNat = 1 := rfl
  rw [h1]
  simp only [FiniteDifferenceModel.rollbackSteps, applyCondition]
  have hr3 : (crankNicolsonModel L).evolver r 0
      (0 - (0 - -(T / ((k + 1 : Nat) : α))) / ((1 : Int) : α)) = .ok r2 := hr2
  rw [hr3]

end FiniteDifferences

namespace Pricers

open FiniteDifferences

variable {α : Type} [LinearOrderedField α]

/-! ## Runs of value() and calculate() that raise -/

/-- Every collaborator call of value() is one of its requests, and a call of value() that
raises has left value, delta, gamma and theta as they were and the flag false. -/
theorem BSMAmericanOption.value_run (h : BSMAmericanOption.Hooks α)
    (s : BSMAmericanOption α) :
    (∀ c ∈ (BSMAmericanOption.value h s).calls, s.requests c) ∧
    ∀ e, (BSMAmericanOption.value h s).result = .error e →
      (BSMAmericanOption.value h s).object.theValue = s.theValue ∧
      (BSMAmericanOption.value h s).object.theDelta = s.theDelta ∧
      (BSMAmericanOption.value h s).object.theGamma = s.theGamma ∧
      (BSMAmericanOption.value h s).object.theTheta = s.theTheta ∧
      (BSMAmericanOption.value h s).object.hasBeenCalculated = false := by
  cases hcalc : s.hasBeenCalculated with
  | true =>
    rw [BSMAmericanOption.value, if_pos hcalc]
    exact ⟨fun c hc => absurd hc (by simp), fun e he => absurd he (by simp)⟩
  | false =>
    rw [BSMAmericanOption.value, if_neg (by simp [hcalc])]
    rcases h1 : h.setGridLimits s with e | limits
    · simp [h1, BSMAmericanOption.requests, BSMAmericanOption.smallDt, hcalc]
    simp only [h1]
    rcases h2 : h.initializeGrid { s with sMin := limits.1, sMax := limits.2 } limits.1 limits.2
      with e | grid
    · simp [h2, BSMAmericanOption.requests, BSMAmericanOption.smallDt, hcalc]
    simp only [h2]
    rcases h3 : h.initializeInitialCondition
      { s with sMin := limits.1, sMax := limits.2, theGrid := grid } with e | prices
    · simp [h3, BSMAmericanOption.requests, BSMAmericanOption.smallDt, hcalc]
    simp only [h3]
    rcases h4 : h.initializeOperator
      { s with sMin := limits.1, sMax := limits.2, theGrid := grid, thePrices := prices }
      with e | op
    · simp [h4, BSMAmericanOption.requests, BSMAmericanOption.smallDt, hcalc]
    simp only [h4]
    rcases h5 : h.analyticEuro s.theType s.theUnderlying s.theStrike s.theUnderlyingGrowthRate
      s.theRiskFreeRate s.theResidualTime s.theVolatility with e | analytic
    · simp [h5, BSMAmericanOption.requests, BSMAmericanOption.smallDt, hcalc]
    simp only [h5]
    rcases h6 : (crankNicolsonModel op).rollback prices s.theResidualTime 0 s.theTimeSteps none
      with e | euro
    · simp [h6, BSMAmericanOption.requests, BSMAmericanOption.smallDt, hcalc]
    simp only [h6]
    rcases h7 : (crankNicolsonModel op).rollback euro 0
      (-(s.theResidualTime / ((wrapInt32 (100 * s.theTimeSteps) : Int) : α))) 1 none
      with e | euroMinus
    · simp [h7, BSMAmericanOption.requests, BSMAmericanOption.smallDt, hcalc]
    simp only [BSMAmericanOption.smallDt, h7]
    rcases h8 : (crankNicolsonModel op).rollback prices s.theResidualTime 0 s.theTimeSteps
      (some ⟨prices⟩) with e | american
    · simp [h8, BSMAmericanOption.requests, BSMAmericanOption.smallDt, hcalc]
    simp only [h8]
    rcases h9 : (crankNicolsonModel op).rollback american 0
      (-(s.theResidualTime / ((wrapInt32 (100 * s.theTimeSteps) : Int) : α))) 1 (some ⟨prices⟩)
      with e | americanMinus
    · simp [h9, BSMAmericanOption.requests, BSMAmericanOption.smallDt, hcalc]
    simp [h9, BSMAmericanOption.requests, BSMAmericanOption.smallDt]

/-- An operator whose diagonals and array have its dimension passes the size check of a
sub-step of non-finite width. -/
theorem CrankNicolson.nonFiniteStep_ok (L : TridiagonalOperator α) (a : List α)
    (hc : L.conforms a = true) : CrankNicolson.nonFiniteStep L a = .ok a := by
  obtain ⟨h1, h2, h3⟩ := (TridiagonalOperator.conforms_iff L a).1 hc
  have hce : (CrankNicolson.explicitPart L 0).conforms a = true := by
    rw [TridiagonalOperator.conforms_iff]
    simp only [TridiagonalOperator.size] at h1 h2 h3
    simp [CrankNicolson.explicitPart, TridiagonalOperator.size, TridiagonalOperator.add,
      TridiagonalOperator.scale, TridiagonalOperator.identity, h1, h2, h3]
  rw [CrankNicolson.nonFiniteStep, if_pos hce]

/-- A rollback in no steps returns the array it was given. -/
theorem FiniteDifferenceModel.rollback_zero_steps (m : FiniteDifferenceModel α) (a r : List α)
    (fromTime toTime : α) (condition : Option (BSMAmericanCondition α))
    (hok : m.rollback a fromTime toTime 0 condition = .ok r) : r = a := by
  unfold FiniteDifferenceModel.rollback at hok
  split at hok
  · exact absurd hok (by simp)
  · simp only [true_or, if_true, Except.ok.injEq] at hok
    exact hok.symm

/-- Every collaborator call of calculate() is one of its requests; a call of calculate() that
raises has left value_, delta_, gamma_, theta_ and the flag as they were, provided that for
timeSteps_ = 0 the operator that initializeOperator returns has the dimension of the initial
condition that initializeInitialCondition returns (the rollback that follows the assignment
of value_, delta_ and gamma_ cannot raise once the first rollback has succeeded: for
timeSteps_ >= 1 it repeats a sub-step of the first, for timeSteps_ = 0 it only checks the
sizes); and a call that returns has set theta_ to the backward difference over
residualTime_/timeSteps_ and the flag to true. -/
theorem FiniteDifferenceEuropean.calculate_run (h : FiniteDifferenceEuropean.Hooks α)
    (s : FiniteDifferenceEuropean α) :
    (∀ c ∈ (FiniteDifferenceEuropean.calculate h s).calls, s.requests c) ∧
    ((s.timeSteps_ = 0 → ∀ (limits : α × α) (grid prices : List α)
        (op : TridiagonalOperator α),
        h.setGridLimits s s.underlying_ s.residualTime_ = .ok limits →
        h.initializeGrid { s with sMin_ := limits.1, sMax_ := limits.2 } = .ok grid →
        h.initializeInitialCondition
          { s with sMin_ := limits.1, sMax_ := limits.2, grid_ := grid } = .ok prices →
        h.initializeOperator
          { s with sMin_ := limits.1, sMax_ := limits.2, grid_ := grid,
                   initialPrices_ := prices } = .ok op →
        op.conforms prices = true) →
      ∀ e, (FiniteDifferenceEuropean.calculate h s).result = .error e →
      (FiniteDifferenceEuropean.calculate h s).object.value_ = s.value_ ∧
      (FiniteDifferenceEuropean.calculate h s).object.delta_ = s.delta_ ∧
      (FiniteDifferenceEuropean.calculate h s).object.gamma_ = s.gamma_ ∧
      (FiniteDifferenceEuropean.calculate h s).object.theta_ = s.theta_ ∧
      (FiniteDifferenceEuropean.calculate h s).object.hasBeenCalculated_
        = s.hasBeenCalculated_) ∧
    ((FiniteDifferenceEuropean.calculate h s).result = .ok () →
      (FiniteDifferenceEuropean.calculate h s).object.theta_ =
        ((FiniteDifferenceEuropean.calculate h s).object.value_
          - valueAtCenter (FiniteDifferenceEuropean.calculate h s).object.euroPrices_)
        / (s.residualTime_ / (s.timeSteps_ : α)) ∧
      (FiniteDifferenceEuropean.calculate h s).object.hasBeenCalculated_ = true) := by
  rw [FiniteDifferenceEuropean.calculate]
  rcases h1 : h.setGridLimits s s.underlying_ s.residualTime_ with e | limits
  · simp [h1, FiniteDifferenceEuropean.requests]
  simp only [h1]
  rcases h2 : h.initializeGrid { s with sMin_ := limits.1, sMax_ := limits.2 } with e | grid
  · simp [h2, FiniteDifferenceEuropean.requests]
  simp only [h2]
  rcases h3 : h.initializeInitialCondition
    { s with sMin_ := limits.1, sMax_ := limits.2, grid_ := grid } with e | prices
  · simp [h3, FiniteDifferenceEuropean.requests]
  simp only [h3]
  rcases h4 : h.initializeOperator
    { s with sMin_ := limits.1, sMax_ := limits.2, grid_ := grid, initialPrices_ := prices }
    with e | op
  · simp [h4, FiniteDifferenceEuropean.requests]
  simp only [h4]
  rcases h5 : (crankNicolsonModel op).rollback prices s.residualTime_ 0 (s.timeSteps_ : Int)
    none with e | euro
  · simp [h5, FiniteDifferenceEuropean.requests]
  simp only [h5]
  by_cases hn : s.timeSteps_ = 0
  · simp only [if_pos hn]
    rcases h6 : CrankNicolson.nonFiniteStep op euro with e | euroMinus
    · have heuro : euro = prices := by
        rw [hn] at h5
        exact FiniteDifferenceModel.rollback_zero_steps _ _ _ _ _ _ h5
      subst heuro
      refine ⟨by simp [FiniteDifferenceEuropean.requests, hn], fun hsize => ?_, by simp⟩
      have hc := hsize hn limits grid euro op rfl h2 h3 h4
      rw [CrankNicolson.nonFiniteStep_ok op euro hc] at h6
      exact absurd h6 (by simp)
    · simp [FiniteDifferenceEuropean.requests, hn]
  · simp only [if_neg hn]
    obtain ⟨euroMinus, h6⟩ := crankNicolson_extra_step_ok op prices euro s.residualTime_
      s.timeSteps_ h5
    simp [h6, FiniteDifferenceEuropean.requests]

/-- The run of calculate() on the European put on the three-point grid. -/
theorem europeanPut_calculate :
    (FiniteDifferenceEuropean.calculate (demoEuropeanHooks diffusionOperator)
      europeanPut).result = .ok () ∧
    (FiniteDifferenceEuropean.calculate (demoEuropeanHooks diffusionOperator)
      europeanPut).calls.get? 4 =
      some (.rollback (crankNicolsonModel diffusionOperator) [50, 0, 0] 1 0 2 none) ∧
    (FiniteDifferenceEuropean.calculate (demoEuropeanHooks diffusionOperator)
      europeanPut).calls.get? 5 =
      some (.rollback (crankNicolsonModel diffusionOperator) [225 / 49, 200 / 49, 225 / 49]
        0 (-(1 / 2)) 1 none) := by
  refine ⟨?_, ?_, ?_⟩ <;>
  norm_num [FiniteDifferenceEuropean.calculate, demoEuropeanHooks, europeanPut, demoPayoff,
    diffusionOperator,
    FiniteDifferenceModel.rollback, FiniteDifferenceModel.rollbackSteps, crankNicolsonModel,
    CrankNicolson.step, CrankNicolson.explicitPart, CrankNicolson.implicitPart,
    CrankNicolson.theta, TridiagonalOperator.applyTo, TridiagonalOperator.solveFor,
    TridiagonalOperator.conforms, TridiagonalOperator.size, TridiagonalOperator.identity,
    TridiagonalOperator.add, TridiagonalOperator.scale, TridiagonalOperator.applyRows,
    TridiagonalOperator.forwardElimination, TridiagonalOperator.backSubstitution,
    applyCondition]

/-- The run of calculate() on the European put with an operator of dimension 0: the first
rollback raises. -/
theorem europeanPut_emptyOperator_raises :
    (FiniteDifferenceEuropean.calculate (demoEuropeanHooks emptyOperator) europeanPut).result
      = .error .InvalidArgument := by
  norm_num [FiniteDifferenceEuropean.calculate, demoEuropeanHooks, europeanPut, demoPayoff,
    emptyOperator,
    FiniteDifferenceModel.rollback, FiniteDifferenceModel.rollbackSteps, crankNicolsonModel,
    CrankNicolson.step, CrankNicolson.explicitPart, CrankNicolson.implicitPart,
    CrankNicolson.theta, TridiagonalOperator.applyTo,
    TridiagonalOperator.conforms, TridiagonalOperator.size, TridiagonalOperator.identity,
    TridiagonalOperator.add, TridiagonalOperator.scale, applyCondition]

/-- The run of calculate() on the European put with no time steps and an operator of
dimension 0, which initializeOperator cannot return for a three-point grid if operator and
arrays are to have one dimension: the first rollback is a no-op, value_ is assigned 50, and
the sub-step of the last rollback raises InvalidArgument. With the operator of dimension 3
the same call returns. -/
theorem europeanPutZeroSteps_calculate :
    (FiniteDifferenceEuropean.calculate (demoEuropeanHooks emptyOperator)
      europeanPutZeroSteps).result = .error .InvalidArgument ∧
    europeanPutZeroSteps.value_ = 0 ∧
    (FiniteDifferenceEuropean.calculate (demoEuropeanHooks emptyOperator)
      europeanPutZeroSteps).object.value_ = 50 ∧
    (FiniteDifferenceEuropean.calculate (demoEuropeanHooks diffusionOperator)
      europeanPutZeroSteps).result = .ok () := by
  refine ⟨?_, rfl, ?_, ?_⟩ <;>
  norm_num [FiniteDifferenceEuropean.calculate, demoEuropeanHooks, europeanPutZeroSteps,
    europeanPut, demoPayoff, emptyOperator, diffusionOperator, valueAtCenter,
    FiniteDifferenceModel.rollback, crankNicolsonModel, CrankNicolson.nonFiniteStep,
    CrankNicolson.explicitPart, TridiagonalOperator.conforms, TridiagonalOperator.size,
    TridiagonalOperator.identity, TridiagonalOperator.add, TridiagonalOperator.scale]

/-- C13: for T > 0 and n >= 1 with 100 n inside the int range, smallDt = T/(100 n) is strictly
positive, hence a nonzero divisor of the two theta quotients, and every rollback requested by
value() passes the test at the head of rollback (not nSteps < 0 and not toTime > fromTime), so
that rollback goes on to its no-op test and its sub-steps instead of raising InvalidArgument
there. -/
theorem BSMAmericanOption.value_rollbacks_pass_check (h : BSMAmericanOption.Hooks α)
    (s : BSMAmericanOption α) (hT : 0 < s.theResidualTime) (hn : 1 ≤ s.theTimeSteps)
    (hhi : 100 * s.theTimeSteps < 2 ^ 31) :
    s.smallDt = s.theResidualTime / (100 * (s.theTimeSteps : α)) ∧
    0 < s.smallDt ∧ s.smallDt ≠ 0 ∧
    (∀ c ∈ (BSMAmericanOption.value h s).calls, c.passesRollbackCheck) ∧
    (∀ (m : FiniteDifferenceModel α) (a : List α) (fromTime toTime : α) (nSteps : Int)
      (condition : Option (BSMAmericanCondition α)),
      Call.rollback m a fromTime toTime nSteps condition ∈ (BSMAmericanOption.value h s).calls →
      m.rollback a fromTime toTime nSteps condition =
        if nSteps = 0 ∨ fromTime = toTime then .ok a
        else m.rollbackSteps condition ((fromTime - toTime) / (nSteps : α)) nSteps.toNat
          fromTime (applyCondition condition a)) := by
  have hdt : s.smallDt = s.theResidualTime / (100 * (s.theTimeSteps : α)) := by
    simp only [BSMAmericanOption.smallDt, wrapInt32_of_inRange (z := 100 * s.theTimeSteps)
      (by omega) hhi]
    push_cast
    rfl
  have hnα : (1 : α) ≤ (s.theTimeSteps : α) := by exact_mod_cast hn
  have hpos : 0 < s.smallDt := by
    rw [hdt]
    exact div_pos hT (by linarith)
  have hpass : ∀ c ∈ (BSMAmericanOption.value h s).calls, c.passesRollbackCheck := by
    intro c hc
    have hreq := (BSMAmericanOption.value_run h s).1 c hc
    cases c with
    | rollback m a fromTime toTime nSteps condition =>
      simp only [BSMAmericanOption.requests] at hreq
      simp only [Call.passesRollbackCheck]
      rcases hreq with ⟨rfl, rfl, rfl⟩ | ⟨rfl, rfl, rfl⟩
      · rintro (h1 | h1)
        · omega
        · exact absurd h1 (not_lt_of_lt hT)
      · rintro (h1 | h1)
        · omega
        · linarith
    | _ => trivial
  refine ⟨hdt, hpos, ne_of_gt hpos, hpass, fun m a fromTime toTime nSteps condition hc => ?_⟩
  have := hpass _ hc
  simp only [Call.passesRollbackCheck] at this
  rw [FiniteDifferenceModel.rollback, if_neg this]

/-- Witness of C13: the put on the three-point grid (T = 1, n = 2) has smallDt = 1/200 and its
four rollbacks pass the test. -/
theorem BSMAmericanOption.value_rollbacks_pass_check_witness :
    putOption.smallDt = 1 / 200 ∧
    ∀ c ∈ (BSMAmericanOption.value (demoHooks diffusionOperator) putOption).calls,
      c.passesRollbackCheck := by
  obtain ⟨h1, -, -, h4, -⟩ := BSMAmericanOption.value_rollbacks_pass_check
    (demoHooks diffusionOperator) putOption (by norm_num [putOption, demoOption])
    (by norm_num [putOption, demoOption]) (by norm_num [putOption, demoOption])
  refine ⟨?_, h4⟩
  rw [h1]
  norm_num [putOption, demoOption]

/-- C20, as amended: the only extra rollback calculate() requests goes from 0 to
-residualTime_/timeSteps_ in one step, so the increment over which it estimates theta is
residualTime_/timeSteps_, the width of a regular sub-step of its rollback from residualTime_
to 0 in timeSteps_ steps, not less; in BSMAmericanOption::value the increment is
smallDt = T/(100 n), strictly smaller than T/n for T > 0 and n >= 1 (100 n inside the int
range). -/
theorem theta_increment_of_the_two_pricers
    (hE : FiniteDifferenceEuropean.Hooks α) (sE : FiniteDifferenceEuropean α)
    (s : BSMAmericanOption α) (hT : 0 < s.theResidualTime) (hn : 1 ≤ s.theTimeSteps)
    (hhi : 100 * s.theTimeSteps < 2 ^ 31) :
    (∀ (m : FiniteDifferenceModel α) (a : List α) (fromTime toTime : α) (nSteps : Int)
      (condition : Option (BSMAmericanCondition α)),
      Call.rollback m a fromTime toTime nSteps condition
        ∈ (FiniteDifferenceEuropean.calculate hE sE).calls →
      (fromTime = sE.residualTime_ ∧ toTime = 0 ∧ nSteps = (sE.timeSteps_ : Int)) ∨
      (fromTime = 0 ∧ toTime = -(sE.residualTime_ / (sE.timeSteps_ : α)) ∧ nSteps = 1)) ∧
    ((FiniteDifferenceEuropean.calculate hE sE).result = .ok () →
      (FiniteDifferenceEuropean.calculate hE sE).object.theta_ =
        ((FiniteDifferenceEuropean.calculate hE sE).object.value_
          - valueAtCenter (FiniteDifferenceEuropean.calculate hE sE).object.euroPrices_)
        / (sE.residualTime_ / (sE.timeSteps_ : α))) ∧
    s.smallDt = s.theResidualTime / (100 * (s.theTimeSteps : α)) ∧
    s.smallDt < s.theResidualTime / (s.theTimeSteps : α) := by
  have hdt : s.smallDt = s.theResidualTime / (100 * (s.theTimeSteps : α)) := by
    simp only [BSMAmericanOption.smallDt, wrapInt32_of_inRange (z := 100 * s.theTimeSteps)
      (by omega) hhi]
    push_cast
    rfl
  have hnα : (1 : α) ≤ (s.theTimeSteps : α) := by exact_mod_cast hn
  refine ⟨fun m a fromTime toTime nSteps condition hc => ?_, fun hok => ?_, hdt, ?_⟩
  · have hreq := (FiniteDifferenceEuropean.calculate_run hE sE).1 _ hc
    simpa only [FiniteDifferenceEuropean.requests] using hreq
  · exact ((FiniteDifferenceEuropean.calculate_run hE sE).2.2 hok).1
  · rw [hdt]
    have hpos : (0 : α) < (s.theTimeSteps : α) := by linarith
    exact div_lt_div_of_pos_left hT hpos (by linarith)

/-- Witness of C20 as amended: the European put (T = 1, n = 2) requests its extra rollback from
0 to -1/2, the American put on the same data has smallDt = 1/200 < 1/2. -/
theorem theta_increment_of_the_two_pricers_witness :
    (FiniteDifferenceEuropean.calculate (demoEuropeanHooks diffusionOperator)
      europeanPut).calls.get? 5 =
      some (.rollback (crankNicolsonModel diffusionOperator) [225 / 49, 200 / 49, 225 / 49]
        0 (-(1 / 2)) 1 none) ∧
    putOption.smallDt = 1 / 200 ∧
    putOption.smallDt < putOption.theResidualTime / (putOption.theTimeSteps : ℚ) := by
  obtain ⟨-, -, h3, h4⟩ := theta_increment_of_the_two_pricers
    (demoEuropeanHooks diffusionOperator) europeanPut putOption
    (by norm_num [putOption, demoOption]) (by norm_num [putOption, demoOption])
    (by norm_num [putOption, demoOption])
  refine ⟨europeanPut_calculate.2.2, ?_, h4⟩
  rw [h3]
  norm_num [putOption, demoOption]

/-- Counterexample to C20: for the European put with T = 1 and n = 2, calculate() requests its
rollback to 0 in 2 steps from time 1, sub-steps of width 1/2, and its extra rollback from 0 to
-1/2: the extra increment 1/2 is not smaller than the regular sub-step. -/
theorem FiniteDifferenceEuropean.calculate_theta_increment_is_full_step :
    (0 : ℚ) < europeanPut.residualTime_ ∧ 1 ≤ europeanPut.timeSteps_ ∧
    (FiniteDifferenceEuropean.calculate (demoEuropeanHooks diffusionOperator)
      europeanPut).calls.get? 4 =
      some (.rollback (crankNicolsonModel diffusionOperator) [50, 0, 0] 1 0 2 none) ∧
    (FiniteDifferenceEuropean.calculate (demoEuropeanHooks diffusionOperator)
      europeanPut).calls.get? 5 =
      some (.rollback (crankNicolsonModel diffusionOperator) [225 / 49, 200 / 49, 225 / 49]
        0 (-(1 / 2)) 1 none) ∧
    europeanPut.residualTime_ / (europeanPut.timeSteps_ : ℚ) = 1 / 2 ∧
    ¬ ((1 / 2 : ℚ) < europeanPut.residualTime_ / (europeanPut.timeSteps_ : ℚ)) := by
  refine ⟨by norm_num [europeanPut], by norm_num [europeanPut], europeanPut_calculate.2.1,
    europeanPut_calculate.2.2, by norm_num [europeanPut], by norm_num [europeanPut]⟩

end Pricers

section Processes

variable {α : Type} [LinearOrderedField α]

/-! ## Drift of the Black-Scholes process and registrations of the cube -/

/-- C18: drift(t, x) is r - q - 0.5 sigma^2 with r and q the risk-free and dividend forward
rates over [t, t + 0.0001] and sigma the local volatility at (t, x) with extrapolation
enabled; when r = q the drift is -0.5 sigma^2, which is not positive. -/
theorem BlackScholesProcess.drift_eq (p : BlackScholesProcess α) (t x : α) :
    p.drift t x =
      p.riskFreeForward t (t + 1 / 10000) - p.dividendForward t (t + 1 / 10000)
        - 1 / 2 * (p.localVol t x true) ^ 2 ∧
    (p.riskFreeForward t (t + 1 / 10000) = p.dividendForward t (t + 1 / 10000) →
      p.drift t x = -(1 / 2 * (p.localVol t x true) ^ 2) ∧ p.drift t x ≤ 0) := by
  have h : p.drift t x =
      p.riskFreeForward t (t + 1 / 10000) - p.dividendForward t (t + 1 / 10000)
        - 1 / 2 * (p.localVol t x true) ^ 2 := by
    simp only [BlackScholesProcess.drift]
    ring
  refine ⟨h, fun hrq => ?_⟩
  have h2 : p.drift t x = -(1 / 2 * (p.localVol t x true) ^ 2) := by
    rw [h, hrq]
    ring
  refine ⟨h2, ?_⟩
  rw [h2]
  have := sq_nonneg (p.localVol t x true)
  linarith

/-- Concrete application of C18: with both forward rates 1/20 and local volatility 1/5 the
drift is -1/50. -/
theorem BlackScholesProcess.drift_eq_witness :
    flatProcess.drift 1 100 = -(1 / 50) ∧ flatProcess.drift 1 100 ≤ 0 := by
  obtain ⟨h1, h2⟩ := (BlackScholesProcess.drift_eq flatProcess 1 100).2 rfl
  refine ⟨?_, h2⟩
  rw [h1]
  norm_num [flatProcess]

namespace SwaptionVolatilityCube

/-- Every registration of registerWithVolatilitySpread is a volatility spread quote. -/
theorem mem_registerWithVolatilitySpread (nStrikes nOptionTenors nSwapTenors : Nat)
    (volSpreads : List (List Nat)) (r : Registration)
    (hr : r ∈ registerWithVolatilitySpread nStrikes nOptionTenors nSwapTenors volSpreads) :
    ∃ q, r = .volSpread q := by
  simp only [registerWithVolatilitySpread, List.mem_flatMap, List.mem_map] at hr
  obtain ⟨i, -, j, -, k, -, rfl⟩ := hr
  exact ⟨_, rfl⟩

/-- The registrations of the constructor are those made before the first requirement, with
those of registerWithVolatilitySpread appended if no requirement fails. -/
theorem construct_registrations (rules : DateRules α) (atmVol : Nat)
    (optionTenors swapTenors : List Nat) (strikeSpreads : List α)
    (volSpreads : List (List Nat)) (swapIndexBase : Option Nat) (vegaWeightedSmileFit : Bool) :
    (construct rules atmVol optionTenors swapTenors strikeSpreads volSpreads swapIndexBase
        vegaWeightedSmileFit).registrations =
      (if swapIndexBase.isNone then [.atmVol atmVol, .swapIndexBase swapIndexBase]
        else [.atmVol atmVol]) ∨
    (construct rules atmVol optionTenors swapTenors strikeSpreads volSpreads swapIndexBase
        vegaWeightedSmileFit).registrations =
      (if swapIndexBase.isNone then [.atmVol atmVol, .swapIndexBase swapIndexBase]
        else [.atmVol atmVol]) ++
      registerWithVolatilitySpread strikeSpreads.length optionTenors.length swapTenors.length
        volSpreads := by
  unfold construct
  cases checkedMembers rules optionTenors swapTenors strikeSpreads volSpreads with
  | error e => exact Or.inl (by cases swapIndexBase <;> rfl)
  | ok members => exact Or.inr (by cases swapIndexBase <;> rfl)

/-- C19, evaluated on the code: whatever the other arguments, a constructor given a non-null
swap index pointer makes no registerWith call on it (with or without raising), while a
constructor given a null pointer calls registerWith on the null pointer. -/
theorem construct_registers_swapIndexBase_only_when_null (rules : DateRules α) (atmVol : Nat)
    (optionTenors swapTenors : List Nat) (strikeSpreads : List α)
    (volSpreads : List (List Nat)) (vegaWeightedSmileFit : Bool) (index : Nat) :
    Registration.swapIndexBase (some index) ∉
      (construct rules atmVol optionTenors swapTenors strikeSpreads volSpreads (some index)
        vegaWeightedSmileFit).registrations ∧
    Registration.swapIndexBase none ∈
      (construct rules atmVol optionTenors swapTenors strikeSpreads volSpreads none
        vegaWeightedSmileFit).registrations := by
  constructor
  · intro hmem
    have hnot : Registration.swapIndexBase (some index) ∉
        registerWithVolatilitySpread strikeSpreads.length optionTenors.length
          swapTenors.length volSpreads := by
      intro h
      obtain ⟨q, hq⟩ := mem_registerWithVolatilitySpread _ _ _ _ _ h
      exact absurd hq (by simp)
    rcases construct_registrations rules atmVol optionTenors swapTenors strikeSpreads
      volSpreads (some index) vegaWeightedSmileFit with h | h
    · rw [h] at hmem
      simp at hmem
    · rw [h] at hmem
      simp only [Option.isNone_some, Bool.false_eq_true, if_false, List.mem_append,
        List.mem_singleton] at hmem
      rcases hmem with h1 | h1
      · exact absurd h1 (by simp)
      · exact hnot h1
  · rcases construct_registrations rules atmVol optionTenors swapTenors strikeSpreads
      volSpreads none vegaWeightedSmileFit with h | h
    · rw [h]
      simp
    · rw [h]
      simp

/-- Concrete run of the constructor with the swap index 3: the cube is built, registered with
the ATM structure 7 and the four quotes, and not with the swap index. -/
theorem construct_with_swapIndex :
    construct yearRules 7 [1, 2] [5] [-1 / 100, 1 / 100] [[11, 12], [21, 22]] (some 3) true =
      ⟨.ok ([1, 2], [5]),
        [.atmVol 7, .volSpread 11, .volSpread 21, .volSpread 12, .volSpread 22]⟩ := by
  norm_num [construct, checkedMembers, yearRules, registerWithVolatilitySpread, List.range,
    List.range.loop, List.flatMap]
  rw [if_neg (List.cons_ne_nil _ _)]

end SwaptionVolatilityCube

end Processes

namespace MarketModels

variable {α : Type} [LinearOrderedField α]

/-! ## Validity flags of the collected node data -/

/-- A write through a reference keeps the size of the vector. -/
theorem length_modifyAt {β : Type} (f : β → β) (n : Nat) (l : List β) :
    (modifyAt f n l).length = l.length := by
  induction l generalizing n with
  | nil => simp [modifyAt]
  | cons x xs ih =>
    cases n with
    | zero => simp [modifyAt]
    | succ n => simp [modifyAt, ih]

/-- A write through a reference changes the element at its index, when the vector has that
index, and no other. -/
theorem getD_modifyAt {β : Type} (f : β → β) (n : Nat) (l : List β) (k : Nat) (d : β) :
    (modifyAt f n l).getD k d
      = if k = n ∧ n < l.length then f (l.getD k d) else l.getD k d := by
  induction l generalizing n k with
  | nil => simp [modifyAt]
  | cons x xs ih =>
    cases n with
    | zero =>
      cases k with
      | zero => simp [modifyAt]
      | succ k => simp [modifyAt]
    | succ n =>
      cases k with
      | zero => simp [modifyAt]
      | succ k =>
        have := ih n k
        simpa [modifyAt] using this

/-- A write that leaves isValid alone leaves every isValid of the vector alone. -/
theorem isValid_modifyAt {γ : Type} (f : NodeData γ → NodeData γ)
    (hf : ∀ x, (f x).isValid = x.isValid) (n : Nat) (l : List (NodeData γ)) (k : Nat)
    (d : NodeData γ) :
    ((modifyAt f n l).getD k d).isValid = (l.getD k d).isValid := by
  rw [getD_modifyAt]
  split_ifs
  · exact hf _
  · rfl

/-- The exercise times are counted among the rebate times. -/
theorem exerciseTimes_count (rebateTimes v : List Bool) (e : Nat) :
    (exerciseTimes rebateTimes v e).1.count true + e ≤ (exerciseTimes rebateTimes v e).2 := by
  induction rebateTimes generalizing e with
  | nil => simp [exerciseTimes]
  | cons r rest ih =>
    have h1 := ih (e + 1)
    have h0 := ih e
    cases r with
    | true =>
      simp only [exerciseTimes, if_true, List.count_cons]
      split_ifs <;> omega
    | false => simpa [exerciseTimes] using h0

/-- There are no more exercise times than entries after the first. -/
theorem count_isExerciseTime_le {γ : Type} (c : Collaborators γ) (m : Nat) :
    ((isExerciseTime c).take m).count true ≤ exercises c := by
  have h := exerciseTimes_count c.isRebateTime c.rebateIsExerciseTime 0
  have h2 : ((isExerciseTime c).take m).count true ≤ (isExerciseTime c).count true :=
    List.Sublist.count_le (List.take_sublist m _) true
  simp only [isExerciseTime, exercises] at h h2 ⊢
  omega

/-- Exercise times among one more step. -/
theorem count_take_succ (flags : List Bool) (m : Nat) :
    (flags.take (m + 1)).count true
      = (flags.take m).count true + (if flags.getD m false then 1 else 0) := by
  rw [List.take_succ, List.count_append, List.getD_eq_getElem?_getD]
  cases h : flags[m]? with
  | none => simp
  | some b => cases b <;> simp

/-- One pass of the loop, when the evolver counts its steps: the invariant is kept, one more
step is taken, and the pass reports whether the product is done. -/
theorem pass_collected (c : Collaborators α) (fresh : NodeData α) (i : Nat)
    (st : PathState α) (hsteps : ∀ i m, c.currentStep i m = m)
    (hinv : st.Collected c fresh) :
    (pass c i st).2.Collected c fresh ∧ (pass c i st).2.advances = st.advances + 1 ∧
    (pass c i st).1 = doneAfter c i st.advances := by
  obtain ⟨hlen, hnext, hvalid⟩ := hinv
  have hcount := count_take_succ (isExerciseTime c) st.advances
  have hle := count_isExerciseTime_le c (st.advances + 1)
  refine ⟨⟨?_, ?_, ?_⟩, rfl, ?_⟩
  · simp only [pass]
    split_ifs <;> simp [length_modifyAt, hlen]
  · simp only [pass, hsteps]
    rw [hcount, hnext]
    split_ifs <;> rfl
  · intro k hk1 hk2
    simp only [pass, hsteps] at hk2 ⊢
    have hkeep : ∀ (l : List (NodeData α)),
        ((if c.isProductTime.getD st.advances false = true then
          modifyAt (fun data =>
            { data with
              cumulatedCashFlows := (c.nextTimeStep i st.advances).2.foldl
                (fun sum cf => sum + cf.amount * c.productBonds i st.advances cf.timeIndex
                  / st.principalInNumerairePortfolio)
                data.cumulatedCashFlows })
            (if (isExerciseTime c).getD st.advances false = true then st.nextExercise + 1
              else st.nextExercise) l
          else l).getD k fresh).isValid = (l.getD k fresh).isValid := by
      intro l
      split_ifs <;> first | rfl | exact isValid_modifyAt _ (fun x => by rfl) _ _ _ _
    rw [hkeep]
    by_cases hex : (isExerciseTime c).getD st.advances false = true
    · rw [if_pos hex] at hcount hk2 ⊢
      rw [getD_modifyAt]
      by_cases hk : k = st.nextExercise + 1
      · rw [if_pos ⟨hk, by omega⟩]
      · rw [if_neg (fun h => hk h.1)]
        exact hvalid k hk1 (by omega)
    · rw [if_neg hex] at hk2 ⊢
      exact hvalid k hk1 hk2
  · simp only [pass, doneAfter, hsteps]
    cases c.isProductTime.getD st.advances false <;> simp

/-- The do-while loop of a path whose evolver counts its steps ends at the first pass after
which the product is done, if it is allowed that many passes, and keeps the invariant. -/
theorem passes_collected (c : Collaborators α) (fresh : NodeData α) (i d : Nat)
    (hsteps : ∀ i m, c.currentStep i m = m) (hdone : doneAfter c i d = true)
    (fuel : Nat) (st : PathState α) (hinv : st.Collected c fresh)
    (hnot : ∀ m, st.advances ≤ m → m < d → doneAfter c i m = false)
    (hle : st.advances ≤ d) (hfuel : d < st.advances + fuel) :
    ∃ st1, passes c i fuel st = some st1 ∧ st1.Collected c fresh ∧
      st1.advances = d + 1 := by
  induction fuel generalizing st with
  | zero => omega
  | succ fuel ih =>
    obtain ⟨hinv1, hadv, hd⟩ := pass_collected c fresh i st hsteps hinv
    by_cases heq : st.advances = d
    · refine ⟨(pass c i st).2, ?_, hinv1, by omega⟩
      rw [passes, hd, heq, hdone]
      simp
    · have hlt : st.advances < d := by omega
      have hfalse : (pass c i st).1 = false := by rw [hd]; exact hnot _ (le_refl _) hlt
      rw [passes, hfalse]
      simp only [Bool.false_eq_true, if_false]
      exact ih _ hinv1 (fun m hm hmd => hnot m (by omega) hmd) (by omega) (by omega)

/-- The filling loop: the entries up to index j stay as they are, and the entries after it
have zero exerciseValue, controlValue and cumulatedCashFlows and are not valid. -/
theorem fillNulls_entries (fresh : NodeData α) (top : Nat) (count j : Nat)
    (column : List (NodeData α)) (hlen : column.length = top + 1) (hj : j + count = top) :
    (fillNulls count j column).length = top + 1 ∧
    (∀ k, k ≤ j → (fillNulls count j column).getD k fresh = column.getD k fresh) ∧
    (∀ k, j < k → k ≤ top →
      ((fillNulls count j column).getD k fresh).exerciseValue = 0 ∧
      ((fillNulls count j column).getD k fresh).controlValue = 0 ∧
      ((fillNulls count j column).getD k fresh).cumulatedCashFlows = 0 ∧
      ((fillNulls count j column).getD k fresh).isValid = false) := by
  induction count generalizing j column with
  | zero =>
    refine ⟨hlen, fun _ _ => rfl, fun k hk1 hk2 => ?_⟩
    omega
  | succ count ih =>
    obtain ⟨h1, h2, h3⟩ := ih (j + 1) (modifyAt (fun data =>
      { data with exerciseValue := 0, controlValue := 0, cumulatedCashFlows := 0,
                  isValid := false }) (j + 1) column)
      (by rw [length_modifyAt, hlen]) (by omega)
    refine ⟨h1, fun k hk => ?_, fun k hk1 hk2 => ?_⟩
    · rw [fillNulls, h2 k (by omega), getD_modifyAt, if_neg (fun h => by omega)]
    · by_cases hk : k = j + 1
      · rw [fillNulls, h2 k (by omega), getD_modifyAt, if_pos ⟨hk, by omega⟩]
        exact ⟨rfl, rfl, rfl, rfl⟩
      · exact h3 k (by omega) hk2

/-- The start of a path satisfies the invariant of the loop. -/
theorem startOfPath_collected (c : Collaborators α) (fresh : NodeData α)
    (collectedData : List (List (NodeData α))) (i : Nat) :
    (startOfPath c fresh collectedData i).Collected c fresh ∧
    (startOfPath c fresh collectedData i).advances = 0 := by
  refine ⟨⟨by simp [startOfPath, length_modifyAt], by simp [startOfPath],
    fun k _ hk => ?_⟩, rfl⟩
  simp only [startOfPath] at hk
  omega

/-- Entries of the table that collectNodeData returns. -/
theorem collectNodeData_entry (c : Collaborators α) (fresh : NodeData α)
    (fuel numberOfPaths : Nat) (collectedData : List (List (NodeData α)))
    (hprod : c.numberOfProducts = 1)
    (hsome : ∀ i, i < numberOfPaths →
      ∃ column, collectPath c fresh fuel collectedData i = some column) :
    ∃ table, collectNodeData c fresh fuel numberOfPaths collectedData = .ok table ∧
      ∀ i k, i < numberOfPaths → k ≤ exercises c →
        ∃ column, collectPath c fresh fuel collectedData i = some column ∧
          entry fresh table k i = column.getD k fresh := by
  have hall : ((List.range numberOfPaths).map
      (collectPath c fresh fuel collectedData)).all Option.isSome = true := by
    simp only [List.all_eq_true, List.mem_map, List.mem_range]
    rintro x ⟨i, hi, rfl⟩
    obtain ⟨column, hcol⟩ := hsome i hi
    rw [hcol]
    rfl
  have hrun : collectNodeData c fresh fuel numberOfPaths collectedData
      = .ok ((List.range (exercises c + 1)).map fun k =>
          ((List.range numberOfPaths).map (collectPath c fresh fuel collectedData)).map
            fun column => (column.getD []).getD k fresh) := by
    rw [collectNodeData, if_pos hprod]
    simp only [hall, if_true]
  refine ⟨_, hrun, ?_⟩
  intro i k hi hk
  obtain ⟨column, hcol⟩ := hsome i hi
  refine ⟨column, hcol, ?_⟩
  have hk1 : k < exercises c + 1 := by omega
  simp [entry, List.getD_eq_getElem?_getD, List.getElem?_range, hk1, hi, hcol]

/-- C21: when a single product is passed, the evolver counts its steps and on every path i
the product is first done after the pass finish i (within the passes allowed), the call
returns a table in which, for every path i, with nextExercise the number of exercise times
reached on the path: nextExercise is at most exercises, every entry collectedData[k][i] with
1 <= k <= nextExercise is valid, and every entry collectedData[j+1][i] with
nextExercise <= j < exercises has exerciseValue = controlValue = cumulatedCashFlows = 0 and
is not valid; so isValid of every entry at an index k with 1 <= k <= exercises is set,
whatever the table held before the call. -/
theorem collectNodeData_sets_validity (c : Collaborators α) (fresh : NodeData α)
    (fuel numberOfPaths : Nat) (collectedData : List (List (NodeData α)))
    (finish : Nat → Nat) (hprod : c.numberOfProducts = 1)
    (hsteps : ∀ i m, c.currentStep i m = m)
    (hfin : ∀ i, i < numberOfPaths →
      finish i < fuel ∧ doneAfter c i (finish i) = true ∧
      ∀ m, m < finish i → doneAfter c i m = false) :
    ∃ table, collectNodeData c fresh fuel numberOfPaths collectedData = .ok table ∧
      ∀ i, i < numberOfPaths →
        ∃ st, passes c i fuel (startOfPath c fresh collectedData i) = some st ∧
          st.nextExercise = ((isExerciseTime c).take (finish i + 1)).count true ∧
          st.nextExercise ≤ exercises c ∧
          (∀ k, 1 ≤ k → k ≤ st.nextExercise → (entry fresh table k i).isValid = true) ∧
          (∀ j, st.nextExercise ≤ j → j < exercises c →
            (entry fresh table (j + 1) i).exerciseValue = 0 ∧
            (entry fresh table (j + 1) i).controlValue = 0 ∧
            (entry fresh table (j + 1) i).cumulatedCashFlows = 0 ∧
            (entry fresh table (j + 1) i).isValid = false) ∧
          (∀ k, 1 ≤ k → k ≤ exercises c →
            (entry fresh table k i).isValid = decide (k ≤ st.nextExercise)) := by
  have hpath : ∀ i, i < numberOfPaths →
      ∃ st, passes c i fuel (startOfPath c fresh collectedData i) = some st ∧
        st.Collected c fresh ∧ st.advances = finish i + 1 := by
    intro i hi
    obtain ⟨hlt, hdone, hnot⟩ := hfin i hi
    obtain ⟨hinv, hadv⟩ := startOfPath_collected c fresh collectedData i
    exact passes_collected c fresh i (finish i) hsteps hdone fuel _ hinv
      (fun m _ hm => hnot m hm) (by omega) (by omega)
  obtain ⟨table, hrun, hentry⟩ := collectNodeData_entry c fresh fuel numberOfPaths
    collectedData hprod (fun i hi => by
      obtain ⟨st, hst, _⟩ := hpath i hi
      exact ⟨_, by rw [collectPath, hst]⟩)
  refine ⟨table, hrun, fun i hi => ?_⟩
  obtain ⟨st, hst, ⟨hlen, hnext, hvalid⟩, hadv⟩ := hpath i hi
  have hle : st.nextExercise ≤ exercises c := by
    rw [hnext]
    exact count_isExerciseTime_le c _
  obtain ⟨_, hkeep, hnull⟩ := fillNulls_entries fresh (exercises c)
    (exercises c - st.nextExercise) st.nextExercise st.column hlen (by omega)
  have hcol : ∀ k, k ≤ exercises c → entry fresh table k i
      = (fillNulls (exercises c - st.nextExercise) st.nextExercise st.column).getD k fresh := by
    intro k hk
    obtain ⟨column, hcolumn, he⟩ := hentry i k hi hk
    rw [collectPath, hst] at hcolumn
    simp only [Option.some.injEq] at hcolumn
    rw [he, ← hcolumn]
  have hv : ∀ k, 1 ≤ k → k ≤ st.nextExercise →
      (entry fresh table k i).isValid = true := by
    intro k hk1 hk2
    rw [hcol k (by omega), hkeep k hk2]
    exact hvalid k hk1 hk2
  have hn : ∀ j, st.nextExercise ≤ j → j < exercises c →
      (entry fresh table (j + 1) i).exerciseValue = 0 ∧
      (entry fresh table (j + 1) i).controlValue = 0 ∧
      (entry fresh table (j + 1) i).cumulatedCashFlows = 0 ∧
      (entry fresh table (j + 1) i).isValid = false := by
    intro j hj1 hj2
    rw [hcol (j + 1) (by omega)]
    exact hnull (j + 1) (by omega) (by omega)
  refine ⟨st, hst, by rw [hnext, hadv], hle, hv, hn, fun k hk1 hk2 => ?_⟩
  by_cases hk : k ≤ st.nextExercise
  · rw [hv k hk1 hk]
    simp [hk]
  · obtain ⟨j, rfl⟩ : ∃ j, k = j + 1 := ⟨k - 1, by omega⟩
    rw [(hn j (by omega) (by omega)).2.2.2]
    simp [hk]

/-- The table of the concrete call: two paths over three steps with two exercise times; the
product is done after the second pass on path 0, before the second exercise time, and
after the third pass on path 1. -/
theorem demo_collectNodeData :
    collectNodeData demoCollaborators staleData 3 2 [] = .ok
      [[⟨9, 0, [9], 9, true⟩, ⟨9, 0, [9], 9, true⟩],
       [⟨5, 2, [0, 0], 7, true⟩, ⟨5, 2, [1, 0], 7, true⟩],
       [⟨0, 0, [9], 0, false⟩, ⟨5, 1, [1, 2], 7, true⟩]] := by
  norm_num [collectNodeData, collectPath, startOfPath, passes, pass, fillNulls, modifyAt,
    exercises, isExerciseTime, exerciseTimes, demoCollaborators, staleData, List.range,
    List.range.loop]

/-- Concrete run of C21: for the concrete collaborators and a table that is empty before
the call, the call returns a table with the properties of the claim on both paths. -/
theorem collectNodeData_sets_validity_witness :
    ∃ table, collectNodeData demoCollaborators staleData 3 2 [] = .ok table ∧
      ∀ i, i < 2 →
        ∃ st, passes demoCollaborators i 3 (startOfPath demoCollaborators staleData [] i)
            = some st ∧
          st.nextExercise = ((isExerciseTime demoCollaborators).take
            (demoFinish i + 1)).count true ∧
          st.nextExercise ≤ exercises demoCollaborators ∧
          (∀ k, 1 ≤ k → k ≤ st.nextExercise →
            (entry staleData table k i).isValid = true) ∧
          (∀ j, st.nextExercise ≤ j → j < exercises demoCollaborators →
            (entry staleData table (j + 1) i).exerciseValue = 0 ∧
            (entry staleData table (j + 1) i).controlValue = 0 ∧
            (entry staleData table (j + 1) i).cumulatedCashFlows = 0 ∧
            (entry staleData table (j + 1) i).isValid = false) ∧
          (∀ k, 1 ≤ k → k ≤ exercises demoCollaborators →
            (entry staleData table k i).isValid = decide (k ≤ st.nextExercise)) :=
  collectNodeData_sets_validity demoCollaborators staleData 3 2 []
    demoFinish rfl (fun _ _ => rfl) (by decide)

end MarketModels

namespace Math

variable {α : Type} [LinearOrderedField α]

/-! ## Failure and symmetry of covariance -/

/-- The counters of the accumulator play no part in what add does to the size and the sums. -/
theorem MultivariateAccumulator.add_counters_irrelevant (value : List α) (weight : α)
    (s : MultivariateAccumulator α) (n w : α) :
    (MultivariateAccumulator.add value weight
        { s with sampleNumber_ := n, sampleWeight_ := w }).result
      = (MultivariateAccumulator.add value weight s).result ∧
    (MultivariateAccumulator.add value weight
        { s with sampleNumber_ := n, sampleWeight_ := w }).object.size_
      = (MultivariateAccumulator.add value weight s).object.size_ ∧
    (MultivariateAccumulator.add value weight
        { s with sampleNumber_ := n, sampleWeight_ := w }).object.sum_
      = (MultivariateAccumulator.add value weight s).object.sum_ ∧
    (MultivariateAccumulator.add value weight
        { s with sampleNumber_ := n, sampleWeight_ := w }).object.quadraticSum_
      = (MultivariateAccumulator.add value weight s).object.quadraticSum_ := by
  by_cases h0 : s.size_ = 0
  · by_cases hw : 0 ≤ weight
    · simp [MultivariateAccumulator.add, h0, hw, MultivariateAccumulator.reset]
    · simp [MultivariateAccumulator.add, h0, hw, MultivariateAccumulator.reset]
  · by_cases hl : value.length = s.size_
    · by_cases hw : 0 ≤ weight
      · simp [MultivariateAccumulator.add, h0, hl, hw]
      · simp [MultivariateAccumulator.add, h0, hl, hw]
    · simp [MultivariateAccumulator.add, h0, hl]

/-- An accepted sample keeps the sums well sized and adds weight * x_j * x_k to the entry
(j, k) of the quadratic sum, whatever the counters are. -/
theorem MultivariateAccumulator.add_quadraticSum (value : List α) (weight : α)
    (s : MultivariateAccumulator α) (hs : s.WellSized)
    (hok : (MultivariateAccumulator.add value weight s).result = .ok ()) :
    (MultivariateAccumulator.add value weight s).object.WellSized ∧
    (∀ j k, matrixEntry (MultivariateAccumulator.add value weight s).object.quadraticSum_ j k
      = matrixEntry s.quadraticSum_ j k + weight * value.getD j 0 * value.getD k 0) := by
  obtain ⟨hr, hsz, hsum, hq⟩ :=
    MultivariateAccumulator.add_counters_irrelevant value weight s 0 0
  have hacc := MultivariateAccumulator.add_accumulates value weight
    { s with sampleNumber_ := 0, sampleWeight_ := 0 } hs (fun _ => ⟨rfl, rfl⟩)
    (by rw [hr]; exact hok)
  obtain ⟨_, hws, _, _, _, _, hent⟩ := hacc
  refine ⟨?_, fun j k => ?_⟩
  · simp only [MultivariateAccumulator.WellSized] at hws ⊢
    rw [hsz, hsum, hq] at hws
    exact hws
  · rw [← hq]
    exact hent j k

/-- Accepted samples keep the sums well sized. -/
theorem MultivariateAccumulator.addEach_wellSized (samples : List (List α × α))
    (s0 s : MultivariateAccumulator α) (hs : s0.WellSized)
    (hadd : MultivariateAccumulator.addEach samples s0 = .ok s) : s.WellSized := by
  induction samples generalizing s0 with
  | nil =>
    simp only [MultivariateAccumulator.addEach, Except.ok.injEq] at hadd
    exact hadd ▸ hs
  | cons p rest ih =>
    obtain ⟨value, weight⟩ := p
    simp only [MultivariateAccumulator.addEach] at hadd
    cases hres : (MultivariateAccumulator.add value weight s0).result with
    | error e => rw [hres] at hadd; exact absurd hadd (by simp)
    | ok u =>
      rw [hres] at hadd
      exact ih _ (MultivariateAccumulator.add_quadraticSum value weight s0 hs hres).1 hadd

/-- Accepted samples keep the quadratic sum symmetric. -/
theorem MultivariateAccumulator.addEach_symmetric (samples : List (List α × α))
    (s0 s : MultivariateAccumulator α) (hs : s0.WellSized)
    (hsym : ∀ j k, matrixEntry s0.quadraticSum_ j k = matrixEntry s0.quadraticSum_ k j)
    (hadd : MultivariateAccumulator.addEach samples s0 = .ok s) :
    ∀ j k, matrixEntry s.quadraticSum_ j k = matrixEntry s.quadraticSum_ k j := by
  induction samples generalizing s0 with
  | nil =>
    simp only [MultivariateAccumulator.addEach, Except.ok.injEq] at hadd
    exact hadd ▸ hsym
  | cons p rest ih =>
    obtain ⟨value, weight⟩ := p
    simp only [MultivariateAccumulator.addEach] at hadd
    cases hres : (MultivariateAccumulator.add value weight s0).result with
    | error e => rw [hres] at hadd; exact absurd hadd (by simp)
    | ok u =>
      rw [hres] at hadd
      obtain ⟨hws, hent⟩ := MultivariateAccumulator.add_quadraticSum value weight s0 hs hres
      refine ih _ hws (fun j k => ?_) hadd
      rw [hent j k, hent k j, hsym j k]
      ring

/-- Samples of weight zero leave the sum of the weights at zero. -/
theorem MultivariateAccumulator.addEach_zero_weights (samples : List (List α × α))
    (s0 s : MultivariateAccumulator α) (hw0 : s0.sampleWeight_ = 0)
    (hzero : ∀ p ∈ samples, p.2 = 0)
    (hadd : MultivariateAccumulator.addEach samples s0 = .ok s) : s.sampleWeight_ = 0 := by
  induction samples generalizing s0 with
  | nil =>
    simp only [MultivariateAccumulator.addEach, Except.ok.injEq] at hadd
    exact hadd ▸ hw0
  | cons p rest ih =>
    obtain ⟨value, weight⟩ := p
    simp only [MultivariateAccumulator.addEach] at hadd
    cases hres : (MultivariateAccumulator.add value weight s0).result with
    | error e => rw [hres] at hadd; exact absurd hadd (by simp)
    | ok u =>
      rw [hres] at hadd
      refine ih _ ?_ (fun p hp => hzero p (List.mem_cons_of_mem _ hp)) hadd
      have hwz : weight = 0 := hzero (value, weight) (List.mem_cons_self _ _)
      rcases MultivariateAccumulator.add_cases value weight s0 with
        ⟨_, _, h⟩ | ⟨_, _, h⟩ | ⟨_, _, h⟩
      · rw [h] at hres; exact absurd hres (by simp)
      · rw [h] at hres; exact absurd hres (by simp)
      · rw [h]
        simp [hw0, hwz]

/-- Shape of the matrix that covariance builds from well-sized sums. -/
theorem MultivariateAccumulator.covariance_shape (s : MultivariateAccumulator α)
    (hs : s.WellSized) (M : List (List α)) (hcov : MultivariateAccumulator.covariance s = .ok M) :
    M.length = s.size_ ∧ ∀ row ∈ M, row.length = s.size_ := by
  obtain ⟨hsum, hq, hrows⟩ := hs
  simp only [MultivariateAccumulator.covariance] at hcov
  split_ifs at hcov
  simp only [Except.ok.injEq] at hcov
  subst hcov
  refine ⟨by simp [matrixScale, matrixSub, outerProduct, hq, hsum], fun row hrow => ?_⟩
  simp only [matrixScale, matrixSub, outerProduct, arrayScale, List.mem_map] at hrow
  obtain ⟨r, hr, rfl⟩ := hrow
  rw [List.length_map]
  obtain ⟨i, hi, rfl⟩ := List.getElem_of_mem hr
  simp only [List.getElem_zipWith, List.length_zipWith, List.getElem_map, List.length_map, hsum]
  rw [hrows _ (List.getElem_mem _)]
  simp [arrayScale, hsum]

/-- Entries of the matrix that covariance builds from well-sized sums. -/
theorem MultivariateAccumulator.covariance_entry (s : MultivariateAccumulator α)
    (hs : s.WellSized) (M : List (List α)) (hcov : MultivariateAccumulator.covariance s = .ok M)
    (j k : Nat) :
    matrixEntry M j k = (s.sampleNumber_ / (s.sampleNumber_ - 1)) * (1 / s.sampleWeight_)
      * (matrixEntry s.quadraticSum_ j k
          - (1 / s.sampleWeight_) * (s.sum_.getD j 0 * s.sum_.getD k 0)) := by
  obtain ⟨hsum, hq, hrows⟩ := hs
  simp only [MultivariateAccumulator.covariance] at hcov
  split_ifs at hcov
  simp only [Except.ok.injEq] at hcov
  subst hcov
  rw [matrixEntry_matrixScale, matrixEntry_matrixSub, matrixEntry_matrixScale,
    matrixEntry_outerProduct]
  · simp [matrixScale, outerProduct, hq, hsum]
  · intro i
    rw [length_getD_of_rows s.quadraticSum_ s.size_ s.size_ hq hrows i]
    rw [length_getD_of_rows _ s.size_ s.size_ (by simp [matrixScale, outerProduct, hsum])
      (fun row hrow => by
        simp only [matrixScale, outerProduct, arrayScale, List.mem_map] at hrow
        obtain ⟨r, ⟨a, _, rfl⟩, rfl⟩ := hrow
        simp [hsum]) i]

/-- C22: covariance fails exactly when sampleWeight_ <= 0 or sampleNumber_ <= 1. It fails on
a reset and on a freshly created accumulator, after a single sample, and after any number
of accepted samples that all have weight zero; after accepted samples with sampleWeight_ > 0
and sampleNumber_ > 1 both divisors (sampleWeight_ and sampleNumber_ - 1) are non-zero and
the result is a matrix of size_ rows of size_ entries. -/
theorem MultivariateAccumulator.covariance_fails_iff (s : MultivariateAccumulator α) :
    ((∃ e, MultivariateAccumulator.covariance s = .error e) ↔
      (s.sampleWeight_ ≤ 0 ∨ s.sampleNumber_ ≤ 1)) ∧
    (∃ e, MultivariateAccumulator.covariance (MultivariateAccumulator.reset s) = .error e) ∧
    (∀ size : Nat, ∃ e, MultivariateAccumulator.covariance
      (MultivariateAccumulator.create size : MultivariateAccumulator α) = .error e) ∧
    (∀ (value : List α) (weight : α),
      (MultivariateAccumulator.add value weight (MultivariateAccumulator.reset s)).result
        = .ok () →
      ∃ e, MultivariateAccumulator.covariance
        (MultivariateAccumulator.add value weight (MultivariateAccumulator.reset s)).object
          = .error e) ∧
    (∀ (samples : List (List α × α)) (s1 : MultivariateAccumulator α),
      (∀ p ∈ samples, p.2 = 0) →
      MultivariateAccumulator.addEach samples (MultivariateAccumulator.reset s) = .ok s1 →
      ∃ e, MultivariateAccumulator.covariance s1 = .error e) ∧
    (∀ (samples : List (List α × α)) (s1 : MultivariateAccumulator α),
      MultivariateAccumulator.addEach samples (MultivariateAccumulator.reset s) = .ok s1 →
      ¬ (s1.sampleWeight_ ≤ 0 ∨ s1.sampleNumber_ ≤ 1) →
      s1.sampleWeight_ ≠ 0 ∧ s1.sampleNumber_ - 1 ≠ 0 ∧
      ∃ M, MultivariateAccumulator.covariance s1 = .ok M ∧
        M.length = s1.size_ ∧ ∀ row ∈ M, row.length = s1.size_) := by
  have hiff : ∀ t : MultivariateAccumulator α,
      (∃ e, MultivariateAccumulator.covariance t = .error e) ↔
        (t.sampleWeight_ ≤ 0 ∨ t.sampleNumber_ ≤ 1) := by
    intro t
    by_cases hw : 0 < t.sampleWeight_
    · by_cases hn : 1 < t.sampleNumber_
      · simp [MultivariateAccumulator.covariance, hw, hn, not_le_of_lt hw, not_le_of_lt hn]
      · simp [MultivariateAccumulator.covariance, hw, hn, le_of_not_lt hn]
    · simp [MultivariateAccumulator.covariance, hw, le_of_not_lt hw]
  refine ⟨hiff s, ?_, ?_, ?_, ?_, ?_⟩
  · exact (hiff _).2 (Or.inl (by simp [MultivariateAccumulator.reset]))
  · intro size
    exact (hiff _).2
      (Or.inl (by simp [MultivariateAccumulator.create, MultivariateAccumulator.reset]))
  · intro value weight hok
    refine (hiff _).2 (Or.inr ?_)
    rcases MultivariateAccumulator.add_cases value weight (MultivariateAccumulator.reset s) with
      ⟨_, _, h⟩ | ⟨_, _, h⟩ | ⟨_, _, h⟩
    · rw [h] at hok; exact absurd hok (by simp)
    · rw [h] at hok; exact absurd hok (by simp)
    · rw [h]
      simp [MultivariateAccumulator.reset]
  · intro samples s1 hzero hadd
    refine (hiff _).2 (Or.inl (le_of_eq ?_))
    exact MultivariateAccumulator.addEach_zero_weights samples _ s1
      (by simp [MultivariateAccumulator.reset]) hzero hadd
  · intro samples s1 hadd hnot
    have hw : 0 < s1.sampleWeight_ := lt_of_not_le fun h => hnot (Or.inl h)
    have hn : 1 < s1.sampleNumber_ := lt_of_not_le fun h => hnot (Or.inr h)
    have hws : s1.WellSized := MultivariateAccumulator.addEach_wellSized samples _ s1
      (MultivariateAccumulator.wellSized_reset s) hadd
    refine ⟨ne_of_gt hw, ne_of_gt (sub_pos.2 hn), ?_⟩
    have hcov : ∃ M, MultivariateAccumulator.covariance s1 = .ok M := by
      simp [MultivariateAccumulator.covariance, hw, hn]
    obtain ⟨M, hM⟩ := hcov
    exact ⟨M, hM, MultivariateAccumulator.covariance_shape s1 hws M hM⟩

/-- Concrete run of C22: after the ten unit-weight samples of the test suite covariance
returns five rows, and after the first of them alone it fails. -/
theorem MultivariateAccumulator.covariance_fails_iff_witness :
    (∃ M, MultivariateAccumulator.covariance
        (⟨5, 10, 10, [43, 43, 43, 43, 43], List.replicate 5 [205, 205, 205, 205, 205]⟩ :
          MultivariateAccumulator ℚ) = .ok M ∧ M.length = 5) ∧
    (∃ e, MultivariateAccumulator.covariance
      (MultivariateAccumulator.add [3, 3, 3, 3, 3] 1
        (MultivariateAccumulator.reset ⟨0, 0, 0, [], []⟩ : MultivariateAccumulator ℚ)).object
        = .error e) := by
  have h := MultivariateAccumulator.covariance_fails_iff
    (⟨0, 0, 0, [], []⟩ : MultivariateAccumulator ℚ)
  obtain ⟨_, _, M, hM, hlen, _⟩ := h.2.2.2.2.2 testSamples _ testSamples_accumulated
    (by norm_num)
  exact ⟨⟨M, hM, hlen⟩, h.2.2.2.1 [3, 3, 3, 3, 3] 1
    (by norm_num [MultivariateAccumulator.add, MultivariateAccumulator.reset])⟩

/-- In exact arithmetic (α an ordered field) the matrix returned by covariance after any
sequence of accepted samples and weights, starting from a reset accumulator, is symmetric:
entry (j, k) equals entry (k, j). -/
theorem MultivariateAccumulator.covariance_symmetric (samples : List (List α × α))
    (s0 s : MultivariateAccumulator α) (M : List (List α))
    (hadd : MultivariateAccumulator.addEach samples (MultivariateAccumulator.reset s0) = .ok s)
    (hcov : MultivariateAccumulator.covariance s = .ok M) (j k : Nat) :
    matrixEntry M j k = matrixEntry M k j := by
  have hws : s.WellSized := MultivariateAccumulator.addEach_wellSized samples _ s
    (MultivariateAccumulator.wellSized_reset s0) hadd
  have hsym := MultivariateAccumulator.addEach_symmetric samples _ s
    (MultivariateAccumulator.wellSized_reset s0)
    (fun j k => by
      rw [(MultivariateAccumulator.entries_reset s0 j k).2,
        (MultivariateAccumulator.entries_reset s0 k j).2])
    hadd
  rw [MultivariateAccumulator.covariance_entry s hws M hcov j k,
    MultivariateAccumulator.covariance_entry s hws M hcov k j, hsym j k,
    mul_comm (s.sum_.getD j 0)]

/-- Concrete run in exact arithmetic: the samples (1, 2) with weight 1 and (3, 5) with
weight 2 give the covariance matrix [[16/9, 8/3], [8/3, 4]], whose entries (0, 1) and
(1, 0) agree. -/
theorem MultivariateAccumulator.covariance_symmetric_witness :
    MultivariateAccumulator.addEach [([1, 2], 1), ([3, 5], 2)]
      (MultivariateAccumulator.reset ⟨0, 0, 0, [], []⟩ : MultivariateAccumulator ℚ)
      = .ok ⟨2, 2, 3, [7, 12], [[19, 32], [32, 54]]⟩ ∧
    MultivariateAccumulator.covariance
      (⟨2, 2, 3, [7, 12], [[19, 32], [32, 54]]⟩ : MultivariateAccumulator ℚ)
      = .ok [[16 / 9, 8 / 3], [8 / 3, 4]] ∧
    matrixEntry ([[16 / 9, 8 / 3], [8 / 3, 4]] : List (List ℚ)) 0 1
      = matrixEntry ([[16 / 9, 8 / 3], [8 / 3, 4]] : List (List ℚ)) 1 0 := by
  have hadd : MultivariateAccumulator.addEach [([1, 2], 1), ([3, 5], 2)]
      (MultivariateAccumulator.reset ⟨0, 0, 0, [], []⟩ : MultivariateAccumulator ℚ)
      = .ok ⟨2, 2, 3, [7, 12], [[19, 32], [32, 54]]⟩ := by
    norm_num [MultivariateAccumulator.addEach, MultivariateAccumulator.add,
      MultivariateAccumulator.reset, arrayScale, arrayAdd, matrixAdd, outerProduct,
      List.replicate]
  have hcov : MultivariateAccumulator.covariance
      (⟨2, 2, 3, [7, 12], [[19, 32], [32, 54]]⟩ : MultivariateAccumulator ℚ)
      = .ok [[16 / 9, 8 / 3], [8 / 3, 4]] := by
    norm_num [MultivariateAccumulator.covariance, matrixScale, matrixSub, outerProduct,
      arrayScale]
  exact ⟨hadd, hcov, MultivariateAccumulator.covariance_symmetric _ _ _ _ hadd hcov 0 1⟩

/-- C24, counterexample to atomicity: on a freshly constructed accumulator of size 0 a sample
of size 2 with weight -1 is rejected, yet the accumulator has adopted the size 2 and its
sums have been resized. -/
theorem MultivariateAccumulator.add_not_atomic_on_fresh_accumulator :
    (MultivariateAccumulator.add [1, 2] (-1) (MultivariateAccumulator.create 0 :
      MultivariateAccumulator ℚ)).result = .error .negativeWeight ∧
    (MultivariateAccumulator.create 0 : MultivariateAccumulator ℚ) = ⟨0, 0, 0, [], []⟩ ∧
    (MultivariateAccumulator.add [1, 2] (-1) (MultivariateAccumulator.create 0 :
      MultivariateAccumulator ℚ)).object = ⟨2, 0, 0, [0, 0], [[0, 0], [0, 0]]⟩ ∧
    (MultivariateAccumulator.add [1, 2] (-1) (MultivariateAccumulator.create 0 :
      MultivariateAccumulator ℚ)).object ≠ MultivariateAccumulator.create 0 := by
  have hrun : MultivariateAccumulator.add [1, 2] (-1) (MultivariateAccumulator.create 0 :
      MultivariateAccumulator ℚ)
      = ⟨.error .negativeWeight, ⟨2, 0, 0, [0, 0], [[0, 0], [0, 0]]⟩⟩ := by
    norm_num [MultivariateAccumulator.add, MultivariateAccumulator.create,
      MultivariateAccumulator.reset, List.replicate]
  have hc : (MultivariateAccumulator.create 0 : MultivariateAccumulator ℚ)
      = ⟨0, 0, 0, [], []⟩ := by
    simp [MultivariateAccumulator.create, MultivariateAccumulator.reset]
  refine ⟨by rw [hrun], hc, by rw [hrun], ?_⟩
  rw [hrun, hc]
  simp

/-- C24, amended: when add raises on an accumulator whose size is set (size_ different from
0) the accumulator is left as it was; when it raises on an accumulator of size 0 the error
is the negative weight and the accumulator has adopted the size of the sample and has been
reset. -/
theorem MultivariateAccumulator.add_atomic_when_sized (value : List α) (weight : α)
    (s : MultivariateAccumulator α) (e : AccumulatorError)
    (hraise : (MultivariateAccumulator.add value weight s).result = .error e) :
    (s.size_ ≠ 0 → (MultivariateAccumulator.add value weight s).object = s) ∧
    (s.size_ = 0 → e = .negativeWeight ∧
      (MultivariateAccumulator.add value weight s).object
        = MultivariateAccumulator.reset { s with size_ := value.length }) := by
  rcases MultivariateAccumulator.add_cases value weight s with
    ⟨h0, _, h⟩ | ⟨_, _, h⟩ | ⟨_, _, h⟩
  · rw [h]
    exact ⟨fun _ => rfl, fun hz => absurd hz h0⟩
  · rw [h] at hraise ⊢
    simp only [Except.error.injEq] at hraise
    refine ⟨fun hn => by simp [hn], fun hz => ⟨hraise.symm, by simp [hz]⟩⟩
  · rw [h] at hraise
    exact absurd hraise (by simp)

/-- Concrete run of the amended C24: on an accumulator of size 2 a sample of size 3 and a
sample of weight -1 are rejected and leave the accumulator as it was. -/
theorem MultivariateAccumulator.add_atomic_when_sized_witness :
    (MultivariateAccumulator.add [1, 2, 3] 1 (MultivariateAccumulator.create 2 :
      MultivariateAccumulator ℚ)).result = .error .wrongSize ∧
    (MultivariateAccumulator.add [1, 2, 3] 1 (MultivariateAccumulator.create 2 :
      MultivariateAccumulator ℚ)).object = MultivariateAccumulator.create 2 ∧
    (MultivariateAccumulator.add [1, 2] (-1) (MultivariateAccumulator.create 2 :
      MultivariateAccumulator ℚ)).result = .error .negativeWeight ∧
    (MultivariateAccumulator.add [1, 2] (-1) (MultivariateAccumulator.create 2 :
      MultivariateAccumulator ℚ)).object = MultivariateAccumulator.create 2 := by
  have h1 : (MultivariateAccumulator.add [1, 2, 3] 1 (MultivariateAccumulator.create 2 :
      MultivariateAccumulator ℚ)).result = .error .wrongSize := by
    norm_num [MultivariateAccumulator.add, MultivariateAccumulator.create,
      MultivariateAccumulator.reset]
  have h2 : (MultivariateAccumulator.add [1, 2] (-1) (MultivariateAccumulator.create 2 :
      MultivariateAccumulator ℚ)).result = .error .negativeWeight := by
    norm_num [MultivariateAccumulator.add, MultivariateAccumulator.create,
      MultivariateAccumulator.reset]
  have hs : (MultivariateAccumulator.create 2 : MultivariateAccumulator ℚ).size_ ≠ 0 := by
    simp [MultivariateAccumulator.create, MultivariateAccumulator.reset]
  exact ⟨h1, (MultivariateAccumulator.add_atomic_when_sized _ _ _ _ h1).1 hs,
    h2, (MultivariateAccumulator.add_atomic_when_sized _ _ _ _ h2).1 hs⟩

/-! ## Symmetry of covariance in arithmetic that rounds -/

section Rounded

variable {β : Type}

/-- Entry of a mapped array inside the array. -/
theorem getD_map_of_lt {γ δ : Type} (f : γ → δ) (l : List γ) (j : Nat) (d1 : δ) (d2 : γ)
    (hj : j < l.length) : (l.map f).getD j d1 = f (l.getD j d2) := by
  simp [List.getD_eq_getElem?_getD, List.getElem?_eq_getElem, hj]

/-- Entry of an element-wise combination of two arrays inside both. -/
theorem getD_zipWith_of_lt {γ δ ε : Type} (g : γ → δ → ε) (a : List γ) (b : List δ)
    (j : Nat) (d : ε) (d1 : γ) (d2 : δ) (ha : j < a.length) (hb : j < b.length) :
    (List.zipWith g a b).getD j d = g (a.getD j d1) (b.getD j d2) := by
  simp [List.getD_eq_getElem?_getD, List.getElem?_eq_getElem, ha, hb]

/-- Outside a matrix of n rows of n entries every entry reads as 0. -/
theorem matrixEntry_outside [Zero β] (a : List (List β)) (n j k : Nat) (hl : a.length = n)
    (hrow : ∀ row ∈ a, row.length = n) (hjk : n ≤ j ∨ n ≤ k) : matrixEntry a j k = 0 := by
  unfold matrixEntry
  by_cases hj : j < n
  · have hk : n ≤ k := by
      rcases hjk with h | h
      · omega
      · exact h
    rw [List.getD_eq_getElem a [] (by omega)]
    exact List.getD_eq_default _ _ (by rw [hrow _ (List.getElem_mem _)]; exact hk)
  · rw [List.getD_eq_default a [] (by omega)]
    rfl

/-- Row j of a matrix of n rows of n entries has n entries. -/
theorem length_row {γ : Type} (a : List (List γ)) (n j : Nat) (hl : a.length = n)
    (hrow : ∀ row ∈ a, row.length = n) (hj : j < n) : (a.getD j []).length = n := by
  rw [List.getD_eq_getElem a [] (by omega)]
  exact hrow _ (List.getElem_mem _)

/-- Entries of an outer product. -/
theorem matrixEntry_outerProduct_of_lt [Zero β] [Mul β] (u v : List β) (j k : Nat)
    (hj : j < u.length) (hk : k < v.length) :
    matrixEntry (outerProduct u v) j k = u.getD j 0 * v.getD k 0 := by
  unfold matrixEntry outerProduct
  rw [getD_map_of_lt _ u j [] 0 hj, getD_map_of_lt _ v k 0 0 hk]

/-- Shape of an outer product. -/
theorem shape_outerProduct [Mul β] (u v : List β) :
    (outerProduct u v).length = u.length ∧
    ∀ row ∈ outerProduct u v, row.length = v.length := by
  refine ⟨by simp [outerProduct], fun row hrow => ?_⟩
  simp only [outerProduct, List.mem_map] at hrow
  obtain ⟨a, _, rfl⟩ := hrow
  simp

/-- Entries and shape of the sum of two matrices of n rows of n entries. -/
theorem matrixAdd_of_shape [Zero β] [Add β] (a b : List (List β)) (n : Nat)
    (ha : a.length = n) (hb : b.length = n) (hra : ∀ row ∈ a, row.length = n)
    (hrb : ∀ row ∈ b, row.length = n) :
    (matrixAdd a b).length = n ∧ (∀ row ∈ matrixAdd a b, row.length = n) ∧
    ∀ j k, j < n → k < n →
      matrixEntry (matrixAdd a b) j k = matrixEntry a j k + matrixEntry b j k := by
  refine ⟨by simp [matrixAdd, ha, hb], fun row hrow => ?_, fun j k hj hk => ?_⟩
  · obtain ⟨i, hi, rfl⟩ := List.getElem_of_mem hrow
    simp only [matrixAdd, List.length_zipWith] at hi
    simp only [matrixAdd, arrayAdd, List.getElem_zipWith, List.length_zipWith]
    rw [hra _ (List.getElem_mem _), hrb _ (List.getElem_mem _)]
    simp
  · unfold matrixEntry matrixAdd
    rw [getD_zipWith_of_lt arrayAdd a b j [] [] [] (by omega) (by omega)]
    unfold arrayAdd
    rw [getD_zipWith_of_lt _ _ _ k 0 0 0 (by rw [length_row a n j ha hra hj]; exact hk)
      (by rw [length_row b n j hb hrb hj]; exact hk)]

/-- Entries and shape of the difference of two matrices of n rows of n entries. -/
theorem matrixSub_of_shape [Zero β] [Sub β] (a b : List (List β)) (n : Nat)
    (ha : a.length = n) (hb : b.length = n) (hra : ∀ row ∈ a, row.length = n)
    (hrb : ∀ row ∈ b, row.length = n) :
    (matrixSub a b).length = n ∧ (∀ row ∈ matrixSub a b, row.length = n) ∧
    ∀ j k, j < n → k < n →
      matrixEntry (matrixSub a b) j k = matrixEntry a j k - matrixEntry b j k := by
  refine ⟨by simp [matrixSub, ha, hb], fun row hrow => ?_, fun j k hj hk => ?_⟩
  · obtain ⟨i, hi, rfl⟩ := List.getElem_of_mem hrow
    simp only [matrixSub, List.length_zipWith] at hi
    simp only [matrixSub, List.getElem_zipWith, List.length_zipWith]
    rw [hra _ (List.getElem_mem _), hrb _ (List.getElem_mem _)]
    simp
  · unfold matrixEntry matrixSub
    rw [getD_zipWith_of_lt _ a b j [] [] [] (by omega) (by omega)]
    rw [getD_zipWith_of_lt _ _ _ k 0 0 0 (by rw [length_row a n j ha hra hj]; exact hk)
      (by rw [length_row b n j hb hrb hj]; exact hk)]

/-- Entries and shape of the product of a scalar and a matrix of n rows of n entries. -/
theorem matrixScale_of_shape [Zero β] [Mul β] (c : β) (a : List (List β)) (n : Nat)
    (ha : a.length = n) (hra : ∀ row ∈ a, row.length = n) :
    (matrixScale c a).length = n ∧ (∀ row ∈ matrixScale c a, row.length = n) ∧
    ∀ j k, j < n → k < n → matrixEntry (matrixScale c a) j k = c * matrixEntry a j k := by
  refine ⟨by simp [matrixScale, ha], fun row hrow => ?_, fun j k hj hk => ?_⟩
  · simp only [matrixScale, arrayScale, List.mem_map] at hrow
    obtain ⟨r, hr, rfl⟩ := hrow
    simp [hra r hr]
  · unfold matrixEntry matrixScale
    rw [getD_map_of_lt _ a j [] [] (by omega)]
    unfold arrayScale
    rw [getD_map_of_lt _ _ k 0 0 (by rw [length_row a n j ha hra hj]; exact hk)]

/-- A reset accumulator has sums of its size, and a quadratic sum of zeros. -/
theorem MultivariateAccumulator.reset_sums [Zero β] (s : MultivariateAccumulator β) :
    (MultivariateAccumulator.reset s).WellSized ∧
    ∀ j k, matrixEntry (MultivariateAccumulator.reset s).quadraticSum_ j k = 0 := by
  refine ⟨⟨by simp [MultivariateAccumulator.reset], by simp [MultivariateAccumulator.reset],
    fun row hrow => ?_⟩, fun j k => ?_⟩
  · simp only [MultivariateAccumulator.reset] at hrow
    rw [List.eq_of_mem_replicate hrow]
    simp [MultivariateAccumulator.reset]
  · simp only [MultivariateAccumulator.reset, matrixEntry, List.getD_eq_getElem?_getD,
      List.getElem?_replicate]
    split_ifs <;> simp [List.getElem?_replicate]
    split_ifs <;> simp

/-- An accepted sample, in any arithmetic: the sample has the size the accumulator has
afterwards, and its weighed outer product has been added to the quadratic sum of the
accumulator, reset first if its size was 0. -/
theorem MultivariateAccumulator.add_accepted [Zero β] [One β] [Add β] [Mul β] [LE β]
    [DecidableRel (α := β) (· ≤ ·)] (value : List β) (weight : β)
    (s : MultivariateAccumulator β)
    (hok : (MultivariateAccumulator.add value weight s).result = .ok ()) :
    (s.size_ ≠ 0 → value.length = s.size_) ∧
    (MultivariateAccumulator.add value weight s).object.size_ = value.length ∧
    (MultivariateAccumulator.add value weight s).object.sum_
      = arrayAdd (if s.size_ = 0 then List.replicate value.length 0 else s.sum_)
          (arrayScale weight value) ∧
    (MultivariateAccumulator.add value weight s).object.quadraticSum_
      = matrixAdd
          (if s.size_ = 0 then List.replicate value.length (List.replicate value.length 0)
            else s.quadraticSum_)
          (outerProduct (arrayScale weight value) value) := by
  by_cases h0 : s.size_ = 0
  · by_cases hw : 0 ≤ weight
    · simp [MultivariateAccumulator.add, h0, hw, MultivariateAccumulator.reset]
    · simp [MultivariateAccumulator.add, h0, hw] at hok
  · by_cases hl : value.length = s.size_
    · by_cases hw : 0 ≤ weight
      · simp [MultivariateAccumulator.add, h0, hl, hw]
      · simp [MultivariateAccumulator.add, h0, hl, hw] at hok
    · simp [MultivariateAccumulator.add, h0, hl] at hok

/-- An accepted sample whose products (weight * x_j) * x_k and (weight * x_k) * x_j agree keeps
the sums of the size of the accumulator and the quadratic sum symmetric. -/
theorem MultivariateAccumulator.add_keeps_symmetry [Zero β] [One β] [Add β] [Mul β] [LE β]
    [DecidableRel (α := β) (· ≤ ·)] (value : List β)
    (weight : β)
    (s : MultivariateAccumulator β) (hs : s.WellSized)
    (hsym : ∀ j k, matrixEntry s.quadraticSum_ j k = matrixEntry s.quadraticSum_ k j)
    (hprod : ∀ j, j < value.length → ∀ k, k < value.length →
      weight * value.getD j 0 * value.getD k 0 = weight * value.getD k 0 * value.getD j 0)
    (hok : (MultivariateAccumulator.add value weight s).result = .ok ()) :
    (MultivariateAccumulator.add value weight s).object.WellSized ∧
    ∀ j k, matrixEntry (MultivariateAccumulator.add value weight s).object.quadraticSum_ j k
      = matrixEntry (MultivariateAccumulator.add value weight s).object.quadraticSum_ k j := by
  obtain ⟨hsize, hsz, hsum, hq⟩ := MultivariateAccumulator.add_accepted value weight s hok
  obtain ⟨hs1, hs2, hs3⟩ := hs
  -- the sums the sample is added to: those of s, or zeros of the size of the sample
  have hbase : ∃ (S : List β) (Q : List (List β)),
      (MultivariateAccumulator.add value weight s).object.sum_
        = arrayAdd S (arrayScale weight value) ∧
      (MultivariateAccumulator.add value weight s).object.quadraticSum_
        = matrixAdd Q (outerProduct (arrayScale weight value) value) ∧
      S.length = value.length ∧ Q.length = value.length ∧
      (∀ row ∈ Q, row.length = value.length) ∧
      ∀ j k, matrixEntry Q j k = matrixEntry Q k j := by
    by_cases h0 : s.size_ = 0
    · refine ⟨_, _, by rw [hsum, if_pos h0], by rw [hq, if_pos h0], by simp, by simp,
        fun row hrow => ?_, fun j k => ?_⟩
      · rw [List.eq_of_mem_replicate hrow]
        simp
      · have hz := (MultivariateAccumulator.reset_sums
          (⟨value.length, 0, 0, [], []⟩ : MultivariateAccumulator β)).2
        simp only [MultivariateAccumulator.reset] at hz
        rw [hz j k, hz k j]
    · have hl := hsize h0
      exact ⟨_, _, by rw [hsum, if_neg h0], by rw [hq, if_neg h0], by rw [hs1, hl],
        by rw [hs2, hl], fun row hrow => by rw [hs3 row hrow, hl], hsym⟩
  obtain ⟨S, Q, hS, hQ, hSl, hQl, hQr, hQs⟩ := hbase
  have hwl : (arrayScale weight value).length = value.length := by simp [arrayScale]
  obtain ⟨ho1, ho2⟩ := shape_outerProduct (arrayScale weight value) value
  obtain ⟨ha1, ha2, ha3⟩ := matrixAdd_of_shape Q
    (outerProduct (arrayScale weight value) value) value.length hQl (by rw [ho1, hwl]) hQr ho2
  refine ⟨⟨?_, ?_, ?_⟩, fun j k => ?_⟩
  · rw [hS, hsz]
    simp [arrayAdd, hSl, hwl]
  · rw [hQ, hsz]
    exact ha1
  · rw [hQ, hsz]
    exact ha2
  · rw [hQ]
    by_cases hjk : j < value.length ∧ k < value.length
    · obtain ⟨hj, hk⟩ := hjk
      rw [ha3 j k hj hk, ha3 k j hk hj, hQs j k,
        matrixEntry_outerProduct_of_lt _ _ j k (by rw [hwl]; exact hj) hk,
        matrixEntry_outerProduct_of_lt _ _ k j (by rw [hwl]; exact hk) hj]
      unfold arrayScale
      rw [getD_map_of_lt _ value j 0 0 hj, getD_map_of_lt _ value k 0 0 hk, hprod j hj k hk]
    · rw [matrixEntry_outside _ value.length j k ha1 ha2 (by omega),
        matrixEntry_outside _ value.length k j ha1 ha2 (by omega)]

/-- Accepted samples whose products agree keep the quadratic sum symmetric. -/
theorem MultivariateAccumulator.addEach_keeps_symmetry [Zero β] [One β] [Add β] [Mul β] [LE β]
    [DecidableRel (α := β) (· ≤ ·)] 
    (samples : List (List β × β))
    (s0 s : MultivariateAccumulator β) (hs : s0.WellSized)
    (hsym : ∀ j k, matrixEntry s0.quadraticSum_ j k = matrixEntry s0.quadraticSum_ k j)
    (hprod : ∀ p ∈ samples, ∀ j, j < p.1.length → ∀ k, k < p.1.length →
      p.2 * p.1.getD j 0 * p.1.getD k 0 = p.2 * p.1.getD k 0 * p.1.getD j 0)
    (hadd : MultivariateAccumulator.addEach samples s0 = .ok s) :
    s.WellSized ∧
    ∀ j k, matrixEntry s.quadraticSum_ j k = matrixEntry s.quadraticSum_ k j := by
  induction samples generalizing s0 with
  | nil =>
    simp only [MultivariateAccumulator.addEach, Except.ok.injEq] at hadd
    subst hadd
    exact ⟨hs, hsym⟩
  | cons p rest ih =>
    obtain ⟨value, weight⟩ := p
    simp only [MultivariateAccumulator.addEach] at hadd
    cases hres : (MultivariateAccumulator.add value weight s0).result with
    | error e => rw [hres] at hadd; exact absurd hadd (by simp)
    | ok u =>
      rw [hres] at hadd
      obtain ⟨hws, hsy⟩ := MultivariateAccumulator.add_keeps_symmetry value weight s0 hs hsym
        (hprod (value, weight) (List.mem_cons_self _ _)) hres
      exact ih _ hws hsy (fun p hp => hprod p (List.mem_cons_of_mem _ hp)) hadd

/-- C23, as amended: in any arithmetic with a commutative product, exact or rounded, the
matrix returned by covariance after accepted samples, starting from a reset accumulator, is
symmetric (entry (j, k) equals entry (k, j)) provided that for every sample the two
products (weight * x_j) * x_k and (weight * x_k) * x_j, which the source adds to the entries
(j, k) and (k, j) of quadraticSum_, are the same number. -/
theorem MultivariateAccumulator.covariance_symmetric_of_symmetric_products
    [Zero β] [One β] [Add β] [Sub β] [Mul β] [Div β] [LE β] [LT β]
    [DecidableRel (α := β) (· ≤ ·)] [DecidableRel (α := β) (· < ·)]
    (hcomm : ∀ a b : β, a * b = b * a) (samples : List (List β × β))
    (s0 s : MultivariateAccumulator β) (M : List (List β))
    (hprod : ∀ p ∈ samples, ∀ j, j < p.1.length → ∀ k, k < p.1.length →
      p.2 * p.1.getD j 0 * p.1.getD k 0 = p.2 * p.1.getD k 0 * p.1.getD j 0)
    (hadd : MultivariateAccumulator.addEach samples (MultivariateAccumulator.reset s0) = .ok s)
    (hcov : MultivariateAccumulator.covariance s = .ok M) (j k : Nat) :
    matrixEntry M j k = matrixEntry M k j := by
  obtain ⟨hreset, hzero⟩ := MultivariateAccumulator.reset_sums s0
  obtain ⟨⟨hs1, hs2, hs3⟩, hsym⟩ := MultivariateAccumulator.addEach_keeps_symmetry samples
    _ s hreset (fun j k => by rw [hzero j k, hzero k j]) hprod hadd
  simp only [MultivariateAccumulator.covariance] at hcov
  split_ifs at hcov
  simp only [Except.ok.injEq] at hcov
  subst hcov
  obtain ⟨ho1, ho2⟩ := shape_outerProduct s.sum_ s.sum_
  rw [hs1] at ho1 ho2
  obtain ⟨hi1, hi2, hi3⟩ := matrixScale_of_shape (1 / s.sampleWeight_)
    (outerProduct s.sum_ s.sum_) s.size_ ho1 ho2
  obtain ⟨hd1, hd2, hd3⟩ := matrixSub_of_shape s.quadraticSum_ _ s.size_ hs2 hi1 hs3 hi2
  obtain ⟨hc1, hc2, hc3⟩ := matrixScale_of_shape
    (s.sampleNumber_ / (s.sampleNumber_ - 1) * (1 / s.sampleWeight_)) _ s.size_ hd1 hd2
  by_cases hjk : j < s.size_ ∧ k < s.size_
  · obtain ⟨hj, hk⟩ := hjk
    rw [hc3 j k hj hk, hc3 k j hk hj, hd3 j k hj hk, hd3 k j hk hj, hi3 j k hj hk,
      hi3 k j hk hj, hsym j k,
      matrixEntry_outerProduct_of_lt _ _ j k (by rw [hs1]; exact hj) (by rw [hs1]; exact hk),
      matrixEntry_outerProduct_of_lt _ _ k j (by rw [hs1]; exact hk) (by rw [hs1]; exact hj),
      hcomm (s.sum_.getD j 0)]
  · rw [matrixEntry_outside _ s.size_ j k hc1 hc2 (by omega),
      matrixEntry_outside _ s.size_ k j hc1 hc2 (by omega)]

end Rounded

/-! ## The accumulator in double arithmetic -/

/-- The product of two doubles does not depend on their order. -/
theorem Binary64.mul_comm (a b : Binary64) : a * b = b * a := by
  show Binary64.mul a b = Binary64.mul b a
  unfold Binary64.mul
  rw [Int.mul_comm, Int.add_comm]

set_option maxRecDepth 1000000 in
/-- Witness of C23 as amended, in double arithmetic: for the unit-weight samples (0.1, 0.7),
(0.3, 0.2) and (1.1, 2.3) the products weight * x_j * x_k agree in both orders, and the
entries (0, 1) and (1, 0) of the covariance matrix are the same double
4773815605012725 * 2^-53 (0.5299999999999999). -/
theorem MultivariateAccumulator.covariance_symmetric_of_symmetric_products_witness :
    MultivariateAccumulator.addEach binary64UnitSamples
      (MultivariateAccumulator.reset ⟨0, 0, 0, [], []⟩)
      = .ok ⟨2, ⟨3, 0⟩, ⟨3, 0⟩, [⟨3, -1⟩, ⟨7205759403792793, -51⟩],
          [[⟨5899715511855351, -52⟩, ⟨5989787504402759, -51⟩],
           [⟨5989787504402759, -51⟩, ⟨6552737457824071, -50⟩]]⟩ ∧
    MultivariateAccumulator.covariance
      (⟨2, ⟨3, 0⟩, ⟨3, 0⟩, [⟨3, -1⟩, ⟨7205759403792793, -51⟩],
          [[⟨5899715511855351, -52⟩, ⟨5989787504402759, -51⟩],
           [⟨5989787504402759, -51⟩, ⟨6552737457824071, -50⟩]]⟩ :
        MultivariateAccumulator Binary64)
      = .ok [[⟨2522015791327479, -53⟩, ⟨4773815605012725, -53⟩],
          [⟨4773815605012725, -53⟩, ⟨5419331551602497, -52⟩]] ∧
    matrixEntry ([[⟨2522015791327479, -53⟩, ⟨4773815605012725, -53⟩],
          [⟨4773815605012725, -53⟩, ⟨5419331551602497, -52⟩]] : List (List Binary64)) 0 1
      = matrixEntry ([[⟨2522015791327479, -53⟩, ⟨4773815605012725, -53⟩],
          [⟨4773815605012725, -53⟩, ⟨5419331551602497, -52⟩]] : List (List Binary64)) 1 0 :=
  have hadd : MultivariateAccumulator.addEach binary64UnitSamples
      (MultivariateAccumulator.reset ⟨0, 0, 0, [], []⟩)
      = .ok ⟨2, ⟨3, 0⟩, ⟨3, 0⟩, [⟨3, -1⟩, ⟨7205759403792793, -51⟩],
          [[⟨5899715511855351, -52⟩, ⟨5989787504402759, -51⟩],
           [⟨5989787504402759, -51⟩, ⟨6552737457824071, -50⟩]]⟩ := by rfl
  have hcov : MultivariateAccumulator.covariance
      (⟨2, ⟨3, 0⟩, ⟨3, 0⟩, [⟨3, -1⟩, ⟨7205759403792793, -51⟩],
          [[⟨5899715511855351, -52⟩, ⟨5989787504402759, -51⟩],
           [⟨5989787504402759, -51⟩, ⟨6552737457824071, -50⟩]]⟩ :
        MultivariateAccumulator Binary64)
      = .ok [[⟨2522015791327479, -53⟩, ⟨4773815605012725, -53⟩],
          [⟨4773815605012725, -53⟩, ⟨5419331551602497, -52⟩]] := by rfl
  ⟨hadd, hcov, MultivariateAccumulator.covariance_symmetric_of_symmetric_products
    Binary64.mul_comm binary64UnitSamples _ _ _ (by decide) hadd hcov 0 1⟩

set_option maxRecDepth 1000000 in
/-- Counterexample to C23: in double arithmetic, after the sample (3, 7) with weight 0.1 and
the sample (0, 0) with weight 1, quadraticSum_ holds (0.1 * 3) * 7 = 2.1000000000000005 in
entry (0, 1) and (0.1 * 7) * 3 = 2.1 in entry (1, 0), and covariance returns a matrix whose
entry (0, 1) is 3908082321271919 * 2^-50 (3.47107438016529) and whose entry (1, 0) is
1954041160635959 * 2^-49 (3.4710743801652892). -/
theorem MultivariateAccumulator.covariance_not_symmetric_in_binary64 :
    MultivariateAccumulator.addEach binary64WeightedSamples
      (MultivariateAccumulator.create 0)
      = .ok ⟨2, ⟨1, 1⟩, ⟨2476979795053773, -51⟩,
          [⟨1351079888211149, -52⟩, ⟨6305039478318695, -53⟩],
          [[⟨4053239664633447, -52⟩, ⟨2364389804369511, -50⟩],
           [⟨4728779608739021, -51⟩, ⟨2758454771764429, -49⟩]]⟩ ∧
    MultivariateAccumulator.covariance
      (⟨2, ⟨1, 1⟩, ⟨2476979795053773, -51⟩,
          [⟨1351079888211149, -52⟩, ⟨6305039478318695, -53⟩],
          [[⟨4053239664633447, -52⟩, ⟨2364389804369511, -50⟩],
           [⟨4728779608739021, -51⟩, ⟨2758454771764429, -49⟩]]⟩ :
        MultivariateAccumulator Binary64)
      = .ok [[⟨6699569693609003, -52⟩, ⟨3908082321271919, -50⟩],
          [⟨1954041160635959, -49⟩, ⟨2279714687408619, -48⟩]] ∧
    matrixEntry ([[⟨6699569693609003, -52⟩, ⟨3908082321271919, -50⟩],
          [⟨1954041160635959, -49⟩, ⟨2279714687408619, -48⟩]] : List (List Binary64)) 0 1
      ≠ matrixEntry ([[⟨6699569693609003, -52⟩, ⟨3908082321271919, -50⟩],
          [⟨1954041160635959, -49⟩, ⟨2279714687408619, -48⟩]] : List (List Binary64)) 1 0 :=
  ⟨by rfl, by rfl, by decide⟩

set_option maxRecDepth 1000000 in
/-- Counterexample to C16: in double arithmetic covariance does not return the unbiased
sample covariance. For the unit-weight samples 1e8, 1e8 + 1 and 1e8 + 2 it returns 0, while
their unbiased sample variance, which it returns in exact arithmetic, is 1. For the test
data it returns 5029019583897053 * 2^-51 (2.2333333333333329) in every entry: not 67/30, nor
the double nearest to 67/30, though within 10^-15 of it. -/
theorem MultivariateAccumulator.covariance_in_binary64_cancels :
    (MultivariateAccumulator.addEach binary64LargeMeanSamples
      (MultivariateAccumulator.create 0)).bind MultivariateAccumulator.covariance
      = .ok [[0]] ∧
    (MultivariateAccumulator.addEach largeMeanSamples
      (MultivariateAccumulator.create 0)).bind MultivariateAccumulator.covariance
      = .ok [[1]] ∧
    (MultivariateAccumulator.addEach binary64TestSamples
      (MultivariateAccumulator.create 0)).bind MultivariateAccumulator.covariance
      = .ok (List.replicate 5 (List.replicate 5 ⟨5029019583897053, -51⟩)) ∧
    (⟨5029019583897053, -51⟩ : Binary64) ≠ Binary64.ofInt 67 / Binary64.ofInt 30 ∧
    Binary64.toRat ⟨5029019583897053, -51⟩ ≠ 67 / 30 ∧
    |Binary64.toRat ⟨5029019583897053, -51⟩ - 67 / 30| < 1 / 10 ^ 15 := by
  refine ⟨by rfl, ?_, by rfl, by decide, ?_, ?_⟩
  · norm_num [largeMeanSamples, MultivariateAccumulator.addEach, MultivariateAccumulator.add,
      MultivariateAccumulator.reset, MultivariateAccumulator.create,
      MultivariateAccumulator.covariance, Except.bind, arrayAdd, arrayScale, matrixAdd,
      matrixSub, matrixScale, outerProduct, List.replicate]
  · norm_num [Binary64.toRat]
  · norm_num [Binary64.toRat, abs_lt]

end Math

end QuantLib
